import Mathlib

/-!
# protobuf_for_node: conversion between JavaScript values and protocol-buffer messages

A shallow embedding of `src/protobuf_for_node.cc`.

* JavaScript values are finite trees: `undefined`, `null`, booleans, Numbers
  (the integers, the fractions `m / 2 ^ k`, NaN and the infinities), strings,
  `Buffer`s, arrays, objects with own data properties, and any of the last
  three with a prototype, through which a property that is not its own is
  read.  A function is an object.  Accessor properties and values that contain
  themselves are outside the embedding.
* The V8 conversions whose result depends on the text of a value
  (`String::Utf8Value`, `String::AsciiValue`, `String::New`), the numeric
  conversions of values that are not Numbers, and the conversions of a `double`
  that C++ leaves to the implementation are functions of a `Host`.
* The protocol-buffer runtime is external: descriptors are data, a message is
  the table of its cells in declared field order, and the wire codec
  (`ParseFromArray`, `SerializeWithCachedSizesToArray`) is a `WireCodec`.
-/

namespace protobuf_for_node

/-! ## JavaScript values -/

/-- The value of a C++ `double`, which is what an ECMAScript Number holds: the
integer `n`, the number `m / 2 ^ k`, NaN, or an infinity.  Every finite double
is an integer or such a fraction; the two zeros are not told apart. -/
inductive JsNumber where
  | int (n : Int)
  | fraction (m : Int) (k : Nat)
  | nan
  | infinity (negative : Bool)
  deriving DecidableEq, Repr

/-- The integer part of a finite number, rounding toward zero; `none` for NaN
and the infinities. -/
def JsNumber.truncate : JsNumber → Option Int
  | .int n => some n
  | .fraction m k => some (Int.tdiv m (2 ^ k))
  | _ => none

/-- The values a `v8::Handle<v8::Value>` can refer to.
* A Number is `number n` (the integer `n`), `fraction m k` (the number
  `m / 2 ^ k`), `nan` or `infinity negative`.  Every double is one of these;
  the conversions below depend on the number only, not on how it is written.
* `object props` is an object with the own data properties `props`, in
  enumeration order, that inherits nothing; `array` and `buffer` likewise have
  their own properties only, the `length` and the indices.
* `withPrototype self proto` is the object, array or buffer `self` with the
  prototype `proto`: a property `self` does not have is read from `proto`.  An
  object literal is `withPrototype (object props) p` with `p` the
  `Object.prototype` of the host. -/
inductive JsValue where
  | undefined
  | null
  | boolean (b : Bool)
  | number (n : Int)
  | fraction (m : Int) (k : Nat)
  | nan
  | infinity (negative : Bool)
  | string (s : String)
  | buffer (data : List Nat)
  | array (elems : List JsValue)
  | object (props : List (String × JsValue))
  | withPrototype (self : JsValue) (proto : JsValue)

namespace JsValue

/-- Models `Value::IsUndefined`. -/
def IsUndefined : JsValue → Bool
  | undefined => true
  | _ => false

/-- Models `Value::IsNull`. -/
def IsNull : JsValue → Bool
  | null => true
  | _ => false

/-- Models `Value::IsNumber`. -/
def IsNumber : JsValue → Bool
  | number _ => true
  | fraction _ _ => true
  | nan => true
  | infinity _ => true
  | _ => false

/-- The Number a value is, when it is one. -/
def asNumber : JsValue → Option JsNumber
  | number n => some (.int n)
  | fraction m k => some (.fraction m k)
  | nan => some .nan
  | infinity negative => some (.infinity negative)
  | _ => none

/-- The value `Number::New` makes of a double. -/
def ofNumber : JsNumber → JsValue
  | .int n => number n
  | .fraction m k => fraction m k
  | .nan => nan
  | .infinity negative => infinity negative

/-- Models `Value::IsArray`. -/
def IsArray : JsValue → Bool
  | array _ => true
  | withPrototype self _ => IsArray self
  | _ => false

/-- Models `Value::IsObject`: arrays and buffers are objects too. -/
def IsObject : JsValue → Bool
  | buffer _ => true
  | array _ => true
  | object _ => true
  | withPrototype _ _ => true
  | _ => false

/-- Models `node::Buffer::HasInstance`, which does not look at the prototype. -/
def IsBuffer : JsValue → Bool
  | buffer _ => true
  | withPrototype self _ => IsBuffer self
  | _ => false

/-- Models `Value::BooleanValue` (the ECMAScript ToBoolean conversion). -/
def BooleanValue : JsValue → Bool
  | undefined => false
  | null => false
  | boolean b => b
  | number n => n != 0
  | fraction m _ => m != 0
  | nan => false
  | string s => s != ""
  | _ => true

/-- The elements of an array (`Array::Get(j)` for `j < Length()`). -/
def elements : JsValue → List JsValue
  | array elems => elems
  | withPrototype self _ => elements self
  | _ => []

/-- The bytes of a buffer (`Buffer::Data`, `Buffer::Length`). -/
def bufferData : JsValue → List Nat
  | buffer data => data
  | withPrototype self _ => bufferData self
  | _ => []

/-- Own-property lookup in a property table. -/
def lookup (name : String) : List (String × JsValue) → JsValue
  | [] => undefined
  | (k, v) :: rest => if k = name then v else lookup name rest

/-- The index below `length` that the property name `name` is the decimal
text of, if there is one. -/
def index (name : String) (length : Nat) : Option Nat :=
  (List.range length).find? (fun j => toString j = name)

/-- Whether the value has the property `name`, of its own or through its
prototype chain (the ECMAScript HasProperty).  The own properties of an array
or buffer are its `length` and its indices. -/
def Has : JsValue → String → Bool
  | object props, name => decide (name ∈ props.map Prod.fst)
  | array elems, name => decide (name = "length") || (index name elems.length).isSome
  | buffer data, name => decide (name = "length") || (index name data.length).isSome
  | withPrototype self proto, name => Has self name || Has proto name
  | _, _ => false

/-- The property read `this[name]` of the generated accessor: an own data
property of an object, the `length` or an element of an array or buffer, and
for a value with a prototype the property of the prototype when the value has
none of that name; `undefined` otherwise. -/
def Get : JsValue → String → JsValue
  | object props, name => lookup name props
  | array elems, name =>
    if name = "length" then number elems.length
    else
      match index name elems.length with
      | some j => elems.getD j undefined
      | none => undefined
  | buffer data, name =>
    if name = "length" then number data.length
    else
      match index name data.length with
      | some j => number (data.getD j 0)
      | none => undefined
  | withPrototype self proto, name => if Has self name then Get self name else Get proto name
  | _, _ => undefined

/-- The property write `this[name] = x`: an existing key keeps its place, a new
key goes last. -/
def setProp (name : String) (x : JsValue) : List (String × JsValue) → List (String × JsValue)
  | [] => [(name, x)]
  | (k, v) :: rest => if k = name then (k, x) :: rest else (k, v) :: setProp name x rest

/-- The own keys of an object in enumeration order. -/
def keys : JsValue → List String
  | object props => props.map Prod.fst
  | withPrototype self _ => keys self
  | _ => []

mutual
/-- A size on values: every value read out of an object or array is smaller
than it. -/
def size : JsValue → Nat
  | array elems => sizeList elems + 2
  | object props => sizeProps props + 2
  | buffer _ => 2
  | withPrototype self proto => size self + size proto + 1
  | _ => 1
/-- Total size of a list of values. -/
def sizeList : List JsValue → Nat
  | [] => 0
  | x :: xs => size x + sizeList xs + 1
/-- Total size of a property table. -/
def sizeProps : List (String × JsValue) → Nat
  | [] => 0
  | (_, x) :: ps => size x + sizeProps ps + 1
end

end JsValue

/-! ## Descriptors (external protocol-buffer descriptor model) -/

/-- Models `FieldDescriptor::CppType`. -/
inductive CppType where
  | CPPTYPE_INT32
  | CPPTYPE_INT64
  | CPPTYPE_UINT32
  | CPPTYPE_UINT64
  | CPPTYPE_DOUBLE
  | CPPTYPE_FLOAT
  | CPPTYPE_BOOL
  | CPPTYPE_ENUM
  | CPPTYPE_STRING
  | CPPTYPE_MESSAGE
  deriving DecidableEq, Repr

/-- Models `EnumValueDescriptor`. -/
structure EnumValueDescriptor where
  name : String
  number : Int
  deriving DecidableEq, Repr

/-- Models `EnumDescriptor`: the declared values, in declaration order. -/
structure EnumDescriptor where
  values : List EnumValueDescriptor
  deriving DecidableEq, Repr

/-- Models `EnumDescriptor::FindValueByNumber`: the first declared value with
that number. -/
def EnumDescriptor.FindValueByNumber (e : EnumDescriptor) (n : Int) :
    Option EnumValueDescriptor :=
  e.values.find? (fun v => decide (v.number = n))

/-- Models `EnumDescriptor::FindValueByName`. -/
def EnumDescriptor.FindValueByName (e : EnumDescriptor) (s : String) :
    Option EnumValueDescriptor :=
  e.values.find? (fun v => decide (v.name = s))

/-- Models `FieldDescriptor`.  `is_bytes` is `type() == TYPE_BYTES`;
`message_type` is the `const Descriptor*` of a message-kind field and
`enum_type` the enum of an enum-kind field. -/
structure FieldDescriptor where
  camelcase_name : String
  cpp_type : CppType
  is_bytes : Bool
  is_repeated : Bool
  message_type : Nat
  enum_type : EnumDescriptor
  deriving DecidableEq, Repr

/-- Models `Descriptor`: a message type and its fields in declared order. -/
structure Descriptor where
  full_name : String
  fields : List FieldDescriptor
  deriving DecidableEq, Repr

/-- Models `Descriptor::field_count`. -/
def Descriptor.field_count (d : Descriptor) : Nat := d.fields.length

/-- Models `DescriptorPool`.  A `const Descriptor*` is a number; `descriptor`
dereferences it and `FindMessageTypeByName` resolves a full name (`none` is the
null pointer). -/
structure DescriptorPool where
  descriptor : Nat → Descriptor
  FindMessageTypeByName : String → Option Nat

/-! ## Messages (external reflection model) -/

mutual
/-- A `google::protobuf::Message`: one cell per declared field, in declared
order.  The cell of a singular field is empty while the field is not set and
holds its one value once it is; the cell of a repeated field holds its
elements. -/
inductive Message where
  | mk (cells : List (List FieldValue))
/-- A value stored in a cell, by `cpp_type`. -/
inductive FieldValue where
  | Message (m : Message)
  | String (s : List Nat)
  | Int32 (v : Int)
  | UInt32 (v : Int)
  | Int64 (v : Int)
  | UInt64 (v : Int)
  | Float (v : JsNumber)
  | Double (v : JsNumber)
  | Bool (b : Bool)
  | Enum (v : EnumValueDescriptor)
end

namespace Message

/-- The cell table. -/
def cells : Message → List (List FieldValue)
  | mk cs => cs

/-- The cell of field `i`. -/
def cell (m : Message) (i : Nat) : List FieldValue := m.cells.getD i []

/-- Models `Reflection::HasField` for the singular field `i`. -/
def HasField (m : Message) (i : Nat) : Bool := !(m.cell i).isEmpty

/-- Models `Reflection::FieldSize` for the repeated field `i`. -/
def FieldSize (m : Message) (i : Nat) : Nat := (m.cell i).length

/-- Models `Reflection::Set<TYPE>`: the field is now set and holds `v`. -/
def Set (m : Message) (i : Nat) (v : FieldValue) : Message :=
  mk (m.cells.set i [v])

/-- Models `Reflection::Add<TYPE>`: `v` becomes the last element. -/
def Add (m : Message) (i : Nat) (v : FieldValue) : Message :=
  mk (m.cells.set i (m.cell i ++ [v]))

end Message

/-- Models `Schema::NewMessage`, `factory_.GetPrototype(descriptor)->New()`: no
field is set and every repeated field is empty. -/
def NewMessage (descriptor : Descriptor) : Message :=
  Message.mk (List.replicate descriptor.field_count [])

/-! ## The host's value conversions -/

/-- The V8 conversions that depend on the text of a value or convert a value
that is not a Number to one, and the conversions of a `double` that C++ leaves
to the implementation.
* `Utf8Value v`: the bytes of `String::Utf8Value(v)`;
* `AsciiValue v`: the C string `*String::AsciiValue(v)`;
* `NewString bytes`: the string `String::New(data, length)` makes of UTF-8 bytes;
* `Int32Value`, `Uint32Value`, `NumberValue`: the conversions of the same name,
  consulted for values that are not Numbers;
* `DoubleToInt64`, `DoubleToUint64`: the result of converting a double to
  `int64`, `uint64`, consulted where the integer part of the double is outside
  the range of the type or the double has none (undefined behaviour in C++);
* `DoubleToFloat`: the conversion of a double to `float`, which is exact for a
  value a `float` holds and otherwise rounds as the implementation defines. -/
structure Host where
  Utf8Value : JsValue → List Nat
  AsciiValue : JsValue → String
  NewString : List Nat → String
  Int32Value : JsValue → Int
  Uint32Value : JsValue → Int
  NumberValue : JsValue → JsNumber
  DoubleToInt64 : JsNumber → Int
  DoubleToUint64 : JsNumber → Int
  DoubleToFloat : JsNumber → JsNumber

/-- The ECMAScript ToInt32 conversion of an integer: modulo `2^32` into
`[-2^31, 2^31)`. -/
def ToInt32 (n : Int) : Int := (n + 2 ^ 31) % 2 ^ 32 - 2 ^ 31

/-- The ECMAScript ToUint32 conversion of an integer: modulo `2^32`. -/
def ToUint32 (n : Int) : Int := n % 2 ^ 32

/-- Models `Value::Int32Value`: for a Number the ECMAScript ToInt32, which
takes the integer part of a finite number modulo `2^32` and gives 0 for NaN
and the infinities. -/
def Int32Value (host : Host) : JsValue → Int
  | .number n => ToInt32 n
  | .fraction m k => ToInt32 (Int.tdiv m (2 ^ k))
  | .nan => 0
  | .infinity _ => 0
  | v => host.Int32Value v

/-- Models `Value::Uint32Value`: for a Number the ECMAScript ToUint32. -/
def Uint32Value (host : Host) : JsValue → Int
  | .number n => ToUint32 n
  | .fraction m k => ToUint32 (Int.tdiv m (2 ^ k))
  | .nan => 0
  | .infinity _ => 0
  | v => host.Uint32Value v

/-- Models `Value::NumberValue`. -/
def NumberValue (host : Host) : JsValue → JsNumber
  | .number n => .int n
  | .fraction m k => .fraction m k
  | .nan => .nan
  | .infinity negative => .infinity negative
  | v => host.NumberValue v

/-- The C++ conversion of a double to `int64`: the integer part of the double
when that is in the range of `int64`.  Otherwise the conversion is undefined
behaviour in C++ and the result is the host's. -/
def castInt64 (host : Host) (x : JsNumber) : Int :=
  match x.truncate with
  | some t => if -2 ^ 63 ≤ t ∧ t < 2 ^ 63 then t else host.DoubleToInt64 x
  | none => host.DoubleToInt64 x

/-- The C++ conversion of a double to `uint64`: the integer part of the double
when that is in the range of `uint64`; otherwise (undefined behaviour in C++)
the result is the host's. -/
def castUInt64 (host : Host) (x : JsNumber) : Int :=
  match x.truncate with
  | some t => if 0 ≤ t ∧ t < 2 ^ 64 then t else host.DoubleToUint64 x
  | none => host.DoubleToUint64 x

/-- Round an integer to `p` significant bits, ties to even: the integer-valued
floating-point number with a `p`-bit significand nearest to `n`.  An integer
below `2^p` in absolute value is exact. -/
def roundToPrecision (p : Nat) (n : Int) : Int :=
  if n.natAbs < 2 ^ p then n
  else
    let a := n.natAbs
    let e := Nat.log2 a + 1 - p
    let q := a / 2 ^ e
    let r := a % 2 ^ e
    let up := decide (2 ^ e < 2 * r) || (decide (2 * r = 2 ^ e) && decide (q % 2 = 1))
    Int.sign n * (((if up then q + 1 else q) * 2 ^ e : Nat) : Int)

/-- The C++ conversion of a double to `float`. -/
def castFloat (host : Host) (x : JsNumber) : JsNumber := host.DoubleToFloat x

/-- The conversion of a 64-bit integer to a double in `Number::New`: a 64-bit
integer is below `2^64` in absolute value, so the nearest double is finite. -/
def castDouble (x : Int) : Int := roundToPrecision 53 x

/-! ## Errors -/

/-- The message of `E_NO_ARRAY`. -/
def E_NO_ARRAY : String := "Not an array"
/-- The message of `E_NO_OBJECT`. -/
def E_NO_OBJECT : String := "Not an object"
/-- The message of `E_UNKNOWN_ENUM`. -/
def E_UNKNOWN_ENUM : String := "Unknown enum value"

/-- A thrown JavaScript exception: `Exception::TypeError` or
`Exception::Error`, with its message. -/
inductive JsException where
  | TypeError (message : String)
  | Error (message : String)
  deriving DecidableEq, Repr

/-! ## Encoding: JavaScript object to message -/

/-- What a `ToProto` call leaves behind: the returned `const char*` (`none` is
`NULL`), the message it was populating, and the descriptors it passed to
`schema_->GetType`, in call order. -/
structure Populated where
  error : Option String
  message : Message
  lookups : List Nat

/-- The `SET(TYPE, EXPR)` macro: `Add<TYPE>` for an element of a repeated field,
`Set<TYPE>` for a singular field. -/
def SET (instance_ : Message) (i : Nat) (repeated : Bool) (v : FieldValue) : Message :=
  if repeated then instance_.Add i v else instance_.Set i v

/-- Models `Reflection::MutableMessage` (singular) and `Reflection::AddMessage`
(repeated): the sub-message the nested `ToProto` populates.  A singular field
that is set keeps its sub-message; otherwise the sub-message is new. -/
def SubMessage (pool : DescriptorPool) (instance_ : Message) (i : Nat)
    (field : FieldDescriptor) (repeated : Bool) : Message :=
  if repeated then NewMessage (pool.descriptor field.message_type)
  else
    match instance_.cell i with
    | FieldValue.Message m :: _ => m
    | _ => NewMessage (pool.descriptor field.message_type)

theorem JsValue.size_lookup_lt (name : String) (props : List (String × JsValue)) :
    (JsValue.lookup name props).size < JsValue.sizeProps props + 2 := by
  induction props with
  | nil => simp [JsValue.lookup, JsValue.size]
  | cons p ps ih =>
    obtain ⟨k, v⟩ := p
    simp only [JsValue.lookup, JsValue.sizeProps]
    split <;> omega

theorem JsValue.size_getD_lt (elems : List JsValue) :
    ∀ j : Nat, (elems.getD j .undefined).size < JsValue.sizeList elems + 2 := by
  induction elems with
  | nil => intro j; simp [JsValue.size]
  | cons x xs ih =>
    intro j
    cases j with
    | zero => simp only [List.getD_cons_zero, JsValue.sizeList]; omega
    | succ j =>
      have := ih j
      simp only [List.getD_cons_succ, JsValue.sizeList]
      omega

theorem JsValue.size_Get_lt : ∀ (self : JsValue) (name : String),
    ¬ ((self.Get name).IsUndefined || (self.Get name).IsNull) = true →
    (self.Get name).size < self.size
  | .object props, name, _ => by
    simpa [JsValue.Get, JsValue.size] using JsValue.size_lookup_lt name props
  | .array elems, name, _ => by
    simp only [JsValue.Get]
    split
    · simp [JsValue.size]
    · split
      · simpa [JsValue.size] using JsValue.size_getD_lt elems _
      · simp [JsValue.size]
  | .buffer data, name, _ => by
    simp only [JsValue.Get]
    split
    · simp [JsValue.size]
    · split <;> simp [JsValue.size]
  | .withPrototype self proto, name, h => by
    simp only [JsValue.Get] at h ⊢
    simp only [JsValue.size]
    split
    · rename_i hhas
      rw [if_pos hhas] at h
      have := JsValue.size_Get_lt self name h
      omega
    · rename_i hhas
      rw [if_neg hhas] at h
      have := JsValue.size_Get_lt proto name h
      omega
  | .undefined, _, h => by simp [JsValue.Get, JsValue.IsUndefined] at h
  | .null, _, h => by simp [JsValue.Get, JsValue.IsUndefined] at h
  | .boolean _, _, h => by simp [JsValue.Get, JsValue.IsUndefined] at h
  | .number _, _, h => by simp [JsValue.Get, JsValue.IsUndefined] at h
  | .fraction _ _, _, h => by simp [JsValue.Get, JsValue.IsUndefined] at h
  | .nan, _, h => by simp [JsValue.Get, JsValue.IsUndefined] at h
  | .infinity _, _, h => by simp [JsValue.Get, JsValue.IsUndefined] at h
  | .string _, _, h => by simp [JsValue.Get, JsValue.IsUndefined] at h

theorem JsValue.sizeList_elements_lt : ∀ v : JsValue, JsValue.sizeList v.elements < v.size
  | .withPrototype self proto => by
    have := JsValue.sizeList_elements_lt self
    simp only [JsValue.elements, JsValue.size]
    omega
  | .array _ => by simp [JsValue.elements, JsValue.size]
  | .object _ => by simp [JsValue.elements, JsValue.size, JsValue.sizeList]
  | .buffer _ => by simp [JsValue.elements, JsValue.size, JsValue.sizeList]
  | .undefined => by simp [JsValue.elements, JsValue.size, JsValue.sizeList]
  | .null => by simp [JsValue.elements, JsValue.size, JsValue.sizeList]
  | .boolean _ => by simp [JsValue.elements, JsValue.size, JsValue.sizeList]
  | .number _ => by simp [JsValue.elements, JsValue.size, JsValue.sizeList]
  | .fraction _ _ => by simp [JsValue.elements, JsValue.size, JsValue.sizeList]
  | .nan => by simp [JsValue.elements, JsValue.size, JsValue.sizeList]
  | .infinity _ => by simp [JsValue.elements, JsValue.size, JsValue.sizeList]
  | .string _ => by simp [JsValue.elements, JsValue.size, JsValue.sizeList]

/-- The loop guard `!error`: the steps after `first` run only when it returned
no error, on the message it left; the error of the first failing step is the
result. -/
def Populated.andThen (first : Populated) (rest : Message → Populated) : Populated :=
  match first.error with
  | some _ => first
  | none =>
    ⟨(rest first.message).error, (rest first.message).message,
      first.lookups ++ (rest first.message).lookups⟩

mutual
/-- The static `Schema::Type::ToProto(instance, field, value, type, repeated)`,
lines 276-339: store one value in field `i` of `instance_`.  In the message
case the result of the nested `type->ToProto` call is not looked at. -/
def ToProtoValue (host : Host) (pool : DescriptorPool) (instance_ : Message) (i : Nat)
    (field : FieldDescriptor) (value : JsValue) (repeated : Bool) : Populated :=
  match field.cpp_type with
  | .CPPTYPE_MESSAGE =>
    if value.IsObject then
      let sub := ToProto host pool (pool.descriptor field.message_type)
        (SubMessage pool instance_ i field repeated) value
      ⟨none, SET instance_ i repeated (.Message sub.message), sub.lookups⟩
    else ⟨some E_NO_OBJECT, instance_, []⟩
  | .CPPTYPE_STRING =>
    if value.IsBuffer then ⟨none, SET instance_ i repeated (.String value.bufferData), []⟩
    else ⟨none, SET instance_ i repeated (.String (host.Utf8Value value)), []⟩
  | .CPPTYPE_INT32 => ⟨none, SET instance_ i repeated (.Int32 (Int32Value host value)), []⟩
  | .CPPTYPE_UINT32 => ⟨none, SET instance_ i repeated (.UInt32 (Uint32Value host value)), []⟩
  | .CPPTYPE_INT64 =>
    ⟨none, SET instance_ i repeated (.Int64 (castInt64 host (NumberValue host value))), []⟩
  | .CPPTYPE_UINT64 =>
    ⟨none, SET instance_ i repeated (.UInt64 (castUInt64 host (NumberValue host value))), []⟩
  | .CPPTYPE_FLOAT =>
    ⟨none, SET instance_ i repeated (.Float (castFloat host (NumberValue host value))), []⟩
  | .CPPTYPE_DOUBLE => ⟨none, SET instance_ i repeated (.Double (NumberValue host value)), []⟩
  | .CPPTYPE_BOOL => ⟨none, SET instance_ i repeated (.Bool value.BooleanValue), []⟩
  | .CPPTYPE_ENUM =>
    match (if value.IsNumber then field.enum_type.FindValueByNumber (Int32Value host value)
           else field.enum_type.FindValueByName (host.AsciiValue value)) with
    | none => ⟨some E_UNKNOWN_ENUM, instance_, []⟩
    | some enum_value => ⟨none, SET instance_ i repeated (.Enum enum_value), []⟩
termination_by (value.size, 2, 0)
decreasing_by
  all_goals first
    | (apply Prod.Lex.right; apply Prod.Lex.left; omega)
/-- The inner loop of `Schema::Type::ToProto`, lines 365-367:
`for (j; !error && j < length; j++) error = ToProto(instance, field, array->Get(j), child_type, true)`
over the elements still to be converted. -/
def ToProtoArray (host : Host) (pool : DescriptorPool) (instance_ : Message) (i : Nat)
    (field : FieldDescriptor) (elems : List JsValue) : Populated :=
  match elems with
  | [] => ⟨none, instance_, []⟩
  | x :: rest =>
    (ToProtoValue host pool instance_ i field x true).andThen
      (fun m => ToProtoArray host pool m i field rest)
termination_by (JsValue.sizeList elems, 0, 0)
decreasing_by
  all_goals simp_wf
  all_goals simp only [JsValue.sizeList]
  all_goals first
    | (apply Prod.Lex.left; omega)
/-- The outer loop of `Schema::Type::ToProto`, lines 347-371, from field `i`
on: `fields` are the fields of the descriptor not yet visited, and
`properties->Get(i)` is `src[camelcase_name]`.  A field whose value is
`undefined` or `null` is passed over; otherwise `schema_->GetType` is called for
a message-kind field, and the value is converted: element by element after the
array check for a repeated field, at once for a singular field. -/
def ToProtoFields (host : Host) (pool : DescriptorPool) (instance_ : Message) (i : Nat)
    (fields : List FieldDescriptor) (src : JsValue) : Populated :=
  match fields with
  | [] => ⟨none, instance_, []⟩
  | field :: rest =>
    if hskip : ((src.Get field.camelcase_name).IsUndefined ||
        (src.Get field.camelcase_name).IsNull) = true then
      ToProtoFields host pool instance_ (i + 1) rest src
    else
      let child_type :=
        if field.cpp_type = .CPPTYPE_MESSAGE then [field.message_type] else []
      let converted :=
        if field.is_repeated then
          if (src.Get field.camelcase_name).IsArray then
            ToProtoArray host pool instance_ i field (src.Get field.camelcase_name).elements
          else ⟨some E_NO_ARRAY, instance_, []⟩
        else ToProtoValue host pool instance_ i field (src.Get field.camelcase_name) false
      (Populated.mk converted.error converted.message (child_type ++ converted.lookups)).andThen
        (fun m => ToProtoFields host pool m (i + 1) rest src)
termination_by (src.size, 0, fields.length)
decreasing_by
  all_goals simp_wf
  · apply Prod.Lex.right; apply Prod.Lex.right; omega
  · apply Prod.Lex.left
    have h1 := JsValue.size_Get_lt src field.camelcase_name hskip
    have h2 := JsValue.sizeList_elements_lt (src.Get field.camelcase_name)
    omega
  · apply Prod.Lex.left
    exact JsValue.size_Get_lt src field.camelcase_name hskip
  · apply Prod.Lex.right; apply Prod.Lex.right; omega
/-- The member `Schema::Type::ToProto(instance, src)`, lines 342-373, of the
type with descriptor `descriptor_`: populate `instance_` from the object `src`,
field by field in declared order, stopping at the first error. -/
def ToProto (host : Host) (pool : DescriptorPool) (descriptor_ : Descriptor)
    (instance_ : Message) (src : JsValue) : Populated :=
  ToProtoFields host pool instance_ 0 descriptor_.fields src
termination_by (src.size, 1, 0)
decreasing_by
  all_goals first
    | (apply Prod.Lex.right; apply Prod.Lex.left; omega)
end

/-- The body of the outer loop for a field whose value is neither `undefined`
nor `null`, lines 352-370, as `ToProtoFields` runs it. -/
def ToProtoField (host : Host) (pool : DescriptorPool) (instance_ : Message) (i : Nat)
    (field : FieldDescriptor) (value : JsValue) : Populated :=
  let converted :=
    if field.is_repeated then
      if value.IsArray then ToProtoArray host pool instance_ i field value.elements
      else ⟨some E_NO_ARRAY, instance_, []⟩
    else ToProtoValue host pool instance_ i field value false
  ⟨converted.error, converted.message,
    (if field.cpp_type = .CPPTYPE_MESSAGE then [field.message_type] else []) ++
      converted.lookups⟩

/-- The value the static `ToProto` stores for a field that is neither
message-kind nor enum-kind, lines 294-325. -/
def scalarValue (host : Host) (f : FieldDescriptor) (value : JsValue) : FieldValue :=
  match f.cpp_type with
  | .CPPTYPE_STRING =>
    if value.IsBuffer then .String value.bufferData else .String (host.Utf8Value value)
  | .CPPTYPE_INT32 => .Int32 (Int32Value host value)
  | .CPPTYPE_UINT32 => .UInt32 (Uint32Value host value)
  | .CPPTYPE_INT64 => .Int64 (castInt64 host (NumberValue host value))
  | .CPPTYPE_UINT64 => .UInt64 (castUInt64 host (NumberValue host value))
  | .CPPTYPE_FLOAT => .Float (castFloat host (NumberValue host value))
  | .CPPTYPE_DOUBLE => .Double (NumberValue host value)
  | _ => .Bool value.BooleanValue

/-! ## Decoding: message to JavaScript object -/

/-- What a `ToJs` call returns: the JavaScript value, and the descriptors it
passed to `schema_->GetType`, in call order. -/
structure Converted where
  value : JsValue
  lookups : List Nat

/-- The generated constructor
`function(arr) { if(arr) { var x = arr[0]; if(x !== undefined) this[name0] = x; ... } }`
from field `fields.head` on: `arr` holds the entries of the array not yet read
and `this` the properties assigned so far. -/
def fromArray : List FieldDescriptor → List JsValue → List (String × JsValue) →
    List (String × JsValue)
  | [], _, this => this
  | field :: fields, arr, this =>
    let x := arr.headD .undefined
    fromArray fields arr.tail
      (if x.IsUndefined then this else JsValue.setProp field.camelcase_name x this)

/-- Models `Schema::Type::NewObject`: `new` on the generated constructor, with
the array of properties in descriptor order (a hole reads as `undefined`).
The result gives the own properties of the new object, which are all the
constructor assigns; the prototype of the constructor is not part of it. -/
def NewObject (descriptor_ : Descriptor) (properties : List JsValue) : JsValue :=
  .object (fromArray descriptor_.fields properties [])

/-- The generated accessor `function() { return [ this[name0], this[name1], ... ] }`,
called on `self`. -/
def toArray (descriptor_ : Descriptor) (self : JsValue) : List JsValue :=
  descriptor_.fields.map (fun field => self.Get field.camelcase_name)

/-- Models `Reflection::GetString` and `GetRepeatedString` at a stored value.
A cell holds values of its field's `cpp_type`; here and below, a getter applied
to a value of another type gives the default of its own type. -/
def GetString : FieldValue → List Nat
  | .String s => s
  | _ => []

/-- Models `Reflection::GetInt32` and `GetRepeatedInt32` at a stored value. -/
def GetInt32 : FieldValue → Int
  | .Int32 x => x
  | _ => 0

/-- Models `Reflection::GetUInt32` and `GetRepeatedUInt32` at a stored value. -/
def GetUInt32 : FieldValue → Int
  | .UInt32 x => x
  | _ => 0

/-- Models `Reflection::GetInt64` and `GetRepeatedInt64` at a stored value. -/
def GetInt64 : FieldValue → Int
  | .Int64 x => x
  | _ => 0

/-- Models `Reflection::GetUInt64` and `GetRepeatedUInt64` at a stored value. -/
def GetUInt64 : FieldValue → Int
  | .UInt64 x => x
  | _ => 0

/-- Models `Reflection::GetFloat` and `GetRepeatedFloat` at a stored value. -/
def GetFloat : FieldValue → JsNumber
  | .Float x => x
  | _ => .int 0

/-- Models `Reflection::GetDouble` and `GetRepeatedDouble` at a stored value. -/
def GetDouble : FieldValue → JsNumber
  | .Double x => x
  | _ => .int 0

/-- Models `Reflection::GetBool` and `GetRepeatedBool` at a stored value. -/
def GetBool : FieldValue → Bool
  | .Bool b => b
  | _ => false

/-- Models `Reflection::GetEnum` and `GetRepeatedEnum` at a stored value: a
message keeps the number of the value `SetEnum` was given, and the getter
returns the value the enum type finds for that number, the first declared
with it. -/
def GetEnum (field : FieldDescriptor) : FieldValue → EnumValueDescriptor
  | .Enum v => (field.enum_type.FindValueByNumber v.number).getD v
  | _ => field.enum_type.values.headD ⟨"", 0⟩

mutual
/-- The static `Schema::Type::ToJs(instance, reflection, field, message_type, index)`,
lines 178-214, at the stored value `GET(TYPE)` reads. -/
def ToJsValue (host : Host) (pool : DescriptorPool) (field : FieldDescriptor)
    (v : FieldValue) : Converted :=
  match field.cpp_type with
  | .CPPTYPE_MESSAGE =>
    match v with
    | .Message m => ToJs host pool (pool.descriptor field.message_type) m
    | _ => ⟨NewObject (pool.descriptor field.message_type) [], []⟩
  | .CPPTYPE_STRING =>
    if field.is_bytes then ⟨.buffer (GetString v), []⟩
    else ⟨.string (host.NewString (GetString v)), []⟩
  | .CPPTYPE_INT32 => ⟨.number (GetInt32 v), []⟩
  | .CPPTYPE_UINT32 => ⟨.number (GetUInt32 v), []⟩
  | .CPPTYPE_INT64 => ⟨.number (castDouble (GetInt64 v)), []⟩
  | .CPPTYPE_UINT64 => ⟨.number (castDouble (GetUInt64 v)), []⟩
  | .CPPTYPE_FLOAT => ⟨JsValue.ofNumber (GetFloat v), []⟩
  | .CPPTYPE_DOUBLE => ⟨JsValue.ofNumber (GetDouble v), []⟩
  | .CPPTYPE_BOOL => ⟨.boolean (GetBool v), []⟩
  | .CPPTYPE_ENUM => ⟨.string (GetEnum field v).name, []⟩
/-- The inner loop of `Schema::Type::ToJs`, lines 238-240:
`array->Set(j, ToJs(instance, reflection, field, child_type, j))` over the
elements of a repeated field. -/
def ToJsArray (host : Host) (pool : DescriptorPool) (field : FieldDescriptor)
    (elems : List FieldValue) : List JsValue × List Nat :=
  match elems with
  | [] => ([], [])
  | x :: rest =>
    let first := ToJsValue host pool field x
    let others := ToJsArray host pool field rest
    (first.value :: others.1, first.lookups ++ others.2)
/-- The loop of `Schema::Type::ToJs`, lines 222-247, over the fields not yet
visited and their cells: the entries of `properties`, `undefined` where the
field is skipped. -/
def ToJsFields (host : Host) (pool : DescriptorPool) (fields : List FieldDescriptor)
    (cells : List (List FieldValue)) : List JsValue × List Nat :=
  match fields, cells with
  | [], _ => ([], [])
  | fields, [] => (fields.map (fun _ => JsValue.undefined), [])
  | field :: rest, cell :: cells =>
    let others := ToJsFields host pool rest cells
    match cell with
    | [] => (JsValue.undefined :: others.1, others.2)
    | x :: xs =>
      let child := if field.cpp_type = .CPPTYPE_MESSAGE then [field.message_type] else []
      if field.is_repeated then
        let array := ToJsArray host pool field (x :: xs)
        (JsValue.array array.1 :: others.1, child ++ array.2 ++ others.2)
      else
        let value := ToJsValue host pool field x
        (value.value :: others.1, child ++ value.lookups ++ others.2)
/-- The member `Schema::Type::ToJs(instance)`, lines 217-250, of the type with
descriptor `descriptor_`. -/
def ToJs (host : Host) (pool : DescriptorPool) (descriptor_ : Descriptor)
    (instance_ : Message) : Converted :=
  match instance_ with
  | .mk cells =>
    let properties := ToJsFields host pool descriptor_.fields cells
    ⟨NewObject descriptor_ properties.1, properties.2⟩
end

/-- The entry of `properties` the loop of `ToJs` makes for a field with cell
`cell`: a hole (read as `undefined`) for an empty cell, the array of the
converted elements for a repeated field, the converted value for a singular
field. -/
def fieldProperty (host : Host) (pool : DescriptorPool) (field : FieldDescriptor)
    (cell : List FieldValue) : JsValue :=
  match cell with
  | [] => .undefined
  | x :: xs =>
    if field.is_repeated then
      .array ((x :: xs).map (fun v => (ToJsValue host pool field v).value))
    else (ToJsValue host pool field x).value

/-- The properties the generated constructor assigns when no two of the fields
share a name: one for each entry of `arr` that is not `undefined`, in field
order. -/
def presentProps : List FieldDescriptor → List JsValue → List (String × JsValue)
  | [], _ => []
  | field :: fields, arr =>
    (if (arr.headD .undefined).IsUndefined then []
      else [(field.camelcase_name, arr.headD .undefined)]) ++ presentProps fields arr.tail

/-! ## Records in canonical form -/

mutual
/-- A value of the kind of `field` that both conversions leave unchanged: an
integer in the range of an integer field (and exactly a double, for a 64-bit
field), a Number that a `float` holds for a `float` field, any Number for a
`double` field, a boolean, a string the host's UTF-8 conversions give back for
a text field, a buffer for a bytes field, the name of a declared value that
the enum type finds both by its name and by its number for an enum field, a
record in canonical form for a message field. -/
inductive CanonicalValue (host : Host) (pool : DescriptorPool) :
    FieldDescriptor → JsValue → Prop where
  | int32 (field : FieldDescriptor) (n : Int) :
      field.cpp_type = .CPPTYPE_INT32 → -2 ^ 31 ≤ n → n < 2 ^ 31 →
      CanonicalValue host pool field (.number n)
  | uint32 (field : FieldDescriptor) (n : Int) :
      field.cpp_type = .CPPTYPE_UINT32 → 0 ≤ n → n < 2 ^ 32 →
      CanonicalValue host pool field (.number n)
  | int64 (field : FieldDescriptor) (n : Int) :
      field.cpp_type = .CPPTYPE_INT64 → -2 ^ 63 ≤ n → n < 2 ^ 63 → castDouble n = n →
      CanonicalValue host pool field (.number n)
  | uint64 (field : FieldDescriptor) (n : Int) :
      field.cpp_type = .CPPTYPE_UINT64 → 0 ≤ n → n < 2 ^ 64 → castDouble n = n →
      CanonicalValue host pool field (.number n)
  | float (field : FieldDescriptor) (x : JsNumber) :
      field.cpp_type = .CPPTYPE_FLOAT → castFloat host x = x →
      CanonicalValue host pool field (JsValue.ofNumber x)
  | double (field : FieldDescriptor) (x : JsNumber) :
      field.cpp_type = .CPPTYPE_DOUBLE → CanonicalValue host pool field (JsValue.ofNumber x)
  | bool (field : FieldDescriptor) (b : Bool) :
      field.cpp_type = .CPPTYPE_BOOL → CanonicalValue host pool field (.boolean b)
  | text (field : FieldDescriptor) (s : String) :
      field.cpp_type = .CPPTYPE_STRING → field.is_bytes = false →
      host.NewString (host.Utf8Value (.string s)) = s →
      CanonicalValue host pool field (.string s)
  | bytes (field : FieldDescriptor) (value : JsValue) :
      field.cpp_type = .CPPTYPE_STRING → field.is_bytes = true → value.IsBuffer = true →
      CanonicalValue host pool field value
  | enum (field : FieldDescriptor) (v : EnumValueDescriptor) :
      field.cpp_type = .CPPTYPE_ENUM →
      field.enum_type.FindValueByName (host.AsciiValue (.string v.name)) = some v →
      field.enum_type.FindValueByNumber v.number = some v →
      CanonicalValue host pool field (.string v.name)
  | message (field : FieldDescriptor) (record : JsValue) :
      field.cpp_type = .CPPTYPE_MESSAGE →
      CanonicalRecord host pool (pool.descriptor field.message_type) record →
      CanonicalValue host pool field record
/-- What a record in canonical form gives when it is read at the name of a
field: `undefined` or `null` (the field is absent), a value in canonical form
for a singular field, a non-empty array of such values for a repeated field. -/
inductive CanonicalField (host : Host) (pool : DescriptorPool) :
    FieldDescriptor → JsValue → Prop where
  | absent (field : FieldDescriptor) (value : JsValue) :
      (value.IsUndefined || value.IsNull) = true → CanonicalField host pool field value
  | singular (field : FieldDescriptor) (value : JsValue) :
      field.is_repeated = false → CanonicalValue host pool field value →
      CanonicalField host pool field value
  | repeated (field : FieldDescriptor) (value : JsValue) :
      field.is_repeated = true → value.IsArray = true → value.elements ≠ [] →
      (∀ y ∈ value.elements, CanonicalValue host pool field y) →
      CanonicalField host pool field value
/-- A record in canonical form for a descriptor whose fields have pairwise
distinct host names: an object that, read at the name of each declared field,
gives an absent or a canonical value.  Its own keys are free: they may come in
any order and name no declared field, and the object may have a prototype. -/
inductive CanonicalRecord (host : Host) (pool : DescriptorPool) :
    Descriptor → JsValue → Prop where
  | mk (descriptor : Descriptor) (record : JsValue) :
      record.IsObject = true →
      (descriptor.fields.map FieldDescriptor.camelcase_name).Nodup →
      (∀ field ∈ descriptor.fields,
        CanonicalField host pool field (record.Get field.camelcase_name)) →
      CanonicalRecord host pool descriptor record
end

/-! ## A record restricted to its present fields -/

mutual
/-- The data of a singular value of `field`: the restricted record for a
message-kind field, the buffer of its bytes for a buffer given to a field of
`cpp_type` string, the value itself otherwise. -/
def valueData (pool : DescriptorPool) (field : FieldDescriptor) (value : JsValue) : JsValue :=
  match field.cpp_type with
  | .CPPTYPE_MESSAGE => recordData pool (pool.descriptor field.message_type) value
  | .CPPTYPE_STRING => if value.IsBuffer then .buffer value.bufferData else value
  | _ => value
termination_by (value.size, 2, 0)
decreasing_by
  all_goals first
    | (apply Prod.Lex.right; apply Prod.Lex.left; omega)
/-- The data of the elements of a repeated field, in order. -/
def arrayData (pool : DescriptorPool) (field : FieldDescriptor) (elems : List JsValue) :
    List JsValue :=
  match elems with
  | [] => []
  | x :: rest => valueData pool field x :: arrayData pool field rest
termination_by (JsValue.sizeList elems, 0, 0)
decreasing_by
  all_goals simp_wf
  all_goals simp only [JsValue.sizeList]
  all_goals first
    | (apply Prod.Lex.left; omega)
/-- The properties of the present fields among `fields`, in that order: a
field is present when `record` gives neither `undefined` nor `null` at its
name, and its property holds the array of the data of the elements for a
repeated field and the data of the value for a singular one. -/
def fieldsData (pool : DescriptorPool) (fields : List FieldDescriptor) (record : JsValue) :
    List (String × JsValue) :=
  match fields with
  | [] => []
  | field :: rest =>
    if _hskip : ((record.Get field.camelcase_name).IsUndefined ||
        (record.Get field.camelcase_name).IsNull) = true then
      fieldsData pool rest record
    else
      let data :=
        if field.is_repeated then
          .array (arrayData pool field (record.Get field.camelcase_name).elements)
        else valueData pool field (record.Get field.camelcase_name)
      (field.camelcase_name, data) :: fieldsData pool rest record
termination_by (record.size, 0, fields.length)
decreasing_by
  all_goals simp_wf
  · apply Prod.Lex.right; apply Prod.Lex.right; omega
  · apply Prod.Lex.left
    have h1 := JsValue.size_Get_lt record field.camelcase_name _hskip
    have h2 := JsValue.sizeList_elements_lt (record.Get field.camelcase_name)
    omega
  · apply Prod.Lex.left
    exact JsValue.size_Get_lt record field.camelcase_name _hskip
  · apply Prod.Lex.right; apply Prod.Lex.right; omega
/-- Follows the spec's words (§8.1, "`r` restricted to `r`'s present fields"):
the record `record` restricted to its present declared fields, in declared
order, each nested record restricted likewise. -/
def recordData (pool : DescriptorPool) (descriptor : Descriptor) (record : JsValue) : JsValue :=
  .object (fieldsData pool descriptor.fields record)
termination_by (record.size, 1, 0)
decreasing_by
  all_goals first
    | (apply Prod.Lex.right; apply Prod.Lex.left; omega)
end

/-- The property of a present field in the restricted record. -/
def fieldData (pool : DescriptorPool) (field : FieldDescriptor) (value : JsValue) : JsValue :=
  if field.is_repeated then .array (arrayData pool field value.elements)
  else valueData pool field value

/-- The conversion of `record` into a new message returns no error, and the
conversion of that message back is `record` restricted to its present
fields. -/
def RoundTrips (host : Host) (pool : DescriptorPool) (descriptor : Descriptor)
    (record : JsValue) : Prop :=
  (ToProto host pool descriptor (NewMessage descriptor) record).error = none ∧
  (ToJs host pool descriptor
    (ToProto host pool descriptor (NewMessage descriptor) record).message).value =
      recordData pool descriptor record


/-! ## Schema, its type cache, and the two entry points -/

/-- The external wire codec, for the message type a `const Descriptor*` names:
`ParseFromArray` gives the parsed message or `none` when the bytes do not
parse; `SerializeToArray` is `ByteSize` followed by
`SerializeWithCachedSizesToArray`. -/
structure WireCodec where
  ParseFromArray : Nat → List Nat → Option Message
  SerializeToArray : Nat → Message → List Nat

/-- Models `Schema::Type`: the wrapped object holds its descriptor (and a link
to its schema, which is the schema it is cached in). -/
structure SchemaType where
  descriptor_ : Nat
  deriving DecidableEq, Repr

/-- Models `Schema`.  `types` is the managed array of the `Type` objects made
so far, in creation order, and a `Type*` is the position of the object in it;
`types_` is the `std::map<const Descriptor*, Type*>`. -/
structure Schema where
  pool_ : DescriptorPool
  types_ : List (Nat × Nat)
  types : List SchemaType

/-- The constructor `Schema::Schema(self, pool)`: an empty cache. -/
def Schema.New (pool : DescriptorPool) : Schema := ⟨pool, [], []⟩

/-- Models `Schema::GetType(const Descriptor*)`, lines 406-417: the cached
`Type*`, or a new `Type` that is entered in the map and appended to the managed
array. -/
def Schema.GetType (schema : Schema) (descriptor : Nat) : Nat × Schema :=
  match schema.types_.lookup descriptor with
  | some result => (result, schema)
  | none =>
    let result := schema.types.length
    (result, { schema with
      types_ := (descriptor, result) :: schema.types_
      types := schema.types ++ [⟨descriptor⟩] })

/-- The named-property getter `Schema::GetType(name, args)`, lines 423-432:
the type of the descriptor the pool finds, or `none` (the empty handle). -/
def Schema.GetTypeNamed (schema : Schema) (name : String) : Option Nat × Schema :=
  match schema.pool_.FindMessageTypeByName name with
  | some descriptor => (some (schema.GetType descriptor).1, (schema.GetType descriptor).2)
  | none => (none, schema)

/-- The cache after the `GetType` calls a conversion made, in call order. -/
def Schema.GetTypes (schema : Schema) (lookups : List Nat) : Schema :=
  lookups.foldl (fun s descriptor => (s.GetType descriptor).2) schema

/-- Models `Schema::Type::Serialize`, lines 375-395, called on `type` with first
argument `arg0`: the returned buffer or the thrown exception, and the schema
afterwards. -/
def Serialize (host : Host) (codec : WireCodec) (schema : Schema) (type : SchemaType)
    (arg0 : JsValue) : Except JsException JsValue × Schema :=
  if arg0.IsObject then
    let message := NewMessage (schema.pool_.descriptor type.descriptor_)
    let populated :=
      ToProto host schema.pool_ (schema.pool_.descriptor type.descriptor_) message arg0
    match populated.error with
    | none =>
      (.ok (.buffer (codec.SerializeToArray type.descriptor_ populated.message)),
        schema.GetTypes populated.lookups)
    | some error => (.error (.Error error), schema.GetTypes populated.lookups)
  else (.error (.TypeError "Not an object"), schema)

/-- Models `Schema::Type::Parse`, lines 252-270, called on `type` with first
argument `arg0`: the returned object or the thrown exception, and the schema
afterwards. -/
def Parse (host : Host) (codec : WireCodec) (schema : Schema) (type : SchemaType)
    (arg0 : JsValue) : Except JsException JsValue × Schema :=
  if arg0.IsBuffer then
    match codec.ParseFromArray type.descriptor_ arg0.bufferData with
    | some message =>
      let converted :=
        ToJs host schema.pool_ (schema.pool_.descriptor type.descriptor_) message
      (.ok converted.value, schema.GetTypes converted.lookups)
    | none => (.error (.Error "Malformed message"), schema)
  else (.error (.TypeError "Argument should be a buffer"), schema)

/-- The spec's `encode` of an adapter: the bytes `serialize` returns, or the
message of the error it throws. -/
def encode (host : Host) (codec : WireCodec) (pool : DescriptorPool) (descriptor : Nat)
    (record : JsValue) : Except JsException (List Nat) :=
  match (Serialize host codec (Schema.New pool) ⟨descriptor⟩ record).1 with
  | .ok buffer => .ok buffer.bufferData
  | .error e => .error e

/-- The spec's `decode` of an adapter: the record `parse` returns for a byte
buffer, or the error it throws. -/
def decode (host : Host) (codec : WireCodec) (pool : DescriptorPool) (descriptor : Nat)
    (bytes : List Nat) : Except JsException JsValue :=
  (Parse host codec (Schema.New pool) ⟨descriptor⟩ (.buffer bytes)).1

/-! ## Runs of a schema -/

/-- One call made on a schema: a lookup by descriptor, a lookup by name, a
`serialize` or a `parse` on one of its types. -/
inductive Schema.Step (host : Host) (codec : WireCodec) : Schema → Schema → Prop where
  | getType (schema : Schema) (descriptor : Nat) :
      Schema.Step host codec schema (schema.GetType descriptor).2
  | getTypeNamed (schema : Schema) (name : String) :
      Schema.Step host codec schema (schema.GetTypeNamed name).2
  | serialize (schema : Schema) (type : SchemaType) (arg0 : JsValue) :
      Schema.Step host codec schema (Serialize host codec schema type arg0).2
  | parse (schema : Schema) (type : SchemaType) (arg0 : JsValue) :
      Schema.Step host codec schema (Parse host codec schema type arg0).2

/-- The states of a schema over `pool`: the new schema, and every state a
sequence of calls leads to. -/
inductive Schema.Reachable (host : Host) (codec : WireCodec) (pool : DescriptorPool) :
    Schema → Prop where
  | new : Schema.Reachable host codec pool (Schema.New pool)
  | step {schema schema' : Schema} :
      Schema.Reachable host codec pool schema → Schema.Step host codec schema schema' →
      Schema.Reachable host codec pool schema'

/-! ## Example data -/

/-- A host for the closed examples: on ASCII text, `Utf8Value` and `String::New`
are the character codes and `AsciiValue` is the string itself.  A value that is
not a Number converts to the integer 0 and to the Number NaN, as `undefined`,
a function and an object literal do; a double out of the range of a 64-bit
integer type converts to the least integer of the type, and every double the
examples store in a `float` field is one a `float` holds. -/
def exampleHost : Host where
  Utf8Value := fun v =>
    match v with
    | .string s => s.toList.map Char.toNat
    | _ => []
  AsciiValue := fun v =>
    match v with
    | .string s => s
    | _ => ""
  NewString := fun bytes => String.mk (bytes.map Char.ofNat)
  Int32Value := fun _ => 0
  Uint32Value := fun _ => 0
  NumberValue := fun _ => .nan
  DoubleToInt64 := fun _ => -2 ^ 63
  DoubleToUint64 := fun _ => 0
  DoubleToFloat := fun x => x

/-- The enum `Color { RED = 0; BLUE = 1; }`. -/
def Color : EnumDescriptor := ⟨[⟨"RED", 0⟩, ⟨"BLUE", 1⟩]⟩

/-- The message `Point { int32 x = 1; int32 y = 2; }`. -/
def Point : Descriptor :=
  ⟨"Point", [⟨"x", .CPPTYPE_INT32, false, false, 0, ⟨[]⟩⟩,
             ⟨"y", .CPPTYPE_INT32, false, false, 0, ⟨[]⟩⟩]⟩

/-- The message `Counter { int32 count = 1; }`. -/
def Counter : Descriptor := ⟨"Counter", [⟨"count", .CPPTYPE_INT32, false, false, 0, ⟨[]⟩⟩]⟩

/-- The message `Tags { repeated string tags = 1; }`. -/
def Tags : Descriptor := ⟨"Tags", [⟨"tags", .CPPTYPE_STRING, false, true, 0, ⟨[]⟩⟩]⟩

/-- The message `Paint { Color color = 1; }`. -/
def Paint : Descriptor := ⟨"Paint", [⟨"color", .CPPTYPE_ENUM, false, false, 0, Color⟩]⟩

/-- The message `Can { Paint inner = 1; }`; `Paint` is descriptor 3 of
`examplePool`. -/
def Can : Descriptor := ⟨"Can", [⟨"inner", .CPPTYPE_MESSAGE, false, false, 3, ⟨[]⟩⟩]⟩

/-- The message `Pair { int32 foo_bar = 1; int32 fooBar = 2; }`: both fields have
the camel-case name `fooBar`. -/
def Pair : Descriptor :=
  ⟨"Pair", [⟨"fooBar", .CPPTYPE_INT32, false, false, 0, ⟨[]⟩⟩,
            ⟨"fooBar", .CPPTYPE_INT32, false, false, 0, ⟨[]⟩⟩]⟩

/-- A pool holding the example messages. -/
def examplePool : DescriptorPool where
  descriptor := fun p =>
    match p with
    | 0 => Point
    | 1 => Counter
    | 2 => Tags
    | 3 => Paint
    | 4 => Can
    | _ => Pair
  FindMessageTypeByName := fun name =>
    if name = "Point" then some 0
    else if name = "Counter" then some 1
    else if name = "Tags" then some 2
    else if name = "Paint" then some 3
    else if name = "Can" then some 4
    else if name = "Pair" then some 5
    else none

/-- The wire format of a message whose set fields are singular `int32` fields
with values from 0 to 127, field `i` having number `i + 1`: for each set field
the tag byte `8 * (i + 1)` and the value byte. -/
def fragmentSerialize : Nat → List (List FieldValue) → List Nat
  | _, [] => []
  | i, [FieldValue.Int32 v] :: cells =>
    (8 * (i + 1)) :: v.toNat :: fragmentSerialize (i + 1) cells
  | i, _ :: cells => fragmentSerialize (i + 1) cells

/-- Parse the same fragment of the wire format into the cells of a message. -/
def fragmentParse : List Nat → List (List FieldValue) → Option (List (List FieldValue))
  | [], cells => some cells
  | [_], _ => none
  | tag :: v :: rest, cells =>
    if tag % 8 = 0 ∧ 0 < tag / 8 ∧ tag / 8 ≤ cells.length ∧ v < 128 then
      fragmentParse rest (cells.set (tag / 8 - 1) [FieldValue.Int32 (v : Int)])
    else none

/-- A wire codec for the closed examples, exact on the fragment above. -/
def exampleCodec : WireCodec where
  ParseFromArray := fun descriptor bytes =>
    (fragmentParse bytes (NewMessage (examplePool.descriptor descriptor)).cells).map Message.mk
  SerializeToArray := fun _ message => fragmentSerialize 0 message.cells

/-! ## Schema construction -/

/-- The external descriptor library as `Schema::NewSchema` uses it: the pool of
the compiled-in descriptors (`DescriptorPool::generated_pool()`), the parser
of a serialized `FileDescriptorSet` (`none` when the bytes do not parse, else
its files), a new empty pool (`new DescriptorPool`), and
`DescriptorPool::BuildFile`, whose result the code does not look at. -/
structure DescriptorLibrary where
  File : Type
  generated_pool : DescriptorPool
  ParseFromArray : List Nat → Option (List File)
  NewPool : DescriptorPool
  BuildFile : DescriptorPool → File → DescriptorPool

/-- Models `Schema::NewSchema`, lines 434-460, called with the arguments `args`:
the new schema or the thrown exception. -/
def NewSchema (lib : DescriptorLibrary) (args : List JsValue) : Except JsException Schema :=
  if args.length = 0 then .ok (Schema.New lib.generated_pool)
  else if (args.headD .undefined).IsBuffer then
    match lib.ParseFromArray (args.headD .undefined).bufferData with
    | none => .error (.Error "Malformed descriptor")
    | some files => .ok (Schema.New (files.foldl lib.BuildFile lib.NewPool))
  else .error (.TypeError "Argument should be a buffer")

/-! ## The lifetime of the top-level message -/

/-- What a call does to the heap of messages: `type->NewMessage()` acquires the
top-level message, `delete message` releases it. -/
inductive HeapEvent where
  | acquire
  | release
  deriving DecidableEq, Repr

/-- The number of live messages after the events, from `live` before them; a
release with no live message is `none`. -/
def liveAfter : List HeapEvent → Nat → Option Nat
  | [], live => some live
  | .acquire :: events, live => liveAfter events (live + 1)
  | .release :: events, live =>
    match live with
    | 0 => none
    | n + 1 => liveAfter events n

/-- The function `Schema::Type::Serialize`, lines 375-395, with the heap events
of its statements in order: the early return at line 377 comes before
`NewMessage` (line 382), and `delete message` (line 390) comes after the
conversion and the serialization, whatever the error. -/
def SerializeTraced (host : Host) (codec : WireCodec) (schema : Schema) (type : SchemaType)
    (arg0 : JsValue) : (Except JsException JsValue × Schema) × List HeapEvent :=
  if arg0.IsObject then
    let acquired := [HeapEvent.acquire]
    let populated :=
      ToProto host schema.pool_ (schema.pool_.descriptor type.descriptor_)
        (NewMessage (schema.pool_.descriptor type.descriptor_)) arg0
    let released := acquired ++ [HeapEvent.release]
    match populated.error with
    | none =>
      ((.ok (.buffer (codec.SerializeToArray type.descriptor_ populated.message)),
        schema.GetTypes populated.lookups), released)
    | some error => ((.error (.Error error), schema.GetTypes populated.lookups), released)
  else ((.error (.TypeError "Not an object"), schema), [])

/-- The function `Schema::Type::Parse`, lines 252-270, with the heap events of
its statements in order: the early return at line 255 comes before `NewMessage`
(line 260), and `delete message` (line 268) comes after the parse and the
conversion, whatever the outcome of the parse. -/
def ParseTraced (host : Host) (codec : WireCodec) (schema : Schema) (type : SchemaType)
    (arg0 : JsValue) : (Except JsException JsValue × Schema) × List HeapEvent :=
  if arg0.IsBuffer then
    let acquired := [HeapEvent.acquire]
    let result : Except JsException JsValue × Schema :=
      match codec.ParseFromArray type.descriptor_ arg0.bufferData with
      | some message =>
        (.ok (ToJs host schema.pool_ (schema.pool_.descriptor type.descriptor_) message).value,
          schema.GetTypes
            (ToJs host schema.pool_ (schema.pool_.descriptor type.descriptor_) message).lookups)
      | none => (.error (.Error "Malformed message"), schema)
    let released := acquired ++ [HeapEvent.release]
    (result, released)
  else ((.error (.TypeError "Argument should be a buffer"), schema), [])

/-! ## More example data -/

/-- The message `Blob { bytes data = 1; string text = 2; }`. -/
def Blob : Descriptor :=
  ⟨"Blob", [⟨"data", .CPPTYPE_STRING, true, false, 0, ⟨[]⟩⟩,
            ⟨"text", .CPPTYPE_STRING, false, false, 0, ⟨[]⟩⟩]⟩

/-- The message `Palette { repeated Color colors = 1; int32 count = 2; }`. -/
def Palette : Descriptor :=
  ⟨"Palette", [⟨"colors", .CPPTYPE_ENUM, false, true, 0, Color⟩,
               ⟨"count", .CPPTYPE_INT32, false, false, 0, ⟨[]⟩⟩]⟩

/-- The message `Box { repeated Paint items = 1; }`; `Paint` is descriptor 3 of
`morePool`. -/
def Box : Descriptor := ⟨"Box", [⟨"items", .CPPTYPE_MESSAGE, false, true, 3, ⟨[]⟩⟩]⟩

/-- The message `Tree { Tree next = 1; repeated Tree children = 2; }`, which
refers to itself; it is descriptor 2 of `morePool`. -/
def Tree : Descriptor :=
  ⟨"Tree", [⟨"next", .CPPTYPE_MESSAGE, false, false, 2, ⟨[]⟩⟩,
            ⟨"children", .CPPTYPE_MESSAGE, false, true, 2, ⟨[]⟩⟩]⟩

/-- The enum `Nil { null = 0; }`. -/
def Nil : EnumDescriptor := ⟨[⟨"null", 0⟩]⟩

/-- The message `Marks { repeated Nil marks = 1; }`. -/
def Marks : Descriptor := ⟨"Marks", [⟨"marks", .CPPTYPE_ENUM, false, true, 0, Nil⟩]⟩

/-- A second pool of example messages. -/
def morePool : DescriptorPool where
  descriptor := fun p =>
    match p with
    | 0 => Palette
    | 1 => Box
    | 2 => Tree
    | 3 => Paint
    | _ => Marks
  FindMessageTypeByName := fun name =>
    if name = "Palette" then some 0
    else if name = "Box" then some 1
    else if name = "Tree" then some 2
    else if name = "Paint" then some 3
    else if name = "Marks" then some 4
    else none

/-- A host for the closed examples that also converts `null`, `undefined` and
the booleans to their names, as the ECMAScript ToString conversion does; on
ASCII text it is as `exampleHost`. -/
def textHost : Host where
  Utf8Value := fun v =>
    match v with
    | .string s => s.toList.map Char.toNat
    | .null => "null".toList.map Char.toNat
    | .undefined => "undefined".toList.map Char.toNat
    | .boolean true => "true".toList.map Char.toNat
    | .boolean false => "false".toList.map Char.toNat
    | _ => []
  AsciiValue := fun v =>
    match v with
    | .string s => s
    | .null => "null"
    | .undefined => "undefined"
    | .boolean true => "true"
    | .boolean false => "false"
    | _ => ""
  NewString := fun bytes => String.mk (bytes.map Char.ofNat)
  Int32Value := fun v =>
    match v with
    | .boolean true => 1
    | _ => 0
  Uint32Value := fun v =>
    match v with
    | .boolean true => 1
    | _ => 0
  NumberValue := fun v =>
    match v with
    | .boolean true => .int 1
    | .boolean false => .int 0
    | .null => .int 0
    | _ => .nan
  DoubleToInt64 := fun _ => -2 ^ 63
  DoubleToUint64 := fun _ => 0
  DoubleToFloat := fun x => x

/-- A function of the host, as the object it is, with its `name` and its
`length`; no other property of it is unrolled. -/
def hostFunction (name : String) (length : Int) : JsValue :=
  .object [("name", .string name), ("length", .number length)]

/-- The `Object.prototype` of the host with the properties ECMAScript gives it,
all of them functions.  It has no prototype. -/
def ObjectPrototype : JsValue :=
  .object [("constructor", hostFunction "Object" 1),
           ("toString", hostFunction "toString" 0),
           ("toLocaleString", hostFunction "toLocaleString" 0),
           ("valueOf", hostFunction "valueOf" 0),
           ("hasOwnProperty", hostFunction "hasOwnProperty" 1),
           ("isPrototypeOf", hostFunction "isPrototypeOf" 1),
           ("propertyIsEnumerable", hostFunction "propertyIsEnumerable" 1)]

/-- The object literal `{ key: value, ... }`: its own properties, and
`Object.prototype` as its prototype. -/
def objectLiteral (props : List (String × JsValue)) : JsValue :=
  .withPrototype (.object props) ObjectPrototype

/-- The message `Ctor { int32 constructor = 1; }`, whose field has the name of a
property of `Object.prototype`. -/
def Ctor : Descriptor := ⟨"Ctor", [⟨"constructor", .CPPTYPE_INT32, false, false, 0, ⟨[]⟩⟩]⟩

/-- The message `Mix { repeated int32 foo_bar = 1; int32 fooBar = 2; }`: both
fields have the camel-case name `fooBar`. -/
def Mix : Descriptor :=
  ⟨"Mix", [⟨"fooBar", .CPPTYPE_INT32, false, true, 0, ⟨[]⟩⟩,
           ⟨"fooBar", .CPPTYPE_INT32, false, false, 0, ⟨[]⟩⟩]⟩

/-- The message `Twin { Paint foo_bar = 1; Can fooBar = 2; }`: both fields have
the camel-case name `fooBar`; `Paint` and `Can` are descriptors 3 and 4 of
`edgePool`. -/
def Twin : Descriptor :=
  ⟨"Twin", [⟨"fooBar", .CPPTYPE_MESSAGE, false, false, 3, ⟨[]⟩⟩,
            ⟨"fooBar", .CPPTYPE_MESSAGE, false, false, 4, ⟨[]⟩⟩]⟩

/-- A third pool of example messages. -/
def edgePool : DescriptorPool where
  descriptor := fun p =>
    match p with
    | 0 => Ctor
    | 1 => Mix
    | 2 => Twin
    | 3 => Paint
    | _ => Can
  FindMessageTypeByName := fun name =>
    if name = "Ctor" then some 0
    else if name = "Mix" then some 1
    else if name = "Twin" then some 2
    else if name = "Paint" then some 3
    else if name = "Can" then some 4
    else none

/-! ## Records that agree on the declared fields -/

mutual
/-- Two objects hold the same at every host name `d` declares, recursively for
the values of message-kind fields; their other keys are free. -/
inductive SameRecord (pool : DescriptorPool) : Descriptor → JsValue → JsValue → Prop where
  | mk (d : Descriptor) (r1 r2 : JsValue) (h1 : r1.IsObject = true) (h2 : r2.IsObject = true)
      (hfields : ∀ f ∈ d.fields,
        SameValue pool f (r1.Get f.camelcase_name) (r2.Get f.camelcase_name)) :
      SameRecord pool d r1 r2
/-- Two values of a field hold the same: they are equal, or the field is
message-kind and they are objects that agree on the fields of the nested type
(singular), or arrays that do so element by element (repeated). -/
inductive SameValue (pool : DescriptorPool) : FieldDescriptor → JsValue → JsValue → Prop where
  | same (f : FieldDescriptor) (v : JsValue) : SameValue pool f v v
  | nested (f : FieldDescriptor) (v1 v2 : JsValue) (hkind : f.cpp_type = .CPPTYPE_MESSAGE)
      (hsingular : f.is_repeated = false)
      (h : SameRecord pool (pool.descriptor f.message_type) v1 v2) : SameValue pool f v1 v2
  | elements (f : FieldDescriptor) (xs ys : List JsValue)
      (hkind : f.cpp_type = .CPPTYPE_MESSAGE) (hrepeated : f.is_repeated = true)
      (h : SameList pool (pool.descriptor f.message_type) xs ys) :
      SameValue pool f (.array xs) (.array ys)
/-- Two sequences of the same length whose elements are equal or agree on the
fields of `d`. -/
inductive SameList (pool : DescriptorPool) : Descriptor → List JsValue → List JsValue → Prop where
  | nil (d : Descriptor) : SameList pool d [] []
  | cons_same (d : Descriptor) (x : JsValue) (xs ys : List JsValue)
      (h : SameList pool d xs ys) : SameList pool d (x :: xs) (x :: ys)
  | cons_nested (d : Descriptor) (x y : JsValue) (xs ys : List JsValue)
      (hx : SameRecord pool d x y) (h : SameList pool d xs ys) :
      SameList pool d (x :: xs) (y :: ys)
end

/-! ## The nested types a conversion asks the schema for -/

/-- The nested types the conversion of the record `src` for the descriptor `d`
can ask the schema for: the type of a message-kind field whose value is neither
`undefined` nor `null`, and what the nested conversion asks for, of the object
a singular message-kind field holds or of an object among the elements of the
array a repeated one holds. -/
inductive Requested (pool : DescriptorPool) : Descriptor → JsValue → Nat → Prop where
  | field (d : Descriptor) (src : JsValue) (f : FieldDescriptor) (hf : f ∈ d.fields)
      (hkind : f.cpp_type = .CPPTYPE_MESSAGE)
      (hpresent : ((src.Get f.camelcase_name).IsUndefined ||
        (src.Get f.camelcase_name).IsNull) = false) :
      Requested pool d src f.message_type
  | nested (d : Descriptor) (src : JsValue) (f : FieldDescriptor) (t : Nat) (hf : f ∈ d.fields)
      (hkind : f.cpp_type = .CPPTYPE_MESSAGE) (hsingular : f.is_repeated = false)
      (hobj : (src.Get f.camelcase_name).IsObject = true)
      (h : Requested pool (pool.descriptor f.message_type) (src.Get f.camelcase_name) t) :
      Requested pool d src t
  | element (d : Descriptor) (src : JsValue) (f : FieldDescriptor) (x : JsValue) (t : Nat)
      (hf : f ∈ d.fields) (hkind : f.cpp_type = .CPPTYPE_MESSAGE)
      (hrepeated : f.is_repeated = true)
      (harray : (src.Get f.camelcase_name).IsArray = true)
      (hx : x ∈ (src.Get f.camelcase_name).elements) (hobj : x.IsObject = true)
      (h : Requested pool (pool.descriptor f.message_type) x t) :
      Requested pool d src t

/-- The nested types the conversion of the message `m` of the descriptor `d`
to a record can ask the schema for: the type of a message-kind field that is
set or not empty, whose stored values are then converted, and what the
conversion of a stored sub-message asks for. -/
inductive RequestedJs (pool : DescriptorPool) : Descriptor → Message → Nat → Prop where
  | field (d : Descriptor) (m : Message) (i : Nat) (f : FieldDescriptor)
      (hf : d.fields[i]? = some f) (hkind : f.cpp_type = .CPPTYPE_MESSAGE)
      (hset : m.cell i ≠ []) : RequestedJs pool d m f.message_type
  | nested (d : Descriptor) (m : Message) (i : Nat) (f : FieldDescriptor) (sub : Message)
      (t : Nat) (hf : d.fields[i]? = some f) (hkind : f.cpp_type = .CPPTYPE_MESSAGE)
      (hsub : FieldValue.Message sub ∈ m.cell i)
      (h : RequestedJs pool (pool.descriptor f.message_type) sub t) : RequestedJs pool d m t

/-! ## Unfolding the conversions -/

theorem ToProto_eq (host : Host) (pool : DescriptorPool) (d : Descriptor) (m : Message)
    (src : JsValue) :
    ToProto host pool d m src = ToProtoFields host pool m 0 d.fields src := by
  rw [ToProto]

theorem ToProtoArray_nil (host : Host) (pool : DescriptorPool) (m : Message) (i : Nat)
    (f : FieldDescriptor) : ToProtoArray host pool m i f [] = ⟨none, m, []⟩ := by
  rw [ToProtoArray]

theorem ToProtoArray_cons (host : Host) (pool : DescriptorPool) (m : Message) (i : Nat)
    (f : FieldDescriptor) (x : JsValue) (rest : List JsValue) :
    ToProtoArray host pool m i f (x :: rest) =
      (ToProtoValue host pool m i f x true).andThen
        (fun m' => ToProtoArray host pool m' i f rest) := by
  rw [ToProtoArray]

theorem ToProtoFields_nil (host : Host) (pool : DescriptorPool) (m : Message) (i : Nat)
    (src : JsValue) : ToProtoFields host pool m i [] src = ⟨none, m, []⟩ := by
  rw [ToProtoFields]

theorem ToProtoFields_cons (host : Host) (pool : DescriptorPool) (m : Message) (i : Nat)
    (f : FieldDescriptor) (rest : List FieldDescriptor) (src : JsValue) :
    ToProtoFields host pool m i (f :: rest) src =
      if ((src.Get f.camelcase_name).IsUndefined || (src.Get f.camelcase_name).IsNull) = true
      then ToProtoFields host pool m (i + 1) rest src
      else
        (ToProtoField host pool m i f (src.Get f.camelcase_name)).andThen
          (fun m' => ToProtoFields host pool m' (i + 1) rest src) := by
  rw [ToProtoFields]
  simp only [ToProtoField]
  split <;> rfl

theorem ToProtoValue_message (host : Host) (pool : DescriptorPool) (m : Message) (i : Nat)
    (f : FieldDescriptor) (value : JsValue) (repeated : Bool)
    (hf : f.cpp_type = .CPPTYPE_MESSAGE) :
    ToProtoValue host pool m i f value repeated =
      if value.IsObject then
        ⟨none, SET m i repeated (.Message (ToProto host pool (pool.descriptor f.message_type)
            (SubMessage pool m i f repeated) value).message),
          (ToProto host pool (pool.descriptor f.message_type)
            (SubMessage pool m i f repeated) value).lookups⟩
      else ⟨some E_NO_OBJECT, m, []⟩ := by
  rw [ToProtoValue]; simp only [hf]

theorem ToProtoValue_enum (host : Host) (pool : DescriptorPool) (m : Message) (i : Nat)
    (f : FieldDescriptor) (value : JsValue) (repeated : Bool)
    (hf : f.cpp_type = .CPPTYPE_ENUM) :
    ToProtoValue host pool m i f value repeated =
      match (if value.IsNumber then f.enum_type.FindValueByNumber (Int32Value host value)
             else f.enum_type.FindValueByName (host.AsciiValue value)) with
      | none => ⟨some E_UNKNOWN_ENUM, m, []⟩
      | some enum_value => ⟨none, SET m i repeated (.Enum enum_value), []⟩ := by
  rw [ToProtoValue]; simp only [hf]

theorem ToProtoValue_scalar (host : Host) (pool : DescriptorPool) (m : Message) (i : Nat)
    (f : FieldDescriptor) (value : JsValue) (repeated : Bool)
    (hm : f.cpp_type ≠ .CPPTYPE_MESSAGE) (he : f.cpp_type ≠ .CPPTYPE_ENUM) :
    ToProtoValue host pool m i f value repeated =
      ⟨none, SET m i repeated (scalarValue host f value), []⟩ := by
  rw [ToProtoValue]
  unfold scalarValue
  cases hc : f.cpp_type <;> simp_all
  split <;> rfl

/-! ## The loop guard -/

theorem Populated.andThen_error {first : Populated} {e : String} (rest : Message → Populated)
    (h : first.error = some e) : first.andThen rest = first := by
  simp [Populated.andThen, h]

theorem Populated.andThen_ok {first : Populated} (rest : Message → Populated)
    (h : first.error = none) :
    first.andThen rest =
      ⟨(rest first.message).error, (rest first.message).message,
        first.lookups ++ (rest first.message).lookups⟩ := by
  simp [Populated.andThen, h]

theorem Populated.andThen_assoc (a : Populated) (f g : Message → Populated) :
    (a.andThen f).andThen g = a.andThen (fun m => (f m).andThen g) := by
  cases ha : a.error with
  | some e => simp [Populated.andThen, ha]
  | none =>
    cases hf : (f a.message).error with
    | some e => simp [Populated.andThen, ha, hf]
    | none => simp [Populated.andThen, ha, hf]

theorem Populated.andThen_error_isSome (first : Populated) (rest : Message → Populated)
    (h : first.error ≠ none) : (first.andThen rest).error ≠ none := by
  cases hf : first.error with
  | none => exact absurd hf h
  | some e => rw [Populated.andThen_error rest hf, hf]; simp

theorem ToProtoArray_append (host : Host) (pool : DescriptorPool) (i : Nat)
    (f : FieldDescriptor) (xs ys : List JsValue) (m : Message) :
    ToProtoArray host pool m i f (xs ++ ys) =
      (ToProtoArray host pool m i f xs).andThen
        (fun m' => ToProtoArray host pool m' i f ys) := by
  induction xs generalizing m with
  | nil =>
    rw [ToProtoArray_nil, Populated.andThen_ok _ rfl]
    simp
  | cons x xs ih =>
    rw [List.cons_append, ToProtoArray_cons, ToProtoArray_cons, Populated.andThen_assoc]
    congr 1
    funext m'
    exact ih m'

theorem ToProtoFields_append (host : Host) (pool : DescriptorPool) (src : JsValue)
    (pre post : List FieldDescriptor) (m : Message) (i : Nat) :
    ToProtoFields host pool m i (pre ++ post) src =
      (ToProtoFields host pool m i pre src).andThen
        (fun m' => ToProtoFields host pool m' (i + pre.length) post src) := by
  induction pre generalizing m i with
  | nil =>
    rw [ToProtoFields_nil, Populated.andThen_ok _ rfl]
    simp
  | cons f pre ih =>
    rw [List.cons_append, ToProtoFields_cons, ToProtoFields_cons]
    have harith : i + (f :: pre).length = i + 1 + pre.length := by simp; omega
    rw [harith]
    split
    · exact ih m (i + 1)
    · rw [Populated.andThen_assoc]
      congr 1
      funext m'
      exact ih m' (i + 1)

/-! ## The type cache -/

theorem Schema.GetType_pool (s : Schema) (d : Nat) : (s.GetType d).2.pool_ = s.pool_ := by
  unfold Schema.GetType
  split <;> rfl

theorem Schema.GetType_lookup_self (s : Schema) (d : Nat) :
    (s.GetType d).2.types_.lookup d = some (s.GetType d).1 := by
  unfold Schema.GetType
  split
  · assumption
  · simp [List.lookup]

theorem Schema.GetType_lookup_keep (s : Schema) (d k t : Nat)
    (h : s.types_.lookup k = some t) : (s.GetType d).2.types_.lookup k = some t := by
  unfold Schema.GetType
  split
  · exact h
  · rename_i hnone
    have hkd : (k == d) = false := by
      cases hk : k == d with
      | false => rfl
      | true =>
        have : k = d := by simpa using hk
        subst this
        rw [h] at hnone
        cases hnone
    simp [List.lookup, hkd, h]

theorem Schema.GetType_cached (s : Schema) (d t : Nat) (h : s.types_.lookup d = some t) :
    s.GetType d = (t, s) := by
  unfold Schema.GetType
  rw [h]

theorem Schema.lookup_none_not_mem (l : List (Nat × Nat)) (d : Nat)
    (h : l.lookup d = none) : d ∉ l.map Prod.fst := by
  induction l with
  | nil => simp
  | cons p l ih =>
    obtain ⟨k, v⟩ := p
    simp only [List.lookup] at h
    cases hk : d == k with
    | true => simp [hk] at h
    | false =>
      simp only [hk] at h
      have hne : d ≠ k := by simpa using hk
      simp only [List.map_cons, List.mem_cons, not_or]
      exact ⟨hne, ih h⟩

theorem Schema.GetType_nodup (s : Schema) (d : Nat) (h : (s.types_.map Prod.fst).Nodup) :
    ((s.GetType d).2.types_.map Prod.fst).Nodup := by
  unfold Schema.GetType
  split
  · exact h
  · rename_i hnone
    simp only [List.map_cons, List.nodup_cons]
    exact ⟨Schema.lookup_none_not_mem _ _ hnone, h⟩

theorem Schema.GetTypes_nil (s : Schema) : s.GetTypes [] = s := rfl

theorem Schema.GetTypes_cons (s : Schema) (d : Nat) (ds : List Nat) :
    s.GetTypes (d :: ds) = (s.GetType d).2.GetTypes ds := rfl

theorem Schema.GetTypes_append (s : Schema) (xs ys : List Nat) :
    s.GetTypes (xs ++ ys) = (s.GetTypes xs).GetTypes ys := by
  simp [Schema.GetTypes, List.foldl_append]

theorem Schema.GetTypes_pool (s : Schema) (ds : List Nat) : (s.GetTypes ds).pool_ = s.pool_ := by
  induction ds generalizing s with
  | nil => rfl
  | cons d ds ih => rw [Schema.GetTypes_cons, ih, Schema.GetType_pool]

theorem Schema.GetTypes_lookup_keep (s : Schema) (ds : List Nat) (k t : Nat)
    (h : s.types_.lookup k = some t) : (s.GetTypes ds).types_.lookup k = some t := by
  induction ds generalizing s with
  | nil => exact h
  | cons d ds ih =>
    rw [Schema.GetTypes_cons]
    exact ih _ (Schema.GetType_lookup_keep s d k t h)

theorem Schema.GetTypes_nodup (s : Schema) (ds : List Nat)
    (h : (s.types_.map Prod.fst).Nodup) : ((s.GetTypes ds).types_.map Prod.fst).Nodup := by
  induction ds generalizing s with
  | nil => exact h
  | cons d ds ih =>
    rw [Schema.GetTypes_cons]
    exact ih _ (Schema.GetType_nodup s d h)

theorem Schema.step_exists_lookups {host : Host} {codec : WireCodec} {s s' : Schema}
    (h : Schema.Step host codec s s') : ∃ ds, s' = s.GetTypes ds := by
  cases h with
  | getType d => exact ⟨[d], rfl⟩
  | getTypeNamed name =>
    unfold Schema.GetTypeNamed
    split
    · rename_i d _
      exact ⟨[d], rfl⟩
    · exact ⟨[], rfl⟩
  | serialize type arg0 =>
    unfold Serialize
    split
    · dsimp only
      split
      · exact ⟨_, rfl⟩
      · exact ⟨_, rfl⟩
    · exact ⟨[], rfl⟩
  | parse type arg0 =>
    unfold Parse
    split
    · split
      · dsimp only
        exact ⟨_, rfl⟩
      · exact ⟨[], rfl⟩
    · exact ⟨[], rfl⟩

theorem Schema.steps_exists_lookups {host : Host} {codec : WireCodec} {s s' : Schema}
    (h : Relation.ReflTransGen (Schema.Step host codec) s s') : ∃ ds, s' = s.GetTypes ds := by
  induction h with
  | refl => exact ⟨[], rfl⟩
  | tail _ hstep ih =>
    obtain ⟨xs, hxs⟩ := ih
    obtain ⟨ys, hys⟩ := Schema.step_exists_lookups hstep
    exact ⟨xs ++ ys, by rw [Schema.GetTypes_append, ← hxs, hys]⟩

theorem Schema.reachable_exists_lookups {host : Host} {codec : WireCodec}
    {pool : DescriptorPool} {s : Schema} (h : Schema.Reachable host codec pool s) :
    ∃ ds, s = (Schema.New pool).GetTypes ds := by
  induction h with
  | new => exact ⟨[], rfl⟩
  | step _ hstep ih =>
    obtain ⟨xs, hxs⟩ := ih
    obtain ⟨ys, hys⟩ := Schema.step_exists_lookups hstep
    exact ⟨xs ++ ys, by rw [Schema.GetTypes_append, ← hxs, hys]⟩

/-! ## C7, C8, C10 -/

/-- C7 (adapter identity).  Let `schema` be a state of a schema over `pool`
reached by any sequence of lookups, `serialize` and `parse` calls, let a lookup
of the descriptor `d` be made in it, and let `schema'` be any state reached
after that lookup.  Then a lookup of `d` in `schema'` returns the same `Type*`
as the first one, and so does a lookup by any name the pool resolves to `d`, in
either state; every entry of the cache of `schema` is still in the cache of
`schema'`, with the same `Type*`; and in both states the cache has at most one
entry per descriptor. -/
theorem adapter_identity (host : Host) (codec : WireCodec) (pool : DescriptorPool)
    (schema schema' : Schema) (d : Nat)
    (hreach : Schema.Reachable host codec pool schema)
    (hsteps : Relation.ReflTransGen (Schema.Step host codec) (schema.GetType d).2 schema') :
    (schema'.GetType d).1 = (schema.GetType d).1 ∧
    (∀ name, pool.FindMessageTypeByName name = some d →
      (schema.GetTypeNamed name).1 = some (schema.GetType d).1 ∧
      (schema'.GetTypeNamed name).1 = some (schema.GetType d).1) ∧
    (∀ k t, schema.types_.lookup k = some t → schema'.types_.lookup k = some t) ∧
    (schema.types_.map Prod.fst).Nodup ∧ (schema'.types_.map Prod.fst).Nodup := by
  obtain ⟨ds, hds⟩ := Schema.reachable_exists_lookups hreach
  obtain ⟨es, hes⟩ := Schema.steps_exists_lookups hsteps
  have hpool : schema.pool_ = pool := by rw [hds, Schema.GetTypes_pool]; rfl
  have hpool' : schema'.pool_ = pool := by
    rw [hes, Schema.GetTypes_pool, Schema.GetType_pool, hpool]
  have hnodup : (schema.types_.map Prod.fst).Nodup := by
    rw [hds]; exact Schema.GetTypes_nodup _ _ (by simp [Schema.New])
  have hsame : (schema'.GetType d).1 = (schema.GetType d).1 := by
    have h1 : schema'.types_.lookup d = some (schema.GetType d).1 := by
      rw [hes]
      exact Schema.GetTypes_lookup_keep _ _ _ _ (Schema.GetType_lookup_self schema d)
    rw [Schema.GetType_cached _ _ _ h1]
  refine ⟨hsame, ?_, ?_, hnodup, ?_⟩
  · intro name hname
    constructor
    · unfold Schema.GetTypeNamed
      rw [hpool, hname]
    · unfold Schema.GetTypeNamed
      rw [hpool', hname]
      simp only [hsame]
  · intro k t hk
    rw [hes]
    exact Schema.GetTypes_lookup_keep _ _ _ _ (Schema.GetType_lookup_keep schema d k t hk)
  · rw [hes]
    exact Schema.GetTypes_nodup _ _ (Schema.GetType_nodup schema d hnodup)

/-- Witness of C7: on the example pool, look `Can` up in a new schema, then
serialize a record whose nested `Paint` value makes the cache grow, and look
`Can` up again. -/
theorem adapter_identity_witness :
    ((Serialize exampleHost exampleCodec ((Schema.New examplePool).GetType 4).2 ⟨4⟩
        (.object [("inner", .object [])])).2.GetType 4).1 =
      ((Schema.New examplePool).GetType 4).1 :=
  (adapter_identity exampleHost exampleCodec examplePool (Schema.New examplePool)
    (Serialize exampleHost exampleCodec ((Schema.New examplePool).GetType 4).2 ⟨4⟩
        (.object [("inner", .object [])])).2 4
    Schema.Reachable.new
    (Relation.ReflTransGen.single (Schema.Step.serialize _ _ _))).1

/-- C8 (unknown type name).  When the pool does not resolve `name`, the lookup by
name returns the empty handle and the schema is the same afterwards: no `Type`
is made and the cache is unchanged.  When the pool resolves `name` to the
descriptor `d`, the lookup returns the `Type*` that `GetType(d)` returns, which
is the entry of `d` in the cache afterwards, and the entry it already had if it
had one. -/
theorem unknown_type_name_is_absent (schema : Schema) (name : String) :
    (schema.pool_.FindMessageTypeByName name = none →
      schema.GetTypeNamed name = (none, schema)) ∧
    (∀ d, schema.pool_.FindMessageTypeByName name = some d →
      (schema.GetTypeNamed name).1 = some (schema.GetType d).1 ∧
      (schema.GetTypeNamed name).2.types_.lookup d = (schema.GetTypeNamed name).1 ∧
      (∀ t, schema.types_.lookup d = some t →
        schema.GetTypeNamed name = (some t, schema))) := by
  constructor
  · intro h
    unfold Schema.GetTypeNamed
    rw [h]
  · intro d h
    unfold Schema.GetTypeNamed
    rw [h]
    refine ⟨rfl, Schema.GetType_lookup_self schema d, ?_⟩
    intro t ht
    simp only [Schema.GetType_cached _ _ _ ht]

/-- C10 (decode error contract).  For a type of any schema and any byte buffer:
when the wire codec parses the bytes against the type's descriptor into
`message`, `parse` returns the conversion `ToJs` of `message`; when the codec
does not parse them, `parse` throws the error `Malformed message`; so `parse`
returns a record exactly when the codec parses the bytes. -/
theorem decode_error_contract (host : Host) (codec : WireCodec) (schema : Schema)
    (type : SchemaType) (bytes : List Nat) :
    (∀ message, codec.ParseFromArray type.descriptor_ bytes = some message →
      (Parse host codec schema type (.buffer bytes)).1 =
        .ok (ToJs host schema.pool_ (schema.pool_.descriptor type.descriptor_) message).value) ∧
    (codec.ParseFromArray type.descriptor_ bytes = none →
      (Parse host codec schema type (.buffer bytes)).1 =
        .error (.Error "Malformed message")) ∧
    ((∃ record, (Parse host codec schema type (.buffer bytes)).1 = .ok record) ↔
      ∃ message, codec.ParseFromArray type.descriptor_ bytes = some message) := by
  have h1 : ∀ message, codec.ParseFromArray type.descriptor_ bytes = some message →
      (Parse host codec schema type (.buffer bytes)).1 =
        .ok (ToJs host schema.pool_ (schema.pool_.descriptor type.descriptor_) message).value := by
    intro message h
    simp [Parse, JsValue.IsBuffer, JsValue.bufferData, h]
  have h2 : codec.ParseFromArray type.descriptor_ bytes = none →
      (Parse host codec schema type (.buffer bytes)).1 =
        .error (.Error "Malformed message") := by
    intro h
    simp [Parse, JsValue.IsBuffer, JsValue.bufferData, h]
  refine ⟨h1, h2, ?_⟩
  constructor
  · rintro ⟨record, hrec⟩
    cases hp : codec.ParseFromArray type.descriptor_ bytes with
    | some message => exact ⟨message, rfl⟩
    | none => rw [h2 hp] at hrec; cases hrec
  · rintro ⟨message, hm⟩
    exact ⟨_, h1 message hm⟩

/-! ## Encoding errors -/

theorem ToProtoValue_eq (host : Host) (pool : DescriptorPool) (m : Message) (i : Nat)
    (f : FieldDescriptor) (value : JsValue) (repeated : Bool) :
    ToProtoValue host pool m i f value repeated =
      match f.cpp_type with
      | .CPPTYPE_MESSAGE =>
        if value.IsObject then
          ⟨none, SET m i repeated (.Message (ToProto host pool (pool.descriptor f.message_type)
              (SubMessage pool m i f repeated) value).message),
            (ToProto host pool (pool.descriptor f.message_type)
              (SubMessage pool m i f repeated) value).lookups⟩
        else ⟨some E_NO_OBJECT, m, []⟩
      | .CPPTYPE_ENUM =>
        match (if value.IsNumber then f.enum_type.FindValueByNumber (Int32Value host value)
               else f.enum_type.FindValueByName (host.AsciiValue value)) with
        | none => ⟨some E_UNKNOWN_ENUM, m, []⟩
        | some enum_value => ⟨none, SET m i repeated (.Enum enum_value), []⟩
      | _ => ⟨none, SET m i repeated (scalarValue host f value), []⟩ := by
  cases hc : f.cpp_type
  case CPPTYPE_MESSAGE => simp only [ToProtoValue_message host pool m i f value repeated hc]
  case CPPTYPE_ENUM => simp only [ToProtoValue_enum host pool m i f value repeated hc]
  all_goals
    rw [ToProtoValue_scalar host pool m i f value repeated (by simp [hc]) (by simp [hc])]

theorem JsValue.IsObject_of_Get (self : JsValue) (name : String)
    (h : ((self.Get name).IsUndefined || (self.Get name).IsNull) = false) :
    self.IsObject = true := by
  cases self <;> simp_all [JsValue.Get, JsValue.IsUndefined, JsValue.IsObject]

theorem encode_eq (host : Host) (codec : WireCodec) (pool : DescriptorPool) (d : Nat)
    (record : JsValue) (h : record.IsObject = true) :
    encode host codec pool d record =
      match (ToProto host pool (pool.descriptor d) (NewMessage (pool.descriptor d)) record).error with
      | none => .ok (codec.SerializeToArray d
          (ToProto host pool (pool.descriptor d) (NewMessage (pool.descriptor d)) record).message)
      | some e => .error (.Error e) := by
  have hp : (Schema.New pool).pool_ = pool := rfl
  simp only [encode, Serialize, h, if_true, hp]
  cases he : (ToProto host pool (pool.descriptor d) (NewMessage (pool.descriptor d))
      record).error <;> simp [JsValue.bufferData]

theorem encode_error (host : Host) (codec : WireCodec) (pool : DescriptorPool) (d : Nat)
    (record : JsValue) (e : String) (h : record.IsObject = true)
    (he : (ToProto host pool (pool.descriptor d) (NewMessage (pool.descriptor d)) record).error
      = some e) :
    encode host codec pool d record = .error (.Error e) := by
  rw [encode_eq host codec pool d record h, he]

/-- The loop fails at a field when the fields before it convert and its own
conversion fails, and with the error of that conversion. -/
theorem ToProto_first_error (host : Host) (pool : DescriptorPool) (d : Descriptor)
    (m : Message) (src : JsValue) (pre post : List FieldDescriptor) (f : FieldDescriptor)
    (e : String) (hfields : d.fields = pre ++ f :: post)
    (hpresent :
      ((src.Get f.camelcase_name).IsUndefined || (src.Get f.camelcase_name).IsNull) = false)
    (hpre : (ToProtoFields host pool m 0 pre src).error = none)
    (hfail : (ToProtoField host pool (ToProtoFields host pool m 0 pre src).message pre.length f
      (src.Get f.camelcase_name)).error = some e) :
    (ToProto host pool d m src).error = some e := by
  rw [ToProto_eq, hfields, ToProtoFields_append, Populated.andThen_ok _ hpre]
  simp only [Nat.zero_add]
  rw [ToProtoFields_cons]
  simp only [hpresent, Bool.false_eq_true, if_false]
  rw [Populated.andThen_error _ hfail, hfail]

/-- The loop fails when the conversion of a present field fails, whatever the
fields before it do. -/
theorem ToProto_some_error (host : Host) (pool : DescriptorPool) (d : Descriptor)
    (m : Message) (src : JsValue) (pre post : List FieldDescriptor) (f : FieldDescriptor)
    (hfields : d.fields = pre ++ f :: post)
    (hpresent :
      ((src.Get f.camelcase_name).IsUndefined || (src.Get f.camelcase_name).IsNull) = false)
    (hfail : ∀ m', (ToProtoField host pool m' pre.length f (src.Get f.camelcase_name)).error
      ≠ none) :
    (ToProto host pool d m src).error ≠ none := by
  rw [ToProto_eq, hfields, ToProtoFields_append]
  cases hpre : (ToProtoFields host pool m 0 pre src).error with
  | some e => rw [Populated.andThen_error _ hpre, hpre]; simp
  | none =>
    rw [Populated.andThen_ok _ hpre]
    simp only [Nat.zero_add]
    rw [ToProtoFields_cons]
    simp only [hpresent, Bool.false_eq_true, if_false]
    exact Populated.andThen_error_isSome _ _ (hfail _)

theorem ToProtoField_not_array (host : Host) (pool : DescriptorPool) (m : Message) (i : Nat)
    (f : FieldDescriptor) (value : JsValue) (hrep : f.is_repeated = true)
    (hseq : value.IsArray = false) :
    (ToProtoField host pool m i f value).error = some E_NO_ARRAY := by
  simp [ToProtoField, hrep, hseq]

/-- C3 (a repeated field holding a non-sequence).  Let `field` be a repeated
field of the adapter's descriptor whose value in `record` is neither `undefined`
nor `null` and is not an array.  Then `encode` throws an error and returns no
bytes; and when the fields declared before `field` convert without error, the
error is `Not an array`. -/
theorem repeated_non_sequence_fails (host : Host) (codec : WireCodec) (pool : DescriptorPool)
    (descriptor : Nat) (record : JsValue) (pre post : List FieldDescriptor)
    (field : FieldDescriptor)
    (hfields : (pool.descriptor descriptor).fields = pre ++ field :: post)
    (hrepeated : field.is_repeated = true)
    (hpresent : ((record.Get field.camelcase_name).IsUndefined ||
      (record.Get field.camelcase_name).IsNull) = false)
    (hseq : (record.Get field.camelcase_name).IsArray = false) :
    (∃ e, encode host codec pool descriptor record = .error (.Error e)) ∧
    ((ToProtoFields host pool (NewMessage (pool.descriptor descriptor)) 0 pre record).error
        = none →
      encode host codec pool descriptor record = .error (.Error E_NO_ARRAY)) := by
  have hobj := JsValue.IsObject_of_Get record _ hpresent
  constructor
  · have hne := ToProto_some_error host pool (pool.descriptor descriptor)
      (NewMessage (pool.descriptor descriptor)) record pre post field hfields hpresent
      (fun m' => by rw [ToProtoField_not_array host pool m' _ field _ hrepeated hseq]; simp)
    cases he : (ToProto host pool (pool.descriptor descriptor)
        (NewMessage (pool.descriptor descriptor)) record).error with
    | none => exact absurd he hne
    | some e => exact ⟨e, encode_error host codec pool descriptor record e hobj he⟩
  · intro hpre
    exact encode_error host codec pool descriptor record _ hobj
      (ToProto_first_error host pool _ _ record pre post field _ hfields hpresent hpre
        (ToProtoField_not_array host pool _ _ field _ hrepeated hseq))

/-- Witness of C3: `Tags { repeated string tags }` and the record `{tags: 7}`. -/
theorem repeated_non_sequence_fails_witness :
    encode exampleHost exampleCodec examplePool 2 (.object [("tags", .number 7)]) =
      .error (.Error "Not an array") :=
  (repeated_non_sequence_fails exampleHost exampleCodec examplePool 2
    (.object [("tags", .number 7)]) [] [] ⟨"tags", .CPPTYPE_STRING, false, true, 0, ⟨[]⟩⟩
    rfl rfl rfl rfl).2 (by rw [ToProtoFields_nil])

theorem ToProtoValue_not_object (host : Host) (pool : DescriptorPool) (m : Message) (i : Nat)
    (f : FieldDescriptor) (value : JsValue) (repeated : Bool)
    (hf : f.cpp_type = .CPPTYPE_MESSAGE) (hv : value.IsObject = false) :
    ToProtoValue host pool m i f value repeated = ⟨some E_NO_OBJECT, m, []⟩ := by
  rw [ToProtoValue_message host pool m i f value repeated hf]
  simp [hv]

/-- C6 (not an object).  (1) `serialize` called with an argument that is not an
object throws the type error `Not an object` and leaves the schema as it was: no
message is made and no property is read.  (2) The conversion of a value that
is not an object into a message-kind field, singular or as an element of a
repeated one, returns `Not an object`, leaves the message as it was and makes no
nested conversion.  (3) `encode` throws `Not an object` when the value of a
singular message-kind field is present and is not an object and the fields
declared before it convert without error; (4) and also when an element of the
array given for a repeated message-kind field is not an object, the fields
declared before it and the elements before that element converting without
error. -/
theorem not_an_object (host : Host) (codec : WireCodec) (pool : DescriptorPool)
    (descriptor : Nat) :
    (∀ (schema : Schema) (type : SchemaType) (arg0 : JsValue), arg0.IsObject = false →
      Serialize host codec schema type arg0 = (.error (.TypeError "Not an object"), schema)) ∧
    (∀ (m : Message) (i : Nat) (field : FieldDescriptor) (value : JsValue) (repeated : Bool),
      field.cpp_type = .CPPTYPE_MESSAGE → value.IsObject = false →
      ToProtoValue host pool m i field value repeated = ⟨some E_NO_OBJECT, m, []⟩) ∧
    (∀ (record : JsValue) (pre post : List FieldDescriptor) (field : FieldDescriptor),
      (pool.descriptor descriptor).fields = pre ++ field :: post →
      field.cpp_type = .CPPTYPE_MESSAGE → field.is_repeated = false →
      ((record.Get field.camelcase_name).IsUndefined ||
        (record.Get field.camelcase_name).IsNull) = false →
      (record.Get field.camelcase_name).IsObject = false →
      (ToProtoFields host pool (NewMessage (pool.descriptor descriptor)) 0 pre record).error
        = none →
      encode host codec pool descriptor record = .error (.Error E_NO_OBJECT)) ∧
    (∀ (record : JsValue) (pre post : List FieldDescriptor) (field : FieldDescriptor)
      (xs ys : List JsValue) (y : JsValue),
      (pool.descriptor descriptor).fields = pre ++ field :: post →
      field.cpp_type = .CPPTYPE_MESSAGE → field.is_repeated = true →
      record.Get field.camelcase_name = .array (xs ++ y :: ys) →
      y.IsObject = false →
      (ToProtoFields host pool (NewMessage (pool.descriptor descriptor)) 0 pre record).error
        = none →
      (ToProtoArray host pool
        (ToProtoFields host pool (NewMessage (pool.descriptor descriptor)) 0 pre record).message
        pre.length field xs).error = none →
      encode host codec pool descriptor record = .error (.Error E_NO_OBJECT)) := by
  refine ⟨?_, ?_, ?_, ?_⟩
  · intro schema type arg0 h
    simp [Serialize, h]
  · intro m i field value repeated hf hv
    exact ToProtoValue_not_object host pool m i field value repeated hf hv
  · intro record pre post field hfields hf hrep hpresent hobj hpre
    refine encode_error host codec pool descriptor record _
      (JsValue.IsObject_of_Get record _ hpresent)
      (ToProto_first_error host pool _ _ record pre post field _ hfields hpresent hpre ?_)
    simp only [ToProtoField, hrep, Bool.false_eq_true, if_false]
    rw [ToProtoValue_not_object host pool _ _ field _ false hf hobj]
  · intro record pre post field xs ys y hfields hf hrep hget hy hpre hxs
    have hpresent : ((record.Get field.camelcase_name).IsUndefined ||
        (record.Get field.camelcase_name).IsNull) = false := by
      rw [hget]; rfl
    refine encode_error host codec pool descriptor record _
      (JsValue.IsObject_of_Get record _ hpresent)
      (ToProto_first_error host pool _ _ record pre post field _ hfields hpresent hpre ?_)
    simp only [ToProtoField, hrep, if_true, hget, JsValue.IsArray, JsValue.elements]
    rw [ToProtoArray_append, Populated.andThen_ok _ hxs, ToProtoArray_cons,
      ToProtoValue_not_object host pool _ _ field y true hf hy,
      Populated.andThen_error _ rfl]

/-- Witness of C6: `Can { Paint inner }` and the record `{inner: 5}`. -/
theorem not_an_object_witness :
    encode exampleHost exampleCodec examplePool 4 (.object [("inner", .number 5)]) =
      .error (.Error "Not an object") :=
  (not_an_object exampleHost exampleCodec examplePool 4).2.2.1
    (.object [("inner", .number 5)]) [] []
    ⟨"inner", .CPPTYPE_MESSAGE, false, false, 3, ⟨[]⟩⟩ rfl rfl rfl rfl rfl
    (by rw [ToProtoFields_nil])

/-- C2 at its failing input: for `Can { Paint inner }`, `Paint { Color color }`
and the record `{inner: {color: "PURPLE"}}`, the conversion of the nested record
returns `Unknown enum value`, and `encode` returns the bytes of a `Can` whose
`inner` is set to an empty `Paint`. -/
theorem nested_failure_is_dropped (codec : WireCodec) :
    (ToProto exampleHost examplePool Paint (NewMessage Paint)
      (.object [("color", .string "PURPLE")])).error = some E_UNKNOWN_ENUM ∧
    encode exampleHost codec examplePool 4
        (.object [("inner", .object [("color", .string "PURPLE")])]) =
      .ok (codec.SerializeToArray 4 (.mk [[.Message (.mk [[]])]])) := by
  have hinner : ToProto exampleHost examplePool Paint (NewMessage Paint)
      (.object [("color", .string "PURPLE")]) = ⟨some E_UNKNOWN_ENUM, .mk [[]], []⟩ := by
    simp [ToProto_eq, ToProtoFields_cons, ToProtoField, ToProtoValue_eq,
      Populated.andThen, JsValue.Get, JsValue.lookup, JsValue.IsUndefined, JsValue.IsNull,
      JsValue.IsNumber, NewMessage, Descriptor.field_count, Paint, Color, exampleHost,
      EnumDescriptor.FindValueByName]
  constructor
  · rw [hinner]
  · rw [encode_eq exampleHost codec examplePool 4 _ (by rfl)]
    have houter : ToProto exampleHost examplePool (examplePool.descriptor 4)
        (NewMessage (examplePool.descriptor 4))
        (.object [("inner", .object [("color", .string "PURPLE")])]) =
        ⟨none, .mk [[.Message (.mk [[]])]], [3]⟩ := by
      have h3 : examplePool.descriptor 3 = Paint := rfl
      have h4 : examplePool.descriptor 4 = Can := rfl
      rw [h4]
      simp [ToProto_eq, ToProtoFields_cons, ToProtoFields_nil, ToProtoField, ToProtoValue_eq,
        Populated.andThen, JsValue.Get, JsValue.lookup, JsValue.IsUndefined, JsValue.IsNull,
        JsValue.IsObject, NewMessage, Descriptor.field_count, Can, SubMessage, Message.cell,
        Message.cells, SET, Message.Set, h3]
      have := hinner
      simp only [ToProto_eq, NewMessage, Descriptor.field_count, Paint, List.length_singleton,
        List.replicate_one,List.replicate] at this
      simp [Paint, this]
    rw [houter]

/-! ## Enum resolution -/

theorem ToInt32_of_range (n : Int) (h1 : -2 ^ 31 ≤ n) (h2 : n < 2 ^ 31) : ToInt32 n = n := by
  unfold ToInt32
  have h : (n + 2 ^ 31) % 2 ^ 32 = n + 2 ^ 31 := Int.emod_eq_of_lt (by omega) (by omega)
  rw [h]; omega

theorem find?_isSome_iff_number (e : EnumDescriptor) (n : Int) :
    e.FindValueByNumber n ≠ none ↔ ∃ v ∈ e.values, v.number = n := by
  unfold EnumDescriptor.FindValueByNumber
  rw [ne_eq, List.find?_eq_none]
  simp

theorem find?_isSome_iff_name (e : EnumDescriptor) (s : String) :
    e.FindValueByName s ≠ none ↔ ∃ v ∈ e.values, v.name = s := by
  unfold EnumDescriptor.FindValueByName
  rw [ne_eq, List.find?_eq_none]
  simp

theorem find?_name_of_mem (values : List EnumValueDescriptor) (v : EnumValueDescriptor)
    (hv : v ∈ values) (hnames : (values.map EnumValueDescriptor.name).Nodup) :
    values.find? (fun w => decide (w.name = v.name)) = some v := by
  induction values with
  | nil => cases hv
  | cons w ws ih =>
    rw [List.map_cons, List.nodup_cons] at hnames
    rw [List.find?_cons]
    by_cases hw : w.name = v.name
    · simp only [hw, decide_True]
      rcases List.mem_cons.mp hv with h | h
      · rw [h]
      · exact absurd (hw ▸ List.mem_map_of_mem _ h) hnames.1
    · simp only [hw, decide_False]
      rcases List.mem_cons.mp hv with h | h
      · exact absurd (h ▸ rfl) hw
      · exact ih h hnames.2

theorem FindValueByName_of_mem (e : EnumDescriptor) (v : EnumValueDescriptor)
    (hv : v ∈ e.values) (hnames : (e.values.map EnumValueDescriptor.name).Nodup) :
    e.FindValueByName v.name = some v :=
  find?_name_of_mem e.values v hv hnames

theorem FindValueByNumber_mem (e : EnumDescriptor) (n : Int) (v : EnumValueDescriptor)
    (h : e.FindValueByNumber n = some v) : v ∈ e.values :=
  List.mem_of_find?_eq_some h

/-- C5, amended (enum resolution on encode).  For an enum-kind field:
(1) a Number is resolved by `FindValueByNumber` at its 32-bit integer
conversion `Int32Value`: the conversion stores the value found, and returns
`Unknown enum value` and stores nothing when there is none.  (2) The 32-bit
integer conversion of an integer is `ToInt32`, (3) that of a fraction is
`ToInt32` of its integer part, (4) that of NaN and of the infinities is 0, and
(5) `ToInt32` of an integer in the `int32` range is the integer itself.  So
(6) the conversion of a Number succeeds exactly when a declared value has the
number its 32-bit integer conversion gives.  (7) A value that is not a Number
is resolved by `FindValueByName` at its string conversion, and (8) a string
that the conversion gives back unchanged succeeds exactly when a declared
value has that name.  (9) When the value names of the enum are pairwise
distinct, a Number and the name of the value it resolves to are converted
alike. -/
theorem enum_resolution (host : Host) (pool : DescriptorPool) (m : Message) (i : Nat)
    (field : FieldDescriptor) (repeated : Bool) (hf : field.cpp_type = .CPPTYPE_ENUM) :
    (∀ value : JsValue, value.IsNumber = true →
      ToProtoValue host pool m i field value repeated =
        match field.enum_type.FindValueByNumber (Int32Value host value) with
        | none => ⟨some E_UNKNOWN_ENUM, m, []⟩
        | some v => ⟨none, SET m i repeated (.Enum v), []⟩) ∧
    (∀ n : Int, Int32Value host (.number n) = ToInt32 n) ∧
    (∀ (a : Int) (k : Nat), Int32Value host (.fraction a k) = ToInt32 (Int.tdiv a (2 ^ k))) ∧
    (Int32Value host .nan = 0 ∧ ∀ negative : Bool, Int32Value host (.infinity negative) = 0) ∧
    (∀ n : Int, -2 ^ 31 ≤ n → n < 2 ^ 31 → ToInt32 n = n) ∧
    (∀ value : JsValue, value.IsNumber = true →
      ((ToProtoValue host pool m i field value repeated).error = none ↔
        ∃ v ∈ field.enum_type.values, v.number = Int32Value host value)) ∧
    (∀ value : JsValue, value.IsNumber = false →
      ToProtoValue host pool m i field value repeated =
        match field.enum_type.FindValueByName (host.AsciiValue value) with
        | none => ⟨some E_UNKNOWN_ENUM, m, []⟩
        | some v => ⟨none, SET m i repeated (.Enum v), []⟩) ∧
    (∀ s : String, host.AsciiValue (.string s) = s →
      ((ToProtoValue host pool m i field (.string s) repeated).error = none ↔
        ∃ v ∈ field.enum_type.values, v.name = s)) ∧
    (∀ (value : JsValue) (v : EnumValueDescriptor), value.IsNumber = true →
      (field.enum_type.values.map EnumValueDescriptor.name).Nodup →
      field.enum_type.FindValueByNumber (Int32Value host value) = some v →
      host.AsciiValue (.string v.name) = v.name →
      ToProtoValue host pool m i field (.string v.name) repeated =
        ToProtoValue host pool m i field value repeated) := by
  have hnum : ∀ value : JsValue, value.IsNumber = true →
      ToProtoValue host pool m i field value repeated =
        match field.enum_type.FindValueByNumber (Int32Value host value) with
        | none => ⟨some E_UNKNOWN_ENUM, m, []⟩
        | some v => ⟨none, SET m i repeated (.Enum v), []⟩ := by
    intro value hv
    rw [ToProtoValue_enum host pool m i field _ repeated hf]
    simp [hv]
  have htext : ∀ value : JsValue, value.IsNumber = false →
      ToProtoValue host pool m i field value repeated =
        match field.enum_type.FindValueByName (host.AsciiValue value) with
        | none => ⟨some E_UNKNOWN_ENUM, m, []⟩
        | some v => ⟨none, SET m i repeated (.Enum v), []⟩ := by
    intro value hv
    rw [ToProtoValue_enum host pool m i field _ repeated hf]
    simp [hv]
  refine ⟨hnum, fun _ => rfl, fun _ _ => rfl, ⟨rfl, fun _ => rfl⟩, ToInt32_of_range, ?_, htext,
    ?_, ?_⟩
  · intro value hv
    rw [hnum value hv, ← find?_isSome_iff_number]
    cases field.enum_type.FindValueByNumber (Int32Value host value) <;> simp
  · intro s hs
    rw [htext (.string s) rfl, hs, ← find?_isSome_iff_name]
    cases field.enum_type.FindValueByName s <;> simp
  · intro value v hvalue hnames hv hs
    rw [hnum value hvalue, hv, htext (.string v.name) rfl, hs,
      FindValueByName_of_mem _ v (FindValueByNumber_mem _ _ _ hv) hnames]

theorem ToProto_Paint_eq (value : JsValue)
    (hpresent : (value.IsUndefined || value.IsNull) = false) :
    ToProto exampleHost examplePool Paint (NewMessage Paint) (.object [("color", value)]) =
      ⟨(ToProtoValue exampleHost examplePool (NewMessage Paint) 0
          ⟨"color", .CPPTYPE_ENUM, false, false, 0, Color⟩ value false).error,
        (ToProtoValue exampleHost examplePool (NewMessage Paint) 0
          ⟨"color", .CPPTYPE_ENUM, false, false, 0, Color⟩ value false).message, []⟩ := by
  rw [ToProto_eq]
  simp only [Paint, ToProtoFields_cons, ToProtoFields_nil, JsValue.Get, JsValue.lookup, if_true,
    hpresent, Bool.false_eq_true, if_false, ToProtoField]
  rw [ToProtoValue_enum _ _ _ _ _ _ _ rfl]
  split <;> simp [Populated.andThen]

/-- Witness of C5: `Paint { Color color }` with `RED = 0, BLUE = 1`.  The number
`1` and the name `BLUE` are converted alike, and so are the number `1.5`, whose
integer part is 1, and the name `BLUE`; so `{color: 1}` and `{color: "BLUE"}`
encode alike, and `{color: "PURPLE"}` fails with `Unknown enum value`. -/
theorem enum_resolution_witness :
    ToProtoValue exampleHost examplePool (NewMessage Paint) 0
        ⟨"color", .CPPTYPE_ENUM, false, false, 0, Color⟩ (.string "BLUE") false =
      ToProtoValue exampleHost examplePool (NewMessage Paint) 0
        ⟨"color", .CPPTYPE_ENUM, false, false, 0, Color⟩ (.number 1) false ∧
    ToProtoValue exampleHost examplePool (NewMessage Paint) 0
        ⟨"color", .CPPTYPE_ENUM, false, false, 0, Color⟩ (.string "BLUE") false =
      ToProtoValue exampleHost examplePool (NewMessage Paint) 0
        ⟨"color", .CPPTYPE_ENUM, false, false, 0, Color⟩ (.fraction 3 1) false ∧
    encode exampleHost exampleCodec examplePool 3 (.object [("color", .number 1)]) =
      encode exampleHost exampleCodec examplePool 3 (.object [("color", .string "BLUE")]) ∧
    encode exampleHost exampleCodec examplePool 3 (.object [("color", .string "PURPLE")]) =
      .error (.Error "Unknown enum value") := by
  have h := (enum_resolution exampleHost examplePool (NewMessage Paint) 0
    ⟨"color", .CPPTYPE_ENUM, false, false, 0, Color⟩ false rfl).2.2.2.2.2.2.2.2 (.number 1)
    ⟨"BLUE", 1⟩ rfl (by decide) (by decide) rfl
  have h' := (enum_resolution exampleHost examplePool (NewMessage Paint) 0
    ⟨"color", .CPPTYPE_ENUM, false, false, 0, Color⟩ false rfl).2.2.2.2.2.2.2.2 (.fraction 3 1)
    ⟨"BLUE", 1⟩ rfl (by decide) (by decide) rfl
  have hpool : examplePool.descriptor 3 = Paint := rfl
  refine ⟨h, h', ?_, ?_⟩
  · rw [encode_eq _ _ _ _ _ (by rfl), encode_eq _ _ _ _ _ (by rfl), hpool,
      ToProto_Paint_eq _ (by rfl), ToProto_Paint_eq _ (by rfl), h]
  · rw [encode_eq _ _ _ _ _ (by rfl), hpool, ToProto_Paint_eq _ (by rfl),
      ToProtoValue_enum _ _ _ _ _ _ _ rfl]
    simp [JsValue.IsNumber, exampleHost, EnumDescriptor.FindValueByName, Color, E_UNKNOWN_ENUM]

/-- Counterexample to C5 as stated: with `RED = 0, BLUE = 1`, no declared value
has the number 4294967297, and yet the conversion of `{color: 4294967297}`
succeeds and stores `BLUE`, as that of `{color: "BLUE"}` does. -/
theorem enum_number_outside_int32 :
    (¬ ∃ v ∈ Color.values, v.number = 4294967297) ∧
    ToProto exampleHost examplePool Paint (NewMessage Paint)
        (.object [("color", .number 4294967297)]) =
      ⟨none, .mk [[.Enum ⟨"BLUE", 1⟩]], []⟩ ∧
    ToProto exampleHost examplePool Paint (NewMessage Paint)
        (.object [("color", .string "BLUE")]) =
      ⟨none, .mk [[.Enum ⟨"BLUE", 1⟩]], []⟩ := by
  refine ⟨by decide, ?_, ?_⟩
  · rw [ToProto_Paint_eq _ (by rfl), ToProtoValue_enum _ _ _ _ _ _ _ rfl]
    have h : Color.FindValueByNumber (ToInt32 4294967297) = some ⟨"BLUE", 1⟩ := by decide
    simp [JsValue.IsNumber, Int32Value, h, SET, Message.Set, NewMessage, Paint,
      Descriptor.field_count, Message.cells]
  · rw [ToProto_Paint_eq _ (by rfl), ToProtoValue_enum _ _ _ _ _ _ _ rfl]
    have h : Color.FindValueByName "BLUE" = some ⟨"BLUE", 1⟩ := by decide
    simp [JsValue.IsNumber, exampleHost, h, SET, Message.Set, NewMessage, Paint,
      Descriptor.field_count, Message.cells]

/-! ## The decoded record -/

theorem ToJs_mk (host : Host) (pool : DescriptorPool) (d : Descriptor)
    (cells : List (List FieldValue)) :
    ToJs host pool d (.mk cells) =
      ⟨NewObject d (ToJsFields host pool d.fields cells).1,
        (ToJsFields host pool d.fields cells).2⟩ := by
  rw [ToJs]

theorem ToJs_value (host : Host) (pool : DescriptorPool) (d : Descriptor) (m : Message) :
    (ToJs host pool d m).value = NewObject d (ToJsFields host pool d.fields m.cells).1 := by
  cases m with
  | mk cells => rw [ToJs_mk]; rfl

theorem ToJsValue_eq (host : Host) (pool : DescriptorPool) (f : FieldDescriptor)
    (v : FieldValue) :
    ToJsValue host pool f v =
      match f.cpp_type with
      | .CPPTYPE_MESSAGE =>
        match v with
        | .Message m => ToJs host pool (pool.descriptor f.message_type) m
        | _ => ⟨NewObject (pool.descriptor f.message_type) [], []⟩
      | .CPPTYPE_STRING =>
        if f.is_bytes then ⟨.buffer (GetString v), []⟩
        else ⟨.string (host.NewString (GetString v)), []⟩
      | .CPPTYPE_INT32 => ⟨.number (GetInt32 v), []⟩
      | .CPPTYPE_UINT32 => ⟨.number (GetUInt32 v), []⟩
      | .CPPTYPE_INT64 => ⟨.number (castDouble (GetInt64 v)), []⟩
      | .CPPTYPE_UINT64 => ⟨.number (castDouble (GetUInt64 v)), []⟩
      | .CPPTYPE_FLOAT => ⟨JsValue.ofNumber (GetFloat v), []⟩
      | .CPPTYPE_DOUBLE => ⟨JsValue.ofNumber (GetDouble v), []⟩
      | .CPPTYPE_BOOL => ⟨.boolean (GetBool v), []⟩
      | .CPPTYPE_ENUM => ⟨.string (GetEnum f v).name, []⟩ := by
  cases v <;> rfl

theorem ToJsValue_not_undefined (host : Host) (pool : DescriptorPool) (f : FieldDescriptor)
    (v : FieldValue) : (ToJsValue host pool f v).value.IsUndefined = false := by
  rw [ToJsValue_eq]
  cases f.cpp_type <;> simp only []
  case CPPTYPE_MESSAGE => cases v <;> simp [ToJs_value, NewObject, JsValue.IsUndefined]
  case CPPTYPE_STRING => split <;> rfl
  case CPPTYPE_FLOAT => cases GetFloat v <;> rfl
  case CPPTYPE_DOUBLE => cases GetDouble v <;> rfl
  all_goals rfl

theorem ToJsArray_fst (host : Host) (pool : DescriptorPool) (f : FieldDescriptor)
    (xs : List FieldValue) :
    (ToJsArray host pool f xs).1 = xs.map (fun v => (ToJsValue host pool f v).value) := by
  induction xs with
  | nil => simp [ToJsArray]
  | cons x xs ih => simp [ToJsArray, ih]

theorem ToJsFields_cons_cons (host : Host) (pool : DescriptorPool) (f : FieldDescriptor)
    (fs : List FieldDescriptor) (cell : List FieldValue) (cells : List (List FieldValue)) :
    (ToJsFields host pool (f :: fs) (cell :: cells)).1 =
      fieldProperty host pool f cell :: (ToJsFields host pool fs cells).1 := by
  rw [ToJsFields.eq_def]
  cases cell with
  | nil => simp [fieldProperty]
  | cons x xs =>
    simp only [fieldProperty]
    split
    · simp [ToJsArray_fst]
    · simp

theorem ToJsFields_getElem? (host : Host) (pool : DescriptorPool) (fs : List FieldDescriptor)
    (cells : List (List FieldValue)) (i : Nat) :
    (ToJsFields host pool fs cells).1[i]? =
      (fs[i]?).map (fun f => fieldProperty host pool f (cells.getD i [])) := by
  induction fs generalizing cells i with
  | nil => simp [ToJsFields]
  | cons f fs ih =>
    cases cells with
    | nil =>
      rw [ToJsFields.eq_def]
      simp only [List.getElem?_map, List.getD_nil, fieldProperty]
    | cons cell cells =>
      rw [ToJsFields_cons_cons]
      cases i with
      | zero => simp
      | succ i => simp [ih]

theorem ToJsFields_getD (host : Host) (pool : DescriptorPool) (fs : List FieldDescriptor)
    (cells : List (List FieldValue)) (i : Nat) (f : FieldDescriptor) (hf : fs[i]? = some f) :
    (ToJsFields host pool fs cells).1.getD i .undefined =
      fieldProperty host pool f (cells.getD i []) := by
  rw [List.getD_eq_getElem?_getD, ToJsFields_getElem?, hf]
  rfl

theorem fieldProperty_IsUndefined (host : Host) (pool : DescriptorPool) (f : FieldDescriptor)
    (cell : List FieldValue) :
    (fieldProperty host pool f cell).IsUndefined = cell.isEmpty := by
  cases cell with
  | nil => rfl
  | cons x xs =>
    simp only [fieldProperty, List.isEmpty_cons]
    split
    · rfl
    · exact ToJsValue_not_undefined host pool f x

theorem JsValue.setProp_of_not_mem (name : String) (x : JsValue)
    (props : List (String × JsValue)) (h : name ∉ props.map Prod.fst) :
    JsValue.setProp name x props = props ++ [(name, x)] := by
  induction props with
  | nil => rfl
  | cons p ps ih =>
    obtain ⟨k, v⟩ := p
    simp only [List.map_cons, List.mem_cons, not_or] at h
    have hk : ¬ k = name := fun hk => h.1 hk.symm
    simp only [JsValue.setProp, hk, if_false, List.cons_append, ih h.2]

theorem JsValue.lookup_of_not_mem (name : String) (props : List (String × JsValue))
    (h : name ∉ props.map Prod.fst) : JsValue.lookup name props = .undefined := by
  induction props with
  | nil => rfl
  | cons p ps ih =>
    obtain ⟨k, v⟩ := p
    simp only [List.map_cons, List.mem_cons, not_or] at h
    have hk : ¬ k = name := fun hk => h.1 hk.symm
    simp only [JsValue.lookup, hk, if_false, ih h.2]

theorem JsValue.eq_undefined_of_IsUndefined (x : JsValue) (h : x.IsUndefined = true) :
    x = .undefined := by
  cases x <;> simp_all [JsValue.IsUndefined]

theorem presentProps_keys_subset (fs : List FieldDescriptor) (arr : List JsValue) (k : String)
    (h : k ∈ (presentProps fs arr).map Prod.fst) :
    k ∈ fs.map FieldDescriptor.camelcase_name := by
  induction fs generalizing arr with
  | nil => simp [presentProps] at h
  | cons f fs ih =>
    simp only [presentProps, List.map_append, List.mem_append] at h
    rcases h with h | h
    · split at h
      · simp at h
      · simp only [List.map_cons, List.map_nil, List.mem_singleton] at h
        simp [h]
    · exact List.mem_cons_of_mem _ (ih _ h)

theorem presentProps_keys_sublist (fs : List FieldDescriptor) (arr : List JsValue) :
    ((presentProps fs arr).map Prod.fst).Sublist (fs.map FieldDescriptor.camelcase_name) := by
  induction fs generalizing arr with
  | nil => simp [presentProps]
  | cons f fs ih =>
    simp only [presentProps, List.map_append, List.map_cons]
    split
    · simpa using (ih arr.tail).cons f.camelcase_name
    · simpa using (ih arr.tail).cons₂ f.camelcase_name

theorem fromArray_eq (fs : List FieldDescriptor) (arr : List JsValue)
    (acc : List (String × JsValue))
    (hnames : (fs.map FieldDescriptor.camelcase_name).Nodup)
    (hacc : ∀ f ∈ fs, f.camelcase_name ∉ acc.map Prod.fst) :
    fromArray fs arr acc = acc ++ presentProps fs arr := by
  induction fs generalizing arr acc with
  | nil => simp [fromArray, presentProps]
  | cons f fs ih =>
    rw [List.map_cons, List.nodup_cons] at hnames
    simp only [fromArray, presentProps]
    split
    · rw [ih _ _ hnames.2 (fun g hg => hacc g (List.mem_cons_of_mem _ hg))]
      simp
    · rw [JsValue.setProp_of_not_mem _ _ _ (hacc f (List.mem_cons_self _ _)),
        ih _ _ hnames.2]
      · simp
      · intro g hg
        simp only [List.map_append, List.map_cons, List.map_nil, List.mem_append,
          List.mem_singleton, not_or]
        refine ⟨hacc g (List.mem_cons_of_mem _ hg), ?_⟩
        intro hgf
        exact hnames.1 (hgf ▸ List.mem_map_of_mem _ hg)

theorem List.getD_tail_undefined (arr : List JsValue) (i : Nat) :
    arr.tail.getD i .undefined = arr.getD (i + 1) .undefined := by
  cases arr <;> simp

theorem presentProps_mem_iff (fs : List FieldDescriptor) (arr : List JsValue) (i : Nat)
    (f : FieldDescriptor) (hnames : (fs.map FieldDescriptor.camelcase_name).Nodup)
    (hf : fs[i]? = some f) :
    f.camelcase_name ∈ (presentProps fs arr).map Prod.fst ↔
      (arr.getD i .undefined).IsUndefined = false := by
  induction fs generalizing arr i with
  | nil => simp at hf
  | cons g fs ih =>
    rw [List.map_cons, List.nodup_cons] at hnames
    have hhead : arr.headD .undefined = arr.getD 0 .undefined := by cases arr <;> rfl
    cases i with
    | zero =>
      simp only [List.getElem?_cons_zero, Option.some.injEq] at hf
      subst hf
      simp only [presentProps, List.map_append, List.mem_append, hhead]
      cases hx : (arr.getD 0 .undefined).IsUndefined with
      | true =>
        simp only [if_true, List.map_nil, List.not_mem_nil, false_or, Bool.true_eq_false,
          iff_false]
        exact fun h => hnames.1 (presentProps_keys_subset _ _ _ h)
      | false => simp
    | succ i =>
      simp only [List.getElem?_cons_succ] at hf
      have hmem : f ∈ fs := List.getElem?_mem hf
      have hne : g.camelcase_name ≠ f.camelcase_name :=
        fun h => hnames.1 (h ▸ List.mem_map_of_mem _ hmem)
      simp only [presentProps, List.map_append, List.mem_append]
      rw [← List.getD_tail_undefined, ← ih arr.tail i hnames.2 hf]
      constructor
      · rintro (h | h)
        · split at h
          · simp at h
          · simp only [List.map_cons, List.map_nil, List.mem_singleton] at h
            exact absurd h.symm hne
        · exact h
      · exact fun h => Or.inr h

theorem lookup_presentProps (fs : List FieldDescriptor) (arr : List JsValue) (i : Nat)
    (f : FieldDescriptor) (hnames : (fs.map FieldDescriptor.camelcase_name).Nodup)
    (hf : fs[i]? = some f) :
    JsValue.lookup f.camelcase_name (presentProps fs arr) = arr.getD i .undefined := by
  induction fs generalizing arr i with
  | nil => simp at hf
  | cons g fs ih =>
    rw [List.map_cons, List.nodup_cons] at hnames
    have hhead : arr.headD .undefined = arr.getD 0 .undefined := by cases arr <;> rfl
    cases i with
    | zero =>
      simp only [List.getElem?_cons_zero, Option.some.injEq] at hf
      subst hf
      simp only [presentProps, hhead]
      cases hx : (arr.getD 0 .undefined).IsUndefined with
      | true =>
        simp only [if_true, List.nil_append]
        rw [JsValue.lookup_of_not_mem _ _
          (fun h => hnames.1 (presentProps_keys_subset _ _ _ h)),
          JsValue.eq_undefined_of_IsUndefined _ hx]
      | false => simp [JsValue.lookup]
    | succ i =>
      simp only [List.getElem?_cons_succ] at hf
      have hmem : f ∈ fs := List.getElem?_mem hf
      have hne : ¬ g.camelcase_name = f.camelcase_name :=
        fun h => hnames.1 (h ▸ List.mem_map_of_mem _ hmem)
      rw [← List.getD_tail_undefined, ← ih arr.tail i hnames.2 hf]
      simp only [presentProps]
      split
      · simp
      · simp [JsValue.lookup, hne]

theorem NewObject_eq (d : Descriptor) (arr : List JsValue)
    (hnames : (d.fields.map FieldDescriptor.camelcase_name).Nodup) :
    NewObject d arr = .object (presentProps d.fields arr) := by
  unfold NewObject
  rw [fromArray_eq _ _ _ hnames (by simp)]
  simp

/-- C9, amended (decode presence and order).  Let no two fields of the
descriptor share a camel-case name, and let `record` be the conversion `ToJs`
of a message.  Then (1) `record` has the key of field `i` exactly when the field
is repeated with at least one element or singular and set; (2) the value of a
repeated field with elements is the array of the conversions of its elements,
in order; (3) the value of a singular field that is set is the conversion of
its value; and (4) the keys of `record` are in declared field order. -/
theorem decode_presence_and_order (host : Host) (pool : DescriptorPool) (d : Descriptor)
    (m : Message) (hnames : (d.fields.map FieldDescriptor.camelcase_name).Nodup) :
    (∀ (i : Nat) (f : FieldDescriptor), d.fields[i]? = some f →
      (f.camelcase_name ∈ (ToJs host pool d m).value.keys ↔
        (f.is_repeated = true ∧ 0 < m.FieldSize i) ∨
        (f.is_repeated = false ∧ m.HasField i = true))) ∧
    (∀ (i : Nat) (f : FieldDescriptor), d.fields[i]? = some f → f.is_repeated = true →
      0 < m.FieldSize i →
      (ToJs host pool d m).value.Get f.camelcase_name =
        .array ((m.cell i).map (fun v => (ToJsValue host pool f v).value))) ∧
    (∀ (i : Nat) (f : FieldDescriptor) (x : FieldValue) (xs : List FieldValue),
      d.fields[i]? = some f → f.is_repeated = false → m.cell i = x :: xs →
      (ToJs host pool d m).value.Get f.camelcase_name = (ToJsValue host pool f x).value) ∧
    ((ToJs host pool d m).value.keys).Sublist
      (d.fields.map FieldDescriptor.camelcase_name) := by
  have hrec : (ToJs host pool d m).value =
      .object (presentProps d.fields (ToJsFields host pool d.fields m.cells).1) := by
    rw [ToJs_value, NewObject_eq _ _ hnames]
  have hget : ∀ (i : Nat) (f : FieldDescriptor), d.fields[i]? = some f →
      (ToJs host pool d m).value.Get f.camelcase_name =
        fieldProperty host pool f (m.cell i) := by
    intro i f hf
    rw [hrec]
    simp only [JsValue.Get]
    rw [lookup_presentProps _ _ i f hnames hf, ToJsFields_getD _ _ _ _ _ _ hf]
    rfl
  refine ⟨?_, ?_, ?_, ?_⟩
  · intro i f hf
    rw [hrec]
    simp only [JsValue.keys]
    rw [presentProps_mem_iff _ _ i f hnames hf, ToJsFields_getD _ _ _ _ _ _ hf,
      fieldProperty_IsUndefined]
    simp only [Message.FieldSize, Message.HasField, Message.cell]
    cases m.cells.getD i [] <;> cases f.is_repeated <;> simp
  · intro i f hf hrep hsize
    rw [hget i f hf]
    simp only [Message.FieldSize] at hsize
    cases hc : m.cell i with
    | nil => rw [hc] at hsize; simp at hsize
    | cons x xs => simp [fieldProperty, hrep]
  · intro i f x xs hf hrep hc
    rw [hget i f hf, hc]
    simp [fieldProperty, hrep]
  · rw [hrec]
    exact presentProps_keys_sublist _ _

/-- Witness of C9: `Point { x, y }` and a message with only `x` set. -/
theorem decode_presence_and_order_witness :
    ("x" ∈ (ToJs exampleHost examplePool Point (.mk [[.Int32 3], []])).value.keys ↔
        (false = true ∧ 0 < (Message.mk [[.Int32 3], []]).FieldSize 0) ∨
        (false = false ∧ (Message.mk [[.Int32 3], []]).HasField 0 = true)) ∧
    (ToJs exampleHost examplePool Point (.mk [[.Int32 3], []])).value =
      .object [("x", .number 3)] :=
  ⟨(decode_presence_and_order exampleHost examplePool Point (.mk [[.Int32 3], []])
    (by decide)).1 0 ⟨"x", .CPPTYPE_INT32, false, false, 0, ⟨[]⟩⟩ rfl, rfl⟩

/-- Counterexample to C9 as stated: in `Pair { int32 foo_bar = 1; int32 fooBar = 2; }`
both fields have the camel-case name `fooBar`.  For the message with only the
second field set, the first field is singular and not set, and yet the record
`{fooBar: 7}` has its key. -/
theorem shared_host_name_key :
    Pair.fields[0]? = some ⟨"fooBar", .CPPTYPE_INT32, false, false, 0, ⟨[]⟩⟩ ∧
    (Message.mk [[], [.Int32 7]]).HasField 0 = false ∧
    (ToJs exampleHost examplePool Pair (.mk [[], [.Int32 7]])).value =
      .object [("fooBar", .number 7)] ∧
    "fooBar" ∈ (ToJs exampleHost examplePool Pair (.mk [[], [.Int32 7]])).value.keys := by
  refine ⟨rfl, rfl, rfl, ?_⟩
  have h : (ToJs exampleHost examplePool Pair (.mk [[], [.Int32 7]])).value.keys = ["fooBar"] :=
    rfl
  rw [h]
  exact List.mem_singleton.mpr rfl

/-! ## The cells a conversion touches -/

theorem List.set_append_cons {α : Type} (pre post : List α) (c c' : α) :
    (pre ++ c :: post).set pre.length c' = pre ++ c' :: post := by
  induction pre with
  | nil => rfl
  | cons a pre ih => simp [ih]

theorem List.getD_append_cons {α : Type} (pre post : List α) (c dflt : α) :
    (pre ++ c :: post).getD pre.length dflt = c := by
  induction pre with
  | nil => rfl
  | cons a pre ih => simpa using ih

theorem Message.cell_of_cells (m : Message) (pre post : List (List FieldValue))
    (c : List FieldValue) (h : m.cells = pre ++ c :: post) : m.cell pre.length = c := by
  rw [Message.cell, h, List.getD_append_cons]

theorem Message.cell_of_cells' (m : Message) (pre post : List (List FieldValue))
    (c : List FieldValue) (i : Nat) (h : m.cells = pre ++ c :: post) (hi : pre.length = i) :
    m.cell i = c := by
  rw [← hi]; exact Message.cell_of_cells m pre post c h

theorem Message.Set_cells (m : Message) (pre post : List (List FieldValue))
    (c : List FieldValue) (v : FieldValue) (h : m.cells = pre ++ c :: post) :
    (m.Set pre.length v).cells = pre ++ [v] :: post := by
  rw [Message.Set, Message.cells, h, List.set_append_cons]

theorem Message.Add_cells (m : Message) (pre post : List (List FieldValue))
    (c : List FieldValue) (v : FieldValue) (h : m.cells = pre ++ c :: post) :
    (m.Add pre.length v).cells = pre ++ (c ++ [v]) :: post := by
  rw [Message.Add, Message.cells, Message.cell_of_cells m pre post c h, h,
    List.set_append_cons]

theorem ToProtoValue_message_eq (host : Host) (pool : DescriptorPool) (m : Message) (i : Nat)
    (f : FieldDescriptor) (value : JsValue) (repeated : Bool) :
    (∃ e, (ToProtoValue host pool m i f value repeated).error = some e ∧
      (ToProtoValue host pool m i f value repeated).message = m) ∨
    ∃ w, (ToProtoValue host pool m i f value repeated).error = none ∧
      (ToProtoValue host pool m i f value repeated).message = SET m i repeated w := by
  rw [ToProtoValue_eq]
  cases f.cpp_type <;> dsimp only
  case CPPTYPE_MESSAGE =>
    split
    · exact Or.inr ⟨_, rfl, rfl⟩
    · exact Or.inl ⟨_, rfl, rfl⟩
  case CPPTYPE_ENUM =>
    split
    · exact Or.inl ⟨_, rfl, rfl⟩
    · exact Or.inr ⟨_, rfl, rfl⟩
  all_goals exact Or.inr ⟨_, rfl, rfl⟩

/-- A conversion into field `i` changes no other cell. -/
theorem ToProtoValue_frame (host : Host) (pool : DescriptorPool) (m : Message)
    (f : FieldDescriptor) (value : JsValue) (repeated : Bool)
    (pre post : List (List FieldValue)) (c : List FieldValue)
    (h : m.cells = pre ++ c :: post) :
    ∃ c', (ToProtoValue host pool m pre.length f value repeated).message.cells
      = pre ++ c' :: post := by
  rcases ToProtoValue_message_eq host pool m pre.length f value repeated with
    ⟨_, _, h1⟩ | ⟨w, _, h1⟩
  · exact ⟨c, by rw [h1, h]⟩
  · rw [h1]
    cases repeated with
    | true => exact ⟨_, Message.Add_cells m pre post c w h⟩
    | false => exact ⟨_, Message.Set_cells m pre post c w h⟩

theorem ToProtoArray_frame (host : Host) (pool : DescriptorPool) (f : FieldDescriptor)
    (elems : List JsValue) (pre post : List (List FieldValue)) (m : Message)
    (c : List FieldValue) (h : m.cells = pre ++ c :: post) :
    ∃ c', (ToProtoArray host pool m pre.length f elems).message.cells = pre ++ c' :: post := by
  induction elems generalizing m c with
  | nil => exact ⟨c, by rw [ToProtoArray_nil]; exact h⟩
  | cons x xs ih =>
    rw [ToProtoArray_cons]
    obtain ⟨c1, h1⟩ := ToProtoValue_frame host pool m f x true pre post c h
    cases he : (ToProtoValue host pool m pre.length f x true).error with
    | some e => rw [Populated.andThen_error _ he]; exact ⟨c1, h1⟩
    | none =>
      rw [Populated.andThen_ok _ he]
      exact ih _ c1 h1

theorem ToProtoField_frame (host : Host) (pool : DescriptorPool) (m : Message)
    (f : FieldDescriptor) (value : JsValue) (pre post : List (List FieldValue))
    (c : List FieldValue) (h : m.cells = pre ++ c :: post) :
    ∃ c', (ToProtoField host pool m pre.length f value).message.cells = pre ++ c' :: post := by
  simp only [ToProtoField]
  split
  · split
    · exact ToProtoArray_frame host pool f _ pre post m c h
    · exact ⟨c, h⟩
  · exact ToProtoValue_frame host pool m f value false pre post c h

/-- The loop over the fields from index `pre.length` on changes only their
cells. -/
theorem ToProtoFields_frame (host : Host) (pool : DescriptorPool) (src : JsValue)
    (fs : List FieldDescriptor) (m : Message) (pre mid post : List (List FieldValue))
    (h : m.cells = pre ++ mid ++ post) (hmid : mid.length = fs.length) :
    ∃ mid', mid'.length = fs.length ∧
      (ToProtoFields host pool m pre.length fs src).message.cells = pre ++ mid' ++ post := by
  induction fs generalizing m pre mid with
  | nil =>
    rw [ToProtoFields_nil]
    exact ⟨mid, hmid, h⟩
  | cons f fs ih =>
    cases mid with
    | nil => simp at hmid
    | cons c mid =>
      simp only [List.length_cons, Nat.add_right_cancel_iff] at hmid
      have hshift : ∀ (m' : Message) (c' : List FieldValue),
          m'.cells = pre ++ c' :: (mid ++ post) →
          ∃ mid', mid'.length = (f :: fs).length ∧
            (ToProtoFields host pool m' (pre.length + 1) fs src).message.cells
              = pre ++ mid' ++ post := by
        intro m' c' hm'
        have hm'' : m'.cells = (pre ++ [c']) ++ mid ++ post := by simp [hm']
        obtain ⟨mid', hlen, hres⟩ := ih m' (pre ++ [c']) mid hm'' hmid
        refine ⟨c' :: mid', by simp [hlen], ?_⟩
        have hl : (pre ++ [c']).length = pre.length + 1 := by simp
        rw [hl] at hres
        simp [hres]
      have hm : m.cells = pre ++ c :: (mid ++ post) := by simp [h]
      rw [ToProtoFields_cons]
      split
      · exact hshift m c hm
      · obtain ⟨c1, h1⟩ := ToProtoField_frame host pool m f (src.Get f.camelcase_name) pre
          (mid ++ post) c hm
        cases he : (ToProtoField host pool m pre.length f (src.Get f.camelcase_name)).error with
        | some e =>
          rw [Populated.andThen_error _ he]
          exact ⟨c1 :: mid, by simp [hmid], by simp [h1]⟩
        | none =>
          rw [Populated.andThen_ok _ he]
          exact hshift _ c1 h1

/-! ## Presence after encoding -/

theorem NewMessage_cells (d : Descriptor) (pre post : List FieldDescriptor)
    (f : FieldDescriptor) (hfields : d.fields = pre ++ f :: post) :
    (NewMessage d).cells =
      [] ++ List.replicate pre.length [] ++ ([] :: List.replicate post.length []) := by
  simp [NewMessage, Message.cells, Descriptor.field_count, hfields, List.replicate_add,
    List.replicate_succ]

/-- The cell of a field after a conversion without error: empty when the
field was passed over, and otherwise what the conversion of the field left,
made on the message the fields before it left. -/
theorem ToProto_cell_at (host : Host) (pool : DescriptorPool) (d : Descriptor)
    (src : JsValue) (pre post : List FieldDescriptor) (f : FieldDescriptor)
    (hfields : d.fields = pre ++ f :: post)
    (hok : (ToProto host pool d (NewMessage d) src).error = none) :
    ∃ mid rest, mid.length = pre.length ∧
      (ToProtoFields host pool (NewMessage d) 0 pre src).message.cells = mid ++ [] :: rest ∧
      (((src.Get f.camelcase_name).IsUndefined || (src.Get f.camelcase_name).IsNull) = true →
        (ToProto host pool d (NewMessage d) src).message.cell pre.length = []) ∧
      (((src.Get f.camelcase_name).IsUndefined || (src.Get f.camelcase_name).IsNull) = false →
        (ToProtoField host pool (ToProtoFields host pool (NewMessage d) 0 pre src).message
          pre.length f (src.Get f.camelcase_name)).error = none ∧
        (ToProto host pool d (NewMessage d) src).message.cell pre.length =
          (ToProtoField host pool (ToProtoFields host pool (NewMessage d) 0 pre src).message
            pre.length f (src.Get f.camelcase_name)).message.cell pre.length) := by
  obtain ⟨mid, hmid, hcells⟩ := ToProtoFields_frame host pool src pre (NewMessage d) []
    (List.replicate pre.length []) ([] :: List.replicate post.length [])
    (NewMessage_cells d pre post f hfields) (by simp)
  simp only [List.length_nil, List.nil_append] at hcells
  rw [ToProto_eq, hfields, ToProtoFields_append] at hok ⊢
  cases hpre : (ToProtoFields host pool (NewMessage d) 0 pre src).error with
  | some e => rw [Populated.andThen_error _ hpre, hpre] at hok; cases hok
  | none =>
    rw [Populated.andThen_ok _ hpre] at hok ⊢
    simp only [Nat.zero_add] at hok ⊢
    refine ⟨mid, _, hmid, hcells, ?_, ?_⟩
    · intro hskip
      rw [ToProtoFields_cons]
      simp only [hskip, if_true]
      have h1 : (ToProtoFields host pool (NewMessage d) 0 pre src).message.cells =
          (mid ++ [[]]) ++ List.replicate post.length [] ++ [] := by simp [hcells]
      obtain ⟨mid', _, hres⟩ := ToProtoFields_frame host pool src post _ (mid ++ [[]])
        (List.replicate post.length []) [] h1 (by simp)
      have hl : (mid ++ [[]]).length = pre.length + 1 := by simp [hmid]
      rw [hl] at hres
      have hres' : (ToProtoFields host pool
          (ToProtoFields host pool (NewMessage d) 0 pre src).message (pre.length + 1) post
          src).message.cells = mid ++ [] :: (mid' ++ []) := by simp [hres]
      exact Message.cell_of_cells' _ _ _ _ _ hres' hmid
    · intro hskip
      rw [ToProtoFields_cons] at hok ⊢
      simp only [hskip, Bool.false_eq_true, if_false] at hok ⊢
      cases hfe : (ToProtoField host pool (ToProtoFields host pool (NewMessage d) 0 pre src).message
          pre.length f (src.Get f.camelcase_name)).error with
      | some e => rw [Populated.andThen_error _ hfe, hfe] at hok; cases hok
      | none =>
        refine ⟨rfl, ?_⟩
        rw [Populated.andThen_ok _ hfe]
        obtain ⟨c1, h1⟩ := ToProtoField_frame host pool _ f (src.Get f.camelcase_name) mid _ []
          hcells
        rw [hmid] at h1
        have h2 : (ToProtoField host pool (ToProtoFields host pool (NewMessage d) 0 pre src).message
            pre.length f (src.Get f.camelcase_name)).message.cells =
            (mid ++ [c1]) ++ List.replicate post.length [] ++ [] := by simp [h1]
        obtain ⟨mid', _, hres⟩ := ToProtoFields_frame host pool src post _ (mid ++ [c1])
          (List.replicate post.length []) [] h2 (by simp)
        have hl : (mid ++ [c1]).length = pre.length + 1 := by simp [hmid]
        rw [hl] at hres
        have hres' : (ToProtoFields host pool
            (ToProtoField host pool (ToProtoFields host pool (NewMessage d) 0 pre src).message
              pre.length f (src.Get f.camelcase_name)).message (pre.length + 1) post
            src).message.cells = mid ++ c1 :: (mid' ++ []) := by simp [hres]
        rw [Message.cell_of_cells' _ _ _ _ _ hres' hmid, Message.cell_of_cells' _ _ _ _ _ h1 hmid]

theorem JsValue.mem_keys_setProp_self (name : String) (x : JsValue)
    (props : List (String × JsValue)) :
    name ∈ (JsValue.setProp name x props).map Prod.fst := by
  induction props with
  | nil => simp [JsValue.setProp]
  | cons p ps ih =>
    obtain ⟨k, v⟩ := p
    simp only [JsValue.setProp]
    split
    · rename_i hk; simp [hk]
    · simp only [List.map_cons, List.mem_cons]; exact Or.inr ih

theorem JsValue.mem_keys_setProp_of_mem (name k : String) (x : JsValue)
    (props : List (String × JsValue)) (h : k ∈ props.map Prod.fst) :
    k ∈ (JsValue.setProp name x props).map Prod.fst := by
  induction props with
  | nil => simp at h
  | cons p ps ih =>
    obtain ⟨k', v⟩ := p
    simp only [List.map_cons, List.mem_cons] at h
    simp only [JsValue.setProp]
    split
    · simpa using h
    · simp only [List.map_cons, List.mem_cons]
      rcases h with h | h
      · exact Or.inl h
      · exact Or.inr (ih h)

theorem fromArray_keys_mono (fs : List FieldDescriptor) (arr : List JsValue)
    (acc : List (String × JsValue)) (k : String) (h : k ∈ acc.map Prod.fst) :
    k ∈ (fromArray fs arr acc).map Prod.fst := by
  induction fs generalizing arr acc with
  | nil => exact h
  | cons f fs ih =>
    simp only [fromArray]
    split
    · exact ih _ _ h
    · exact ih _ _ (JsValue.mem_keys_setProp_of_mem _ _ _ _ h)

theorem fromArray_key_mem (fs : List FieldDescriptor) (arr : List JsValue)
    (acc : List (String × JsValue)) (i : Nat) (f : FieldDescriptor) (hf : fs[i]? = some f)
    (hx : (arr.getD i .undefined).IsUndefined = false) :
    f.camelcase_name ∈ (fromArray fs arr acc).map Prod.fst := by
  induction fs generalizing arr acc i with
  | nil => simp at hf
  | cons g fs ih =>
    cases i with
    | zero =>
      simp only [List.getElem?_cons_zero, Option.some.injEq] at hf
      subst hf
      have hhead : arr.headD .undefined = arr.getD 0 .undefined := by cases arr <;> rfl
      simp only [fromArray, hhead, hx, Bool.false_eq_true, if_false]
      exact fromArray_keys_mono _ _ _ _ (JsValue.mem_keys_setProp_self _ _ _)
    | succ i =>
      simp only [List.getElem?_cons_succ] at hf
      simp only [fromArray]
      exact ih _ _ i hf (by rw [List.getD_tail_undefined]; exact hx)

theorem getElem?_append_cons_length {α : Type} (pre post : List α) (a : α) :
    (pre ++ a :: post)[pre.length]? = some a := by
  induction pre with
  | nil => simp
  | cons b pre ih => simpa using ih

/-- C4, amended (falsy but present).  Let `field` be a singular field of the
descriptor and let the conversion of `src` return no error.  Then (1) the field
is set in the populated message exactly when the value `src` gives when it is
read at the name of the field is neither `undefined` nor `null`; (2) zero, the
empty string and `false` are neither; (3) when the field is not message-kind or
enum-kind and its value is present, its cell holds the converted value;
(4) when its value is present, the record `ToJs` makes of the populated
message has its key; and (5) the populated message then differs from that of
any record in which the value is `undefined` or `null`, and so do the bytes of
the two messages under a wire codec that parses what it serialises for them.
(6) For every field, singular or repeated, and every message: the loop passes
over the field, leaving the message as it is, when its value is `undefined` or
`null`, and runs its conversion otherwise.  (7) An object gives the value of
its own key; for a key it does not have it gives `undefined` when it has no
prototype, and what its prototype gives otherwise. -/
theorem falsy_but_present (host : Host) (pool : DescriptorPool) (d : Descriptor)
    (src : JsValue) (pre post : List FieldDescriptor) (field : FieldDescriptor)
    (hfields : d.fields = pre ++ field :: post) (hsingular : field.is_repeated = false)
    (hok : (ToProto host pool d (NewMessage d) src).error = none) :
    ((ToProto host pool d (NewMessage d) src).message.HasField pre.length = true ↔
      ((src.Get field.camelcase_name).IsUndefined ||
        (src.Get field.camelcase_name).IsNull) = false) ∧
    (∀ v : JsValue, v = .number 0 ∨ v = .string "" ∨ v = .boolean false →
      (v.IsUndefined || v.IsNull) = false) ∧
    (field.cpp_type ≠ .CPPTYPE_MESSAGE → field.cpp_type ≠ .CPPTYPE_ENUM →
      ((src.Get field.camelcase_name).IsUndefined ||
        (src.Get field.camelcase_name).IsNull) = false →
      (ToProto host pool d (NewMessage d) src).message.cell pre.length =
        [scalarValue host field (src.Get field.camelcase_name)]) ∧
    (((src.Get field.camelcase_name).IsUndefined ||
        (src.Get field.camelcase_name).IsNull) = false →
      field.camelcase_name ∈
        (ToJs host pool d (ToProto host pool d (NewMessage d) src).message).value.keys) ∧
    (((src.Get field.camelcase_name).IsUndefined ||
        (src.Get field.camelcase_name).IsNull) = false →
      ∀ src' : JsValue,
        ((src'.Get field.camelcase_name).IsUndefined ||
          (src'.Get field.camelcase_name).IsNull) = true →
        (ToProto host pool d (NewMessage d) src').error = none →
        (ToProto host pool d (NewMessage d) src).message ≠
          (ToProto host pool d (NewMessage d) src').message ∧
        ∀ (codec : WireCodec) (p : Nat),
          codec.ParseFromArray p (codec.SerializeToArray p
              (ToProto host pool d (NewMessage d) src).message) =
            some (ToProto host pool d (NewMessage d) src).message →
          codec.ParseFromArray p (codec.SerializeToArray p
              (ToProto host pool d (NewMessage d) src').message) =
            some (ToProto host pool d (NewMessage d) src').message →
          codec.SerializeToArray p (ToProto host pool d (NewMessage d) src).message ≠
            codec.SerializeToArray p (ToProto host pool d (NewMessage d) src').message) ∧
    (∀ (m : Message) (i : Nat) (g : FieldDescriptor) (rest : List FieldDescriptor),
      (((src.Get g.camelcase_name).IsUndefined || (src.Get g.camelcase_name).IsNull) = true →
        ToProtoFields host pool m i (g :: rest) src =
          ToProtoFields host pool m (i + 1) rest src) ∧
      (((src.Get g.camelcase_name).IsUndefined || (src.Get g.camelcase_name).IsNull) = false →
        ToProtoFields host pool m i (g :: rest) src =
          (ToProtoField host pool m i g (src.Get g.camelcase_name)).andThen
            (fun m' => ToProtoFields host pool m' (i + 1) rest src))) ∧
    (∀ (props : List (String × JsValue)) (proto : JsValue) (name : String),
      (name ∈ props.map Prod.fst →
        (JsValue.object props).Get name = JsValue.lookup name props ∧
        (JsValue.withPrototype (.object props) proto).Get name = JsValue.lookup name props) ∧
      (name ∉ props.map Prod.fst →
        (JsValue.object props).Get name = .undefined ∧
        (JsValue.withPrototype (.object props) proto).Get name = proto.Get name)) := by
  obtain ⟨mid, rest, hmid, hcells, hskip, hconv⟩ :=
    ToProto_cell_at host pool d src pre post field hfields hok
  have hset : ((src.Get field.camelcase_name).IsUndefined ||
      (src.Get field.camelcase_name).IsNull) = false →
      ∃ w, (ToProtoValue host pool (ToProtoFields host pool (NewMessage d) 0 pre src).message
          pre.length field (src.Get field.camelcase_name) false).message =
          (ToProtoFields host pool (NewMessage d) 0 pre src).message.Set pre.length w ∧
        (ToProto host pool d (NewMessage d) src).message.cell pre.length = [w] := by
    intro hpresent
    obtain ⟨herr, hcell⟩ := hconv hpresent
    simp only [ToProtoField, hsingular, Bool.false_eq_true, if_false] at herr hcell
    rcases ToProtoValue_message_eq host pool
      (ToProtoFields host pool (NewMessage d) 0 pre src).message pre.length field
      (src.Get field.camelcase_name) false with ⟨e, he, _⟩ | ⟨w, _, hw⟩
    · rw [he] at herr; cases herr
    · refine ⟨w, by rw [hw]; rfl, ?_⟩
      rw [hcell, hw]
      simp only [SET, Bool.false_eq_true, if_false]
      rw [← hmid]
      exact Message.cell_of_cells _ _ _ _ (Message.Set_cells _ mid rest [] w hcells)
  have hhas : (ToProto host pool d (NewMessage d) src).message.HasField pre.length = true ↔
      ((src.Get field.camelcase_name).IsUndefined ||
        (src.Get field.camelcase_name).IsNull) = false := by
    cases hp : ((src.Get field.camelcase_name).IsUndefined ||
        (src.Get field.camelcase_name).IsNull) with
    | true => simp [Message.HasField, hskip hp]
    | false =>
      obtain ⟨w, _, hw⟩ := hset hp
      simp [Message.HasField, hw]
  refine ⟨hhas, ?_, ?_, ?_, ?_, ?_, ?_⟩
  · rintro v (h | h | h) <;> subst h <;> rfl
  · intro hm he hpresent
    obtain ⟨w, hw1, hw2⟩ := hset hpresent
    rw [ToProtoValue_scalar host pool _ _ field _ false hm he] at hw1
    simp only [SET, Bool.false_eq_true, if_false] at hw1
    have h1 := Message.Set_cells _ mid rest [] (scalarValue host field
      (src.Get field.camelcase_name)) hcells
    have h2 := Message.Set_cells _ mid rest [] w hcells
    rw [hmid] at h1 h2
    rw [hw1, h2] at h1
    have h3 := List.append_cancel_left h1
    simp only [List.cons.injEq, and_true] at h3
    rw [hw2, h3]
  · intro hpresent
    obtain ⟨w, _, hw⟩ := hset hpresent
    rw [ToJs_value]
    simp only [NewObject, JsValue.keys]
    have hf : d.fields[pre.length]? = some field := by
      rw [hfields]; exact getElem?_append_cons_length pre post field
    refine fromArray_key_mem _ _ _ pre.length field hf ?_
    rw [ToJsFields_getD _ _ _ _ _ _ hf, fieldProperty_IsUndefined]
    have : (ToProto host pool d (NewMessage d) src).message.cells.getD pre.length [] = [w] := hw
    rw [this]
    rfl
  · intro hpresent src' habsent hok'
    have hne : (ToProto host pool d (NewMessage d) src).message ≠
        (ToProto host pool d (NewMessage d) src').message := by
      intro heq
      obtain ⟨_, _, _, _, hskip', _⟩ :=
        ToProto_cell_at host pool d src' pre post field hfields hok'
      have h1 := hhas.mpr hpresent
      rw [heq] at h1
      simp [Message.HasField, hskip' habsent] at h1
    refine ⟨hne, ?_⟩
    intro codec p h1 h2 hbytes
    rw [hbytes, h2] at h1
    exact hne (Option.some.inj h1).symm
  · intro m i g rest'
    constructor
    · intro h
      rw [ToProtoFields_cons]
      simp only [h, if_true]
    · intro h
      rw [ToProtoFields_cons]
      simp only [h, Bool.false_eq_true, if_false]
  · intro props proto name
    constructor
    · intro hmem
      simp [JsValue.Get, JsValue.Has, hmem]
    · intro hmem
      simp [JsValue.Get, JsValue.Has, hmem, JsValue.lookup_of_not_mem name props hmem]

theorem ToProto_Counter_zero :
    ToProto exampleHost examplePool Counter (NewMessage Counter)
      (.object [("count", .number 0)]) = ⟨none, .mk [[.Int32 0]], []⟩ := by
  simp [ToProto_eq, ToProtoFields_cons, ToProtoFields_nil, ToProtoField, ToProtoValue_eq,
    scalarValue, Populated.andThen, JsValue.Get, JsValue.lookup, JsValue.IsUndefined,
    JsValue.IsNull, NewMessage, Descriptor.field_count, Counter, SET, Message.Set,
    Message.cells, Int32Value, ToInt32]

theorem ToProto_Counter_empty :
    ToProto exampleHost examplePool Counter (NewMessage Counter) (.object []) =
      ⟨none, .mk [[]], []⟩ := by
  simp [ToProto_eq, ToProtoFields_cons, ToProtoFields_nil, JsValue.Get, JsValue.lookup,
    JsValue.IsUndefined, NewMessage, Descriptor.field_count, Counter]

/-- Witness of C4: `Counter { int32 count }`.  The record `{count: 0}` sets the
field, and is encoded as the two bytes of the field, which decode to
`{count: 0}`; the record `{}` leaves it unset and is encoded as no bytes. -/
theorem falsy_but_present_witness :
    (ToProto exampleHost examplePool Counter (NewMessage Counter)
      (.object [("count", .number 0)])).message.HasField 0 = true ∧
    (ToProto exampleHost examplePool Counter (NewMessage Counter)
      (.object [("count", .number 0)])).message = .mk [[.Int32 0]] ∧
    (ToProto exampleHost examplePool Counter (NewMessage Counter) (.object [])).message =
      .mk [[]] ∧
    encode exampleHost exampleCodec examplePool 1 (.object [("count", .number 0)]) =
      .ok [8, 0] ∧
    encode exampleHost exampleCodec examplePool 1 (.object []) = .ok [] ∧
    decode exampleHost exampleCodec examplePool 1 [8, 0] =
      .ok (.object [("count", .number 0)]) := by
  have hpool : examplePool.descriptor 1 = Counter := rfl
  refine ⟨?_, by rw [ToProto_Counter_zero], by rw [ToProto_Counter_empty], ?_, ?_, rfl⟩
  · exact (falsy_but_present exampleHost examplePool Counter (.object [("count", .number 0)])
      [] [] ⟨"count", .CPPTYPE_INT32, false, false, 0, ⟨[]⟩⟩ rfl rfl
      (by rw [ToProto_Counter_zero])).1.mpr rfl
  · rw [encode_eq _ _ _ _ _ (by rfl), hpool, ToProto_Counter_zero]
    rfl
  · rw [encode_eq _ _ _ _ _ (by rfl), hpool, ToProto_Counter_empty]
    rfl

theorem ToProto_Ctor_literal :
    ToProto exampleHost edgePool Ctor (NewMessage Ctor) (objectLiteral []) =
      ⟨none, .mk [[.Int32 0]], []⟩ := by
  simp [ToProto_eq, ToProtoFields_cons, ToProtoFields_nil, ToProtoField, ToProtoValue_eq,
    scalarValue, Populated.andThen, JsValue.Get, JsValue.Has, JsValue.lookup,
    JsValue.IsUndefined, JsValue.IsNull, NewMessage, Descriptor.field_count, Ctor, SET,
    Message.Set, Message.cells, Int32Value, exampleHost, objectLiteral, ObjectPrototype,
    hostFunction]

/-- Counterexample to C4 as stated: `Ctor { int32 constructor }` and the object
literal `{}`.  The key `constructor` is missing from the record, and yet the
field is not skipped: the generated accessor reads `this['constructor']`,
which the prototype of the literal answers with the function `Object`, neither
`undefined` nor `null`; its 32-bit integer conversion, 0, is stored and
`encode` returns the two bytes of the field.  The object with no key and no
prototype is encoded as no bytes. -/
theorem missing_key_is_not_skipped :
    "constructor" ∉ (objectLiteral []).keys ∧
    (objectLiteral []).Get "constructor" = hostFunction "Object" 1 ∧
    (ToProto exampleHost edgePool Ctor (NewMessage Ctor)
      (objectLiteral [])).message.HasField 0 = true ∧
    encode exampleHost exampleCodec edgePool 0 (objectLiteral []) = .ok [8, 0] ∧
    encode exampleHost exampleCodec edgePool 0 (.object []) = .ok [] := by
  have hpool : edgePool.descriptor 0 = Ctor := rfl
  refine ⟨by simp [objectLiteral, JsValue.keys], ?_, ?_, ?_, ?_⟩
  · simp [objectLiteral, ObjectPrototype, JsValue.Get, JsValue.Has, JsValue.lookup]
  · rw [ToProto_Ctor_literal]
    rfl
  · rw [encode_eq _ _ _ _ _ (by rfl), hpool, ToProto_Ctor_literal]
    rfl
  · have h : ToProto exampleHost edgePool Ctor (NewMessage Ctor) (.object []) =
        ⟨none, .mk [[]], []⟩ := by
      simp [ToProto_eq, ToProtoFields_cons, ToProtoFields_nil, JsValue.Get, JsValue.lookup,
        JsValue.IsUndefined, NewMessage, Descriptor.field_count, Ctor]
    rw [encode_eq _ _ _ _ _ (by rfl), hpool, h]
    rfl

/-! ## Round trip -/

theorem NumberValue_ofNumber (host : Host) (x : JsNumber) :
    NumberValue host (JsValue.ofNumber x) = x := by
  cases x <;> rfl

theorem JsValue.ofNumber_present (x : JsNumber) :
    ((JsValue.ofNumber x).IsUndefined || (JsValue.ofNumber x).IsNull) = false := by
  cases x <;> rfl

theorem JsValue.ofNumber_IsBuffer (x : JsNumber) : (JsValue.ofNumber x).IsBuffer = false := by
  cases x <;> rfl

theorem JsValue.present_of_IsObject (v : JsValue) (h : v.IsObject = true) :
    (v.IsUndefined || v.IsNull) = false := by
  cases v <;> simp_all [JsValue.IsObject, JsValue.IsUndefined, JsValue.IsNull]

theorem JsValue.present_of_IsBuffer (v : JsValue) (h : v.IsBuffer = true) :
    (v.IsUndefined || v.IsNull) = false := by
  cases v <;> simp_all [JsValue.IsBuffer, JsValue.IsUndefined, JsValue.IsNull]

theorem CanonicalValue.IsObject_of_message {host : Host} {pool : DescriptorPool}
    {d : Descriptor} {r : JsValue} (h : CanonicalRecord host pool d r) : r.IsObject = true := by
  cases h; assumption

theorem CanonicalValue.present {host : Host} {pool : DescriptorPool} {f : FieldDescriptor}
    {v : JsValue} (h : CanonicalValue host pool f v) :
    (v.IsUndefined || v.IsNull) = false := by
  cases h
  case message hrec =>
    exact JsValue.present_of_IsObject _ (CanonicalValue.IsObject_of_message hrec)
  case float => exact JsValue.ofNumber_present _
  case double => exact JsValue.ofNumber_present _
  case bytes hb => exact JsValue.present_of_IsBuffer _ hb
  all_goals rfl

theorem ToUint32_of_range (n : Int) (h1 : 0 ≤ n) (h2 : n < 2 ^ 32) : ToUint32 n = n :=
  Int.emod_eq_of_lt h1 h2

theorem castInt64_of_range (host : Host) (n : Int) (h1 : -2 ^ 63 ≤ n) (h2 : n < 2 ^ 63) :
    castInt64 host (.int n) = n := by
  simp only [castInt64, JsNumber.truncate]
  rw [if_pos ⟨h1, h2⟩]

theorem castUInt64_of_range (host : Host) (n : Int) (h1 : 0 ≤ n) (h2 : n < 2 ^ 64) :
    castUInt64 host (.int n) = n := by
  simp only [castUInt64, JsNumber.truncate]
  rw [if_pos ⟨h1, h2⟩]

theorem JsValue.size_lt_sizeList (y : JsValue) (xs : List JsValue) (h : y ∈ xs) :
    y.size < JsValue.sizeList xs := by
  induction xs with
  | nil => cases h
  | cons x xs ih =>
    simp only [JsValue.sizeList]
    rcases List.mem_cons.mp h with h | h
    · subst h; omega
    · have := ih h; omega

/-! ### The restricted record -/

theorem valueData_eq (pool : DescriptorPool) (f : FieldDescriptor) (v : JsValue) :
    valueData pool f v =
      match f.cpp_type with
      | .CPPTYPE_MESSAGE => recordData pool (pool.descriptor f.message_type) v
      | .CPPTYPE_STRING => if v.IsBuffer then .buffer v.bufferData else v
      | _ => v := by
  rw [valueData]

theorem arrayData_nil (pool : DescriptorPool) (f : FieldDescriptor) :
    arrayData pool f [] = [] := by
  rw [arrayData]

theorem arrayData_cons (pool : DescriptorPool) (f : FieldDescriptor) (x : JsValue)
    (rest : List JsValue) :
    arrayData pool f (x :: rest) = valueData pool f x :: arrayData pool f rest := by
  rw [arrayData]

theorem fieldsData_nil (pool : DescriptorPool) (r : JsValue) : fieldsData pool [] r = [] := by
  rw [fieldsData]

theorem fieldsData_cons (pool : DescriptorPool) (f : FieldDescriptor)
    (rest : List FieldDescriptor) (r : JsValue) :
    fieldsData pool (f :: rest) r =
      if ((r.Get f.camelcase_name).IsUndefined || (r.Get f.camelcase_name).IsNull) = true
      then fieldsData pool rest r
      else (f.camelcase_name, fieldData pool f (r.Get f.camelcase_name)) ::
        fieldsData pool rest r := by
  rw [fieldsData]
  simp only [fieldData]
  split <;> rfl

theorem recordData_eq (pool : DescriptorPool) (d : Descriptor) (r : JsValue) :
    recordData pool d r = .object (fieldsData pool d.fields r) := by
  rw [recordData]

theorem arrayData_eq_map (pool : DescriptorPool) (f : FieldDescriptor) (xs : List JsValue) :
    arrayData pool f xs = xs.map (valueData pool f) := by
  induction xs with
  | nil => rw [arrayData_nil]; rfl
  | cons x xs ih => rw [arrayData_cons, ih]; rfl

theorem valueData_present (pool : DescriptorPool) (f : FieldDescriptor) (v : JsValue)
    (h : (v.IsUndefined || v.IsNull) = false) :
    (valueData pool f v).IsUndefined = false := by
  have hv : v.IsUndefined = false := by
    cases hu : v.IsUndefined
    · rfl
    · rw [hu] at h; simp at h
  rw [valueData_eq]
  cases f.cpp_type <;> dsimp only
  case CPPTYPE_MESSAGE => rw [recordData_eq]; rfl
  case CPPTYPE_STRING =>
    split
    · rfl
    · exact hv
  all_goals exact hv

theorem fieldData_present (pool : DescriptorPool) (f : FieldDescriptor) (v : JsValue)
    (h : (v.IsUndefined || v.IsNull) = false) :
    (fieldData pool f v).IsUndefined = false := by
  simp only [fieldData]
  split
  · rfl
  · exact valueData_present pool f v h

/-- The keys of the restricted record are the names of the present fields, in
declared order. -/
theorem fieldsData_keys (pool : DescriptorPool) (fs : List FieldDescriptor) (r : JsValue) :
    (fieldsData pool fs r).map Prod.fst =
      (fs.filter (fun f => !((r.Get f.camelcase_name).IsUndefined ||
        (r.Get f.camelcase_name).IsNull))).map FieldDescriptor.camelcase_name := by
  induction fs with
  | nil => rw [fieldsData_nil]; rfl
  | cons f fs ih =>
    rw [fieldsData_cons, List.filter_cons]
    cases h : ((r.Get f.camelcase_name).IsUndefined || (r.Get f.camelcase_name).IsNull)
    · simp only [Bool.false_eq_true, if_false, Bool.not_false, if_true, List.map_cons, ih]
    · simp only [if_true, Bool.not_true, Bool.false_eq_true, if_false, ih]

theorem fieldsData_keys_sublist (pool : DescriptorPool) (fs : List FieldDescriptor)
    (r : JsValue) :
    ((fieldsData pool fs r).map Prod.fst).Sublist (fs.map FieldDescriptor.camelcase_name) := by
  rw [fieldsData_keys]
  exact (List.filter_sublist _).map _

/-- A field that is absent from the record has no key in the restricted
record. -/
theorem fieldsData_absent (pool : DescriptorPool) (fs : List FieldDescriptor) (r : JsValue)
    (f : FieldDescriptor)
    (h : ((r.Get f.camelcase_name).IsUndefined || (r.Get f.camelcase_name).IsNull) = true) :
    f.camelcase_name ∉ (fieldsData pool fs r).map Prod.fst := by
  rw [fieldsData_keys]
  intro hmem
  obtain ⟨g, hg, hname⟩ := List.mem_map.mp hmem
  have hp := (List.mem_filter.mp hg).2
  rw [hname, h] at hp
  simp at hp

/-- A field that is present in the record has its data in the restricted
record. -/
theorem fieldsData_lookup (pool : DescriptorPool) (fs : List FieldDescriptor) (r : JsValue)
    (f : FieldDescriptor) (hnames : (fs.map FieldDescriptor.camelcase_name).Nodup)
    (hf : f ∈ fs)
    (h : ((r.Get f.camelcase_name).IsUndefined || (r.Get f.camelcase_name).IsNull) = false) :
    JsValue.lookup f.camelcase_name (fieldsData pool fs r) =
      fieldData pool f (r.Get f.camelcase_name) := by
  induction fs with
  | nil => cases hf
  | cons g fs ih =>
    rw [List.map_cons, List.nodup_cons] at hnames
    rw [fieldsData_cons]
    rcases List.mem_cons.mp hf with hfg | hfg
    · subst hfg
      simp [h, JsValue.lookup]
    · have hne : g.camelcase_name ≠ f.camelcase_name := by
        intro heq
        exact hnames.1 (heq ▸ List.mem_map_of_mem _ hfg)
      split
      · exact ih hnames.2 hfg
      · simp only [JsValue.lookup, hne, if_false]
        exact ih hnames.2 hfg

/-- The properties the generated constructor assigns for the expected entries
are those of the restricted record. -/
theorem presentProps_fieldsData (pool : DescriptorPool) (fs : List FieldDescriptor)
    (r : JsValue) :
    presentProps fs (fs.map (fun f =>
      if ((r.Get f.camelcase_name).IsUndefined || (r.Get f.camelcase_name).IsNull) = true
      then JsValue.undefined else fieldData pool f (r.Get f.camelcase_name))) =
      fieldsData pool fs r := by
  induction fs with
  | nil => rw [fieldsData_nil]; rfl
  | cons f fs ih =>
    rw [fieldsData_cons]
    simp only [List.map_cons, presentProps, List.headD_cons, List.tail_cons]
    rw [ih]
    cases h : ((r.Get f.camelcase_name).IsUndefined || (r.Get f.camelcase_name).IsNull)
    · simp [fieldData_present pool f _ h]
    · simp [JsValue.IsUndefined]

/-! ### The conversions of a canonical record -/

/-- One value: the static `ToProto` stores a value that the static `ToJs`
converts back to the data of the value. -/
theorem roundtrip_value (host : Host) (pool : DescriptorPool) (bound : Nat)
    (IH : ∀ r : JsValue, r.size < bound → ∀ d, CanonicalRecord host pool d r →
      RoundTrips host pool d r)
    (f : FieldDescriptor) (v : JsValue) (hv : v.size < bound)
    (hc : CanonicalValue host pool f v) (m : Message) (i : Nat) (rep : Bool)
    (hsub : SubMessage pool m i f rep = NewMessage (pool.descriptor f.message_type)) :
    ∃ w, (ToProtoValue host pool m i f v rep).error = none ∧
      (ToProtoValue host pool m i f v rep).message = SET m i rep w ∧
      (ToJsValue host pool f w).value = valueData pool f v := by
  cases hc with
  | int32 _ n hf h1 h2 =>
    refine ⟨.Int32 n, ?_, ?_, ?_⟩
    · rw [ToProtoValue_scalar host pool m i f _ rep (by simp [hf]) (by simp [hf])]
    · rw [ToProtoValue_scalar host pool m i f _ rep (by simp [hf]) (by simp [hf])]
      simp [scalarValue, hf, Int32Value, ToInt32_of_range n h1 h2]
    · rw [ToJsValue_eq, valueData_eq]; simp [hf, GetInt32]
  | uint32 _ n hf h1 h2 =>
    refine ⟨.UInt32 n, ?_, ?_, ?_⟩
    · rw [ToProtoValue_scalar host pool m i f _ rep (by simp [hf]) (by simp [hf])]
    · rw [ToProtoValue_scalar host pool m i f _ rep (by simp [hf]) (by simp [hf])]
      simp [scalarValue, hf, Uint32Value, ToUint32_of_range n h1 h2]
    · rw [ToJsValue_eq, valueData_eq]; simp [hf, GetUInt32]
  | int64 _ n hf h1 h2 h3 =>
    refine ⟨.Int64 n, ?_, ?_, ?_⟩
    · rw [ToProtoValue_scalar host pool m i f _ rep (by simp [hf]) (by simp [hf])]
    · rw [ToProtoValue_scalar host pool m i f _ rep (by simp [hf]) (by simp [hf])]
      simp [scalarValue, hf, NumberValue, castInt64_of_range host n h1 h2]
    · rw [ToJsValue_eq, valueData_eq]; simp [hf, GetInt64, h3]
  | uint64 _ n hf h1 h2 h3 =>
    refine ⟨.UInt64 n, ?_, ?_, ?_⟩
    · rw [ToProtoValue_scalar host pool m i f _ rep (by simp [hf]) (by simp [hf])]
    · rw [ToProtoValue_scalar host pool m i f _ rep (by simp [hf]) (by simp [hf])]
      simp [scalarValue, hf, NumberValue, castUInt64_of_range host n h1 h2]
    · rw [ToJsValue_eq, valueData_eq]; simp [hf, GetUInt64, h3]
  | float _ x hf h1 =>
    refine ⟨.Float x, ?_, ?_, ?_⟩
    · rw [ToProtoValue_scalar host pool m i f _ rep (by simp [hf]) (by simp [hf])]
    · rw [ToProtoValue_scalar host pool m i f _ rep (by simp [hf]) (by simp [hf])]
      simp [scalarValue, hf, NumberValue_ofNumber, h1]
    · rw [ToJsValue_eq, valueData_eq]; simp [hf, GetFloat]
  | double _ x hf =>
    refine ⟨.Double x, ?_, ?_, ?_⟩
    · rw [ToProtoValue_scalar host pool m i f _ rep (by simp [hf]) (by simp [hf])]
    · rw [ToProtoValue_scalar host pool m i f _ rep (by simp [hf]) (by simp [hf])]
      simp [scalarValue, hf, NumberValue_ofNumber]
    · rw [ToJsValue_eq, valueData_eq]; simp [hf, GetDouble]
  | bool _ b hf =>
    refine ⟨.Bool b, ?_, ?_, ?_⟩
    · rw [ToProtoValue_scalar host pool m i f _ rep (by simp [hf]) (by simp [hf])]
    · rw [ToProtoValue_scalar host pool m i f _ rep (by simp [hf]) (by simp [hf])]
      simp [scalarValue, hf, JsValue.BooleanValue]
    · rw [ToJsValue_eq, valueData_eq]; simp [hf, GetBool]
  | text _ s hf hb hs =>
    refine ⟨.String (host.Utf8Value (.string s)), ?_, ?_, ?_⟩
    · rw [ToProtoValue_scalar host pool m i f _ rep (by simp [hf]) (by simp [hf])]
    · rw [ToProtoValue_scalar host pool m i f _ rep (by simp [hf]) (by simp [hf])]
      simp [scalarValue, hf, JsValue.IsBuffer]
    · rw [ToJsValue_eq, valueData_eq]; simp [hf, hb, GetString, hs, JsValue.IsBuffer]
  | bytes _ _ hf hb hbuf =>
    refine ⟨.String v.bufferData, ?_, ?_, ?_⟩
    · rw [ToProtoValue_scalar host pool m i f _ rep (by simp [hf]) (by simp [hf])]
    · rw [ToProtoValue_scalar host pool m i f _ rep (by simp [hf]) (by simp [hf])]
      simp [scalarValue, hf, hbuf]
    · rw [ToJsValue_eq, valueData_eq]; simp [hf, hb, GetString, hbuf]
  | enum _ e hf he hnum =>
    refine ⟨.Enum e, ?_, ?_, ?_⟩
    · rw [ToProtoValue_enum host pool m i f _ rep hf]; simp [JsValue.IsNumber, he]
    · rw [ToProtoValue_enum host pool m i f _ rep hf]; simp [JsValue.IsNumber, he]
    · rw [ToJsValue_eq, valueData_eq]; simp [hf, GetEnum, hnum]
  | message _ _ hf hrec =>
    have hobj := CanonicalValue.IsObject_of_message hrec
    obtain ⟨_, hback⟩ := IH v hv _ hrec
    refine ⟨.Message (ToProto host pool (pool.descriptor f.message_type)
      (NewMessage (pool.descriptor f.message_type)) v).message, ?_, ?_, ?_⟩
    · rw [ToProtoValue_message host pool m i f _ rep hf]; simp [hobj]
    · rw [ToProtoValue_message host pool m i f _ rep hf]; simp [hobj, hsub]
    · rw [ToJsValue_eq, valueData_eq]; simp only [hf]; exact hback

/-- The elements of a repeated field: the loop appends to the cell values that
convert back to the data of the elements, in order. -/
theorem roundtrip_array (host : Host) (pool : DescriptorPool) (bound : Nat)
    (IH : ∀ r : JsValue, r.size < bound → ∀ d, CanonicalRecord host pool d r →
      RoundTrips host pool d r)
    (f : FieldDescriptor) (pre post : List (List FieldValue)) (xs : List JsValue)
    (hxs : ∀ y ∈ xs, y.size < bound ∧ CanonicalValue host pool f y) (m : Message)
    (c : List FieldValue) (hcells : m.cells = pre ++ c :: post) :
    ∃ ws, (ToProtoArray host pool m pre.length f xs).error = none ∧
      (ToProtoArray host pool m pre.length f xs).message.cells = pre ++ (c ++ ws) :: post ∧
      ws.length = xs.length ∧
      ws.map (fun w => (ToJsValue host pool f w).value) = arrayData pool f xs := by
  induction xs generalizing m c with
  | nil =>
    exact ⟨[], by rw [ToProtoArray_nil], by rw [ToProtoArray_nil]; simpa using hcells, rfl,
      by rw [arrayData_nil]; rfl⟩
  | cons x xs ih =>
    obtain ⟨hx1, hx2⟩ := hxs x (List.mem_cons_self _ _)
    obtain ⟨w, herr, hmsg, hback⟩ := roundtrip_value host pool bound IH f x hx1 hx2 m
      pre.length true (by simp [SubMessage])
    have hadd : (ToProtoValue host pool m pre.length f x true).message.cells =
        pre ++ (c ++ [w]) :: post := by
      rw [hmsg]
      simp only [SET, if_true]
      exact Message.Add_cells m pre post c w hcells
    obtain ⟨ws, h1, h2, h3, h4⟩ :=
      ih (fun y hy => hxs y (List.mem_cons_of_mem _ hy)) _ _ hadd
    refine ⟨w :: ws, ?_, ?_, by simp [h3], ?_⟩
    · rw [ToProtoArray_cons, Populated.andThen_ok _ herr]; exact h1
    · rw [ToProtoArray_cons, Populated.andThen_ok _ herr]
      simp only [h2, List.append_assoc, List.singleton_append]
    · rw [arrayData_cons]
      simp [hback, h4]

/-- The fields of a record in canonical form: the loop fills the cells of the
fields with values that `ToJs` converts back to the data of the present
fields, and to `undefined` for an absent field. -/
theorem roundtrip_fields (host : Host) (pool : DescriptorPool) (src : JsValue)
    (IH : ∀ r : JsValue, r.size < src.size → ∀ d, CanonicalRecord host pool d r →
      RoundTrips host pool d r)
    (fs : List FieldDescriptor)
    (hfs : ∀ f ∈ fs, CanonicalField host pool f (src.Get f.camelcase_name))
    (m : Message) (pre : List (List FieldValue))
    (hcells : m.cells = pre ++ List.replicate fs.length []) :
    ∃ mid, (ToProtoFields host pool m pre.length fs src).error = none ∧
      (ToProtoFields host pool m pre.length fs src).message.cells = pre ++ mid ∧
      (ToJsFields host pool fs mid).1 = fs.map (fun f =>
        if ((src.Get f.camelcase_name).IsUndefined || (src.Get f.camelcase_name).IsNull) = true
        then JsValue.undefined else fieldData pool f (src.Get f.camelcase_name)) := by
  induction fs generalizing m pre with
  | nil =>
    refine ⟨[], by rw [ToProtoFields_nil], by rw [ToProtoFields_nil]; simpa using hcells, ?_⟩
    simp [ToJsFields]
  | cons f fs ih =>
    have hcells' : m.cells = pre ++ [] :: List.replicate fs.length [] := by
      simpa [List.replicate_succ] using hcells
    have hnext : ∀ (m' : Message) (c : List FieldValue),
        m'.cells = pre ++ c :: List.replicate fs.length [] →
        fieldProperty host pool f c =
          (if ((src.Get f.camelcase_name).IsUndefined ||
            (src.Get f.camelcase_name).IsNull) = true
          then JsValue.undefined else fieldData pool f (src.Get f.camelcase_name)) →
        ∃ mid, (ToProtoFields host pool m' (pre.length + 1) fs src).error = none ∧
          (ToProtoFields host pool m' (pre.length + 1) fs src).message.cells = pre ++ mid ∧
          (ToJsFields host pool (f :: fs) mid).1 = (f :: fs).map (fun f =>
            if ((src.Get f.camelcase_name).IsUndefined ||
              (src.Get f.camelcase_name).IsNull) = true
            then JsValue.undefined else fieldData pool f (src.Get f.camelcase_name)) := by
      intro m' c hm' hprop
      obtain ⟨mid, h1, h2, h3⟩ := ih (fun g hg => hfs g (List.mem_cons_of_mem _ hg)) m'
        (pre ++ [c]) (by simp [hm'])
      have hl : (pre ++ [c]).length = pre.length + 1 := by simp
      rw [hl] at h1 h2
      refine ⟨c :: mid, h1, by simp [h2], ?_⟩
      rw [ToJsFields_cons_cons, h3, hprop]
      rfl
    rw [ToProtoFields_cons]
    have hcf := hfs f (List.mem_cons_self _ _)
    obtain ⟨v, hget⟩ : ∃ v, v = src.Get f.camelcase_name := ⟨_, rfl⟩
    rw [← hget] at hcf
    cases hcf with
    | absent _ _ habsent =>
      have hskip : ((src.Get f.camelcase_name).IsUndefined ||
          (src.Get f.camelcase_name).IsNull) = true := by rw [← hget]; exact habsent
      simp only [hskip, if_true]
      exact hnext m [] hcells' (by simp only [hskip, if_true]; rfl)
    | singular _ _ hrep hval =>
      subst hget
      have hpresent := CanonicalValue.present hval
      simp only [hpresent, Bool.false_eq_true, if_false]
      have hcell : m.cell pre.length = [] := Message.cell_of_cells m pre _ [] hcells'
      obtain ⟨w, herr, hmsg, hback⟩ := roundtrip_value host pool src.size IH f _
        (JsValue.size_Get_lt src f.camelcase_name (by simp [hpresent])) hval m pre.length false
        (by simp [SubMessage, hcell])
      have herr' : (ToProtoField host pool m pre.length f (src.Get f.camelcase_name)).error
          = none := by
        simp only [ToProtoField, hrep, Bool.false_eq_true, if_false]; exact herr
      rw [Populated.andThen_ok _ herr']
      have hm' : (ToProtoField host pool m pre.length f (src.Get f.camelcase_name)).message.cells
          = pre ++ [w] :: List.replicate fs.length [] := by
        simp only [ToProtoField, hrep, Bool.false_eq_true, if_false]
        rw [hmsg]
        simp only [SET, Bool.false_eq_true, if_false]
        exact Message.Set_cells m pre _ [] w hcells'
      refine hnext _ [w] hm' ?_
      simp only [hpresent, Bool.false_eq_true, if_false]
      simp [fieldProperty, fieldData, hrep, hback]
    | repeated _ _ hrep harr hne hval =>
      subst hget
      have hpresent : ((src.Get f.camelcase_name).IsUndefined ||
          (src.Get f.camelcase_name).IsNull) = false := by
        cases hv : src.Get f.camelcase_name <;>
          simp_all [JsValue.IsArray, JsValue.IsUndefined, JsValue.IsNull]
      simp only [hpresent, Bool.false_eq_true, if_false]
      have hsize := JsValue.size_Get_lt src f.camelcase_name (by simp [hpresent])
      have hsize2 := JsValue.sizeList_elements_lt (src.Get f.camelcase_name)
      obtain ⟨ws, herr, hmsg, hlen, hback⟩ := roundtrip_array host pool src.size IH f pre
        (List.replicate fs.length []) (src.Get f.camelcase_name).elements
        (fun y hy => ⟨by
          have h1 := JsValue.size_lt_sizeList y _ hy
          omega, hval y hy⟩) m [] hcells'
      have hfield : ToProtoField host pool m pre.length f (src.Get f.camelcase_name) =
          ⟨(ToProtoArray host pool m pre.length f (src.Get f.camelcase_name).elements).error,
            (ToProtoArray host pool m pre.length f (src.Get f.camelcase_name).elements).message,
            (if f.cpp_type = .CPPTYPE_MESSAGE then [f.message_type] else []) ++
              (ToProtoArray host pool m pre.length f
                (src.Get f.camelcase_name).elements).lookups⟩ := by
        simp only [ToProtoField, hrep, if_true, harr]
      have herr' : (ToProtoField host pool m pre.length f (src.Get f.camelcase_name)).error
          = none := by rw [hfield]; exact herr
      rw [Populated.andThen_ok _ herr']
      cases ws with
      | nil =>
        exfalso
        apply hne
        exact List.eq_nil_of_length_eq_zero (by simpa using hlen.symm)
      | cons w ws =>
        refine hnext _ (w :: ws) (by rw [hfield]; simpa using hmsg) ?_
        simp only [hpresent, Bool.false_eq_true, if_false]
        simp only [fieldProperty, fieldData, hrep, if_true]
        rw [hback]

/-- The round trip at the level of messages: a record in canonical form is
converted into a new message without error, and the message is converted back
to the record restricted to its present fields. -/
theorem roundtrip_record (host : Host) (pool : DescriptorPool) :
    ∀ (n : Nat) (r : JsValue), r.size < n → ∀ d, CanonicalRecord host pool d r →
      RoundTrips host pool d r := by
  intro n
  induction n with
  | zero => intro r h; omega
  | succ n ih =>
    intro r hr d hrec
    have IH : ∀ r' : JsValue, r'.size < r.size → ∀ d, CanonicalRecord host pool d r' →
        RoundTrips host pool d r' := fun r' h' => ih r' (by omega)
    cases hrec with
    | mk _ _ hobj hnames hfields =>
      obtain ⟨mid, h1, h2, h3⟩ := roundtrip_fields host pool r IH d.fields hfields
        (NewMessage d) [] (by simp [NewMessage, Message.cells, Descriptor.field_count])
      simp only [List.length_nil, List.nil_append] at h1 h2
      refine ⟨by rw [ToProto_eq]; exact h1, ?_⟩
      rw [ToJs_value, ToProto_eq, h2, h3, NewObject_eq _ _ hnames, presentProps_fieldsData,
        recordData_eq]


theorem decode_eq (host : Host) (codec : WireCodec) (pool : DescriptorPool) (d : Nat)
    (bytes : List Nat) :
    decode host codec pool d bytes =
      match codec.ParseFromArray d bytes with
      | some message => .ok (ToJs host pool (pool.descriptor d) message).value
      | none => .error (.Error "Malformed message") := by
  have hp : (Schema.New pool).pool_ = pool := rfl
  simp only [decode, Parse, JsValue.IsBuffer, JsValue.bufferData, if_true, hp]
  cases codec.ParseFromArray d bytes <;> rfl

/-- C1, amended (round trip).  Let the fields of the descriptor, and of every
nested type reached, have pairwise distinct host names, and let `record` be an
object that, read at the name of each declared field, gives `undefined` or
`null` (the field is absent), or a value of the kind of the field that both
conversions leave unchanged (an integer in range, a Number a `float` holds for
a `float` field, a boolean, text for a text field, a buffer for a bytes field,
the name of a declared value for an enum field, such a record for a message
field), or, for a repeated field, a non-empty array of such values.  The own
keys of `record` may come in any order and name no field, and `record` may have
a prototype.  Let the wire codec parse the bytes it serialises for the message
populated from `record` back into that message.  Then `encode` returns bytes,
and `decode` of these bytes returns `record` restricted to its present fields:
(1) it has no key for a field absent from `record`; (2) for a field present in
`record` it holds the data of the value `record` holds, which (3) is the value
itself for a singular value that is no record and no buffer, (4) the buffer of
the same bytes for a buffer, (5) the restricted nested record for a singular
message-kind field, and (6) the array of the data of the elements, in order,
for a repeated field. -/
theorem encode_decode_round_trip (host : Host) (codec : WireCodec) (pool : DescriptorPool)
    (descriptor : Nat) (record : JsValue)
    (hcanonical : CanonicalRecord host pool (pool.descriptor descriptor) record)
    (hcodec : codec.ParseFromArray descriptor (codec.SerializeToArray descriptor
        (ToProto host pool (pool.descriptor descriptor)
          (NewMessage (pool.descriptor descriptor)) record).message) =
      some (ToProto host pool (pool.descriptor descriptor)
          (NewMessage (pool.descriptor descriptor)) record).message) :
    (∃ bytes, encode host codec pool descriptor record = .ok bytes ∧
      decode host codec pool descriptor bytes =
        .ok (recordData pool (pool.descriptor descriptor) record)) ∧
    (∀ field ∈ (pool.descriptor descriptor).fields,
      ((record.Get field.camelcase_name).IsUndefined ||
        (record.Get field.camelcase_name).IsNull) = true →
      field.camelcase_name ∉ (recordData pool (pool.descriptor descriptor) record).keys) ∧
    (∀ field ∈ (pool.descriptor descriptor).fields,
      ((record.Get field.camelcase_name).IsUndefined ||
        (record.Get field.camelcase_name).IsNull) = false →
      (recordData pool (pool.descriptor descriptor) record).Get field.camelcase_name =
        fieldData pool field (record.Get field.camelcase_name)) ∧
    (∀ (field : FieldDescriptor) (value : JsValue), field.is_repeated = false →
      field.cpp_type ≠ .CPPTYPE_MESSAGE → value.IsBuffer = false →
      fieldData pool field value = value) ∧
    (∀ (field : FieldDescriptor) (value : JsValue), field.is_repeated = false →
      field.cpp_type = .CPPTYPE_STRING → value.IsBuffer = true →
      fieldData pool field value = .buffer value.bufferData) ∧
    (∀ (field : FieldDescriptor) (value : JsValue), field.is_repeated = false →
      field.cpp_type = .CPPTYPE_MESSAGE →
      fieldData pool field value =
        recordData pool (pool.descriptor field.message_type) value) ∧
    (∀ (field : FieldDescriptor) (value : JsValue), field.is_repeated = true →
      fieldData pool field value = .array (value.elements.map (valueData pool field))) := by
  obtain ⟨herr, hback⟩ := roundtrip_record host pool (record.size + 1) record (by omega) _
    hcanonical
  have hnames : ((pool.descriptor descriptor).fields.map
      FieldDescriptor.camelcase_name).Nodup := by
    cases hcanonical; assumption
  refine ⟨⟨codec.SerializeToArray descriptor (ToProto host pool (pool.descriptor descriptor)
    (NewMessage (pool.descriptor descriptor)) record).message, ?_, ?_⟩, ?_, ?_, ?_, ?_, ?_, ?_⟩
  · rw [encode_eq host codec pool descriptor record
      (CanonicalValue.IsObject_of_message hcanonical), herr]
  · rw [decode_eq, hcodec]
    simp only [hback]
  · intro field _ habsent
    rw [recordData_eq]
    exact fieldsData_absent pool _ record field habsent
  · intro field hfield hpresent
    rw [recordData_eq]
    exact fieldsData_lookup pool _ record field hnames hfield hpresent
  · intro field value hrep hkind hbuf
    simp only [fieldData, hrep, Bool.false_eq_true, if_false]
    rw [valueData_eq]
    cases hc : field.cpp_type <;> simp_all
  · intro field value hrep hkind hbuf
    simp only [fieldData, hrep, Bool.false_eq_true, if_false]
    rw [valueData_eq]
    simp [hkind, hbuf]
  · intro field value hrep hkind
    simp only [fieldData, hrep, Bool.false_eq_true, if_false]
    rw [valueData_eq]
    simp [hkind]
  · intro field value hrep
    simp only [fieldData, hrep, if_true]
    rw [arrayData_eq_map]

theorem ToProto_Point_literal :
    ToProto exampleHost examplePool Point (NewMessage Point)
      (objectLiteral [("z", .number 9), ("y", .number 4), ("x", .number 3)]) =
      ⟨none, .mk [[.Int32 3], [.Int32 4]], []⟩ := by
  simp [ToProto_eq, ToProtoFields_cons, ToProtoFields_nil, ToProtoField, ToProtoValue_eq,
    scalarValue, Populated.andThen, JsValue.Get, JsValue.Has, JsValue.lookup,
    JsValue.IsUndefined, JsValue.IsNull, NewMessage, Descriptor.field_count, Point, SET,
    Message.Set, Message.cells, Int32Value, ToInt32, objectLiteral]

/-- Witness of C1: `Point { int32 x = 1; int32 y = 2; }` and the object literal
`{z: 9, y: 4, x: 3}`, whose keys are not in declared order and one of which
names no field, with the example codec: the bytes decode to `{x: 3, y: 4}`. -/
theorem encode_decode_round_trip_witness :
    (∃ bytes, encode exampleHost exampleCodec examplePool 0
        (objectLiteral [("z", .number 9), ("y", .number 4), ("x", .number 3)]) = .ok bytes ∧
      decode exampleHost exampleCodec examplePool 0 bytes =
        .ok (recordData examplePool (examplePool.descriptor 0)
          (objectLiteral [("z", .number 9), ("y", .number 4), ("x", .number 3)]))) ∧
    recordData examplePool (examplePool.descriptor 0)
        (objectLiteral [("z", .number 9), ("y", .number 4), ("x", .number 3)]) =
      .object [("x", .number 3), ("y", .number 4)] := by
  have hpool : examplePool.descriptor 0 = Point := rfl
  have hx : (objectLiteral [("z", .number 9), ("y", .number 4), ("x", .number 3)]).Get "x" =
      .number 3 := by
    simp [objectLiteral, JsValue.Get, JsValue.Has, JsValue.lookup]
  have hy : (objectLiteral [("z", .number 9), ("y", .number 4), ("x", .number 3)]).Get "y" =
      .number 4 := by
    simp [objectLiteral, JsValue.Get, JsValue.Has, JsValue.lookup]
  refine ⟨(encode_decode_round_trip exampleHost exampleCodec examplePool 0
    (objectLiteral [("z", .number 9), ("y", .number 4), ("x", .number 3)]) ?_ ?_).1, ?_⟩
  · rw [hpool]
    refine CanonicalRecord.mk Point _ rfl (by decide) ?_
    intro field hfield
    simp only [Point, List.mem_cons, List.mem_singleton, List.not_mem_nil, or_false] at hfield
    rcases hfield with h | h <;> subst h
    · rw [hx]
      exact CanonicalField.singular _ _ rfl
        (CanonicalValue.int32 _ 3 rfl (by decide) (by decide))
    · rw [hy]
      exact CanonicalField.singular _ _ rfl
        (CanonicalValue.int32 _ 4 rfl (by decide) (by decide))
  · rw [hpool, ToProto_Point_literal]
    rfl
  · rw [hpool, recordData_eq]
    simp [Point, fieldsData_cons, fieldsData_nil, fieldData, valueData_eq, hx, hy,
      JsValue.IsUndefined, JsValue.IsNull]

/-- Counterexample to C1 as stated: `Tags { repeated string tags }` and the
record `{tags: []}`, whose one present field holds a sequence.  Its conversion
returns no error and leaves the new message as it was, so `encode` returns
what it returns for `{}`; and whatever the codec and the bytes, `decode` does
not return `{tags: []}`. -/
theorem empty_sequence_does_not_come_back :
    ToProto exampleHost examplePool Tags (NewMessage Tags) (.object [("tags", .array [])]) =
      ⟨none, NewMessage Tags, []⟩ ∧
    (∀ codec : WireCodec,
      encode exampleHost codec examplePool 2 (.object [("tags", .array [])]) =
        .ok (codec.SerializeToArray 2 (NewMessage Tags)) ∧
      encode exampleHost codec examplePool 2 (.object []) =
        .ok (codec.SerializeToArray 2 (NewMessage Tags))) ∧
    (∀ (codec : WireCodec) (bytes : List Nat),
      decode exampleHost codec examplePool 2 bytes ≠ .ok (.object [("tags", .array [])])) := by
  have hpool : examplePool.descriptor 2 = Tags := rfl
  have h1 : ToProto exampleHost examplePool Tags (NewMessage Tags)
      (.object [("tags", .array [])]) = ⟨none, NewMessage Tags, []⟩ := by
    simp [ToProto_eq, ToProtoFields_cons, ToProtoFields_nil, ToProtoField, ToProtoArray_nil,
      Populated.andThen, JsValue.Get, JsValue.lookup, JsValue.IsUndefined, JsValue.IsNull,
      JsValue.IsArray, JsValue.elements, Tags]
  have h2 : ToProto exampleHost examplePool Tags (NewMessage Tags) (.object []) =
      ⟨none, NewMessage Tags, []⟩ := by
    simp [ToProto_eq, ToProtoFields_cons, ToProtoFields_nil, JsValue.Get, JsValue.lookup,
      JsValue.IsUndefined, Tags]
  refine ⟨h1, ?_, ?_⟩
  · intro codec
    constructor
    · rw [encode_eq _ _ _ _ _ (by rfl), hpool, h1]
    · rw [encode_eq _ _ _ _ _ (by rfl), hpool, h2]
  · intro codec bytes
    rw [decode_eq, hpool]
    cases codec.ParseFromArray 2 bytes with
    | none => simp
    | some m =>
      simp only [ne_eq, Except.ok.injEq]
      rw [ToJs_value]
      cases m.cells with
      | nil => simp [ToJsFields, Tags, NewObject, fromArray, JsValue.IsUndefined]
      | cons cell rest =>
        have hf : Tags.fields = [⟨"tags", .CPPTYPE_STRING, false, true, 0, ⟨[]⟩⟩] := rfl
        rw [hf, ToJsFields_cons_cons]
        cases cell with
        | nil => simp [ToJsFields, Tags, NewObject, fromArray, fieldProperty, JsValue.IsUndefined]
        | cons x xs =>
          simp [ToJsFields, Tags, NewObject, fromArray, fieldProperty, JsValue.IsUndefined,
            JsValue.setProp]

/-! ## Schema construction, message lifetime, bytes and text -/

/-- C11 (schema construction).  (1) With no argument `NewSchema` returns a schema
on the pool of the compiled-in descriptors, with an empty cache.  (2) With a
first argument that is not a buffer it throws the type error
`Argument should be a buffer`.  (3) With a buffer that does not parse as a
descriptor set it throws `Malformed descriptor`, and returns no schema.
(4) With a buffer that parses it returns a schema with an empty cache on a new
pool, built from the files of the set and nothing else.  (5) So, given an
argument, a schema is returned exactly when the argument is a buffer that
parses. -/
theorem schema_construction (lib : DescriptorLibrary) :
    NewSchema lib [] = .ok ⟨lib.generated_pool, [], []⟩ ∧
    (∀ (arg : JsValue) (rest : List JsValue), arg.IsBuffer = false →
      NewSchema lib (arg :: rest) = .error (.TypeError "Argument should be a buffer")) ∧
    (∀ (bytes : List Nat) (rest : List JsValue), lib.ParseFromArray bytes = none →
      NewSchema lib (.buffer bytes :: rest) = .error (.Error "Malformed descriptor")) ∧
    (∀ (bytes : List Nat) (rest : List JsValue) (files : List lib.File),
      lib.ParseFromArray bytes = some files →
      NewSchema lib (.buffer bytes :: rest) =
        .ok ⟨files.foldl lib.BuildFile lib.NewPool, [], []⟩) ∧
    (∀ (arg : JsValue) (rest : List JsValue),
      (∃ schema, NewSchema lib (arg :: rest) = .ok schema) ↔
        (arg.IsBuffer = true ∧ ∃ files, lib.ParseFromArray arg.bufferData = some files)) := by
  refine ⟨rfl, ?_, ?_, ?_, ?_⟩
  · intro arg rest h
    simp [NewSchema, h]
  · intro bytes rest h
    simp [NewSchema, JsValue.IsBuffer, JsValue.bufferData, h]
  · intro bytes rest files h
    simp [NewSchema, JsValue.IsBuffer, JsValue.bufferData, h, Schema.New]
  · intro arg rest
    cases hb : arg.IsBuffer with
    | false => simp [NewSchema, hb]
    | true =>
      cases hp : lib.ParseFromArray arg.bufferData with
      | none => simp [NewSchema, hb, hp]
      | some files => simp [NewSchema, hb, hp]

/-- C14 (scoped message lifetime).  `serialize` and `parse`, followed with the
heap events of their statements, return what `Serialize` and `Parse` return.
A call rejected for the type of its argument acquires no message; every other
call acquires one message and releases it once, after acquiring it, whether it
returns a result or throws; and the number of live messages after a call is
the number before it. -/
theorem message_lifetime (host : Host) (codec : WireCodec) (schema : Schema)
    (type : SchemaType) (arg0 : JsValue) :
    (SerializeTraced host codec schema type arg0).1 = Serialize host codec schema type arg0 ∧
    (ParseTraced host codec schema type arg0).1 = Parse host codec schema type arg0 ∧
    (arg0.IsObject = false → (SerializeTraced host codec schema type arg0).2 = []) ∧
    (arg0.IsObject = true →
      (SerializeTraced host codec schema type arg0).2 = [.acquire, .release]) ∧
    (arg0.IsBuffer = false → (ParseTraced host codec schema type arg0).2 = []) ∧
    (arg0.IsBuffer = true →
      (ParseTraced host codec schema type arg0).2 = [.acquire, .release]) ∧
    (∀ live : Nat,
      liveAfter (SerializeTraced host codec schema type arg0).2 live = some live ∧
      liveAfter (ParseTraced host codec schema type arg0).2 live = some live) := by
  have hs : ∀ h : arg0.IsObject = true,
      (SerializeTraced host codec schema type arg0).2 = [.acquire, .release] := by
    intro h
    simp only [SerializeTraced, h, if_true]
    cases (ToProto host schema.pool_ (schema.pool_.descriptor type.descriptor_)
      (NewMessage (schema.pool_.descriptor type.descriptor_)) arg0).error <;> rfl
  have hp : ∀ h : arg0.IsBuffer = true,
      (ParseTraced host codec schema type arg0).2 = [.acquire, .release] := by
    intro h
    simp only [ParseTraced, h, if_true]
    rfl
  have hs0 : arg0.IsObject = false → (SerializeTraced host codec schema type arg0).2 = [] := by
    intro h; simp [SerializeTraced, h]
  have hp0 : arg0.IsBuffer = false → (ParseTraced host codec schema type arg0).2 = [] := by
    intro h; simp [ParseTraced, h]
  refine ⟨?_, ?_, hs0, hs, hp0, hp, ?_⟩
  · simp only [SerializeTraced, Serialize]
    split
    · cases (ToProto host schema.pool_ (schema.pool_.descriptor type.descriptor_)
        (NewMessage (schema.pool_.descriptor type.descriptor_)) arg0).error <;> rfl
    · rfl
  · simp only [ParseTraced, Parse]
    split
    · cases codec.ParseFromArray type.descriptor_ arg0.bufferData <;> rfl
    · rfl
  · intro live
    constructor
    · cases h : arg0.IsObject with
      | false => rw [hs0 h]; rfl
      | true => rw [hs h]; rfl
    · cases h : arg0.IsBuffer with
      | false => rw [hp0 h]; rfl
      | true => rw [hp h]; rfl

/-- C13 (bytes versus text).  For a field of `cpp_type` string, bytes or text:
the conversion of a buffer holding `b` stores exactly `b`.  The conversion
back of the stored `b` is a buffer holding `b` for a bytes field, and for a
text field the string `String::New` makes of `b`, which is not a buffer. -/
theorem bytes_versus_text (host : Host) (pool : DescriptorPool) (m : Message) (i : Nat)
    (field : FieldDescriptor) (repeated : Bool) (b : List Nat)
    (hf : field.cpp_type = .CPPTYPE_STRING) :
    ToProtoValue host pool m i field (.buffer b) repeated =
      ⟨none, SET m i repeated (.String b), []⟩ ∧
    (field.is_bytes = true → (ToJsValue host pool field (.String b)).value = .buffer b) ∧
    (field.is_bytes = false →
      (ToJsValue host pool field (.String b)).value = .string (host.NewString b) ∧
      (ToJsValue host pool field (.String b)).value.IsBuffer = false) := by
  refine ⟨?_, ?_, ?_⟩
  · rw [ToProtoValue_scalar host pool m i field _ repeated (by simp [hf]) (by simp [hf])]
    simp [scalarValue, hf, JsValue.IsBuffer, JsValue.bufferData]
  · intro hb
    rw [ToJsValue_eq]; simp [hf, hb, GetString]
  · intro hb
    rw [ToJsValue_eq]; simp [hf, hb, GetString, JsValue.IsBuffer]

/-- Witness of C13: `Blob { bytes data = 1; string text = 2; }` and the buffer
of the two bytes `h`, `i` given for both fields: both cells hold the bytes, and
the record made of the message has a buffer for `data` and the string `hi` for
`text`. -/
theorem bytes_versus_text_witness :
    ToProtoValue exampleHost examplePool (NewMessage Blob) 1
        ⟨"text", .CPPTYPE_STRING, false, false, 0, ⟨[]⟩⟩ (.buffer [104, 105]) false =
      ⟨none, .mk [[], [.String [104, 105]]], []⟩ ∧
    (ToProto exampleHost examplePool Blob (NewMessage Blob)
        (.object [("data", .buffer [104, 105]), ("text", .buffer [104, 105])])).message =
      .mk [[.String [104, 105]], [.String [104, 105]]] ∧
    (ToJs exampleHost examplePool Blob (.mk [[.String [104, 105]], [.String [104, 105]]])).value =
      .object [("data", .buffer [104, 105]), ("text", .string "hi")] := by
  refine ⟨?_, ?_, ?_⟩
  · rw [(bytes_versus_text exampleHost examplePool (NewMessage Blob) 1
      ⟨"text", .CPPTYPE_STRING, false, false, 0, ⟨[]⟩⟩ false [104, 105] rfl).1]
    rfl
  · simp [ToProto_eq, ToProtoFields_cons, ToProtoFields_nil, ToProtoField, ToProtoValue_eq,
      scalarValue, Populated.andThen, JsValue.Get, JsValue.lookup, JsValue.IsUndefined,
      JsValue.IsNull, JsValue.IsBuffer, JsValue.bufferData, NewMessage, Descriptor.field_count,
      Blob, SET, Message.Set, Message.cells]
  · rfl

/-! ## The Point scenario and the round trip of messages -/

theorem ToProto_Point (host : Host) (pool : DescriptorPool) (x y : Int) :
    ToProto host pool Point (NewMessage Point) (.object [("x", .number x), ("y", .number y)]) =
      ⟨none, .mk [[.Int32 (ToInt32 x)], [.Int32 (ToInt32 y)]], []⟩ := by
  simp [ToProto_eq, ToProtoFields_cons, ToProtoFields_nil, ToProtoField, ToProtoValue_eq,
    scalarValue, Populated.andThen, JsValue.Get, JsValue.lookup, JsValue.IsUndefined,
    JsValue.IsNull, NewMessage, Descriptor.field_count, Point, SET, Message.Set,
    Message.cells, Int32Value]

/-- C15 (the Point scenario).  Let descriptor `d` of the pool be
`Point { int32 x = 1; int32 y = 2; }`, and let the wire codec write the message
with `x = 3` and `y = 4` as the bytes `08 03 10 04` and parse these bytes as
that message.  Then `encode` of `{x: 3, y: 4}` returns exactly these bytes, and
`decode` of these bytes returns the record `{x: 3, y: 4}`, `x` before `y`. -/
theorem point_scenario (host : Host) (codec : WireCodec) (pool : DescriptorPool) (d : Nat)
    (hpoint : pool.descriptor d = Point)
    (hwrite : codec.SerializeToArray d (.mk [[.Int32 3], [.Int32 4]]) = [0x08, 0x03, 0x10, 0x04])
    (hread : codec.ParseFromArray d [0x08, 0x03, 0x10, 0x04] =
      some (.mk [[.Int32 3], [.Int32 4]])) :
    encode host codec pool d (.object [("x", .number 3), ("y", .number 4)]) =
      .ok [0x08, 0x03, 0x10, 0x04] ∧
    decode host codec pool d [0x08, 0x03, 0x10, 0x04] =
      .ok (.object [("x", .number 3), ("y", .number 4)]) ∧
    (∀ record, decode host codec pool d [0x08, 0x03, 0x10, 0x04] = .ok record →
      record.keys = ["x", "y"]) := by
  have h34 : ToInt32 3 = 3 ∧ ToInt32 4 = 4 := by decide
  have hdec : decode host codec pool d [0x08, 0x03, 0x10, 0x04] =
      .ok (.object [("x", .number 3), ("y", .number 4)]) := by
    rw [decode_eq, hread, hpoint]
    rfl
  refine ⟨?_, hdec, ?_⟩
  · rw [encode_eq host codec pool d _ (by rfl), hpoint, ToProto_Point, h34.1, h34.2]
    simp only [hwrite]
  · intro record h
    rw [hdec] at h
    cases h
    rfl

/-- Witness of C15: the example pool, whose descriptor 0 is `Point`, and the
example codec, which writes and reads this fragment of the wire format. -/
theorem point_scenario_witness :
    encode exampleHost exampleCodec examplePool 0
        (.object [("x", .number 3), ("y", .number 4)]) = .ok [0x08, 0x03, 0x10, 0x04] ∧
    decode exampleHost exampleCodec examplePool 0 [0x08, 0x03, 0x10, 0x04] =
      .ok (.object [("x", .number 3), ("y", .number 4)]) :=
  ⟨(point_scenario exampleHost exampleCodec examplePool 0 rfl rfl rfl).1,
    (point_scenario exampleHost exampleCodec examplePool 0 rfl rfl rfl).2.1⟩

theorem find?_number_of_mem (values : List EnumValueDescriptor) (v : EnumValueDescriptor)
    (hv : v ∈ values) (hnumbers : (values.map EnumValueDescriptor.number).Nodup) :
    values.find? (fun w => decide (w.number = v.number)) = some v := by
  induction values with
  | nil => cases hv
  | cons w ws ih =>
    rw [List.map_cons, List.nodup_cons] at hnumbers
    rw [List.find?_cons]
    by_cases hw : w.number = v.number
    · simp only [hw, decide_True]
      rcases List.mem_cons.mp hv with h | h
      · rw [h]
      · exact absurd (hw ▸ List.mem_map_of_mem _ h) hnumbers.1
    · simp only [hw, decide_False]
      rcases List.mem_cons.mp hv with h | h
      · exact absurd (h ▸ rfl) hw
      · exact ih h hnumbers.2

/-- C16, amended (round trip of messages).  Let the fields of the descriptor,
and of every nested type reached, have pairwise distinct host names, and let
`record` be an object that, read at the name of each declared field, gives
`undefined` or `null`, a value in canonical form, or for a repeated field a
non-empty array of such values; its own keys may come in any order and name no
field, and it may have a prototype.  Then (1) the conversion of `record` into
a new message returns no error; (2) the conversion of that message back is
`record` restricted to its present fields; (3) the keys of the result are the
names of the fields present in `record`, in declared order, and (4) each holds
the data of the value `record` holds; so (5) the result is exactly `record`
when `record` is its own restriction.  (6) For an enum type whose value
numbers are pairwise distinct, every declared value is the one its number
finds, as the canonical form asks of an enum name. -/
theorem message_round_trip (host : Host) (pool : DescriptorPool) (d : Descriptor)
    (record : JsValue) (hcanonical : CanonicalRecord host pool d record) :
    (ToProto host pool d (NewMessage d) record).error = none ∧
    (ToJs host pool d (ToProto host pool d (NewMessage d) record).message).value =
      recordData pool d record ∧
    (recordData pool d record).keys =
      (d.fields.filter (fun f => !((record.Get f.camelcase_name).IsUndefined ||
        (record.Get f.camelcase_name).IsNull))).map FieldDescriptor.camelcase_name ∧
    (∀ field ∈ d.fields,
      ((record.Get field.camelcase_name).IsUndefined ||
        (record.Get field.camelcase_name).IsNull) = false →
      (ToJs host pool d (ToProto host pool d (NewMessage d) record).message).value.Get
          field.camelcase_name =
        fieldData pool field (record.Get field.camelcase_name)) ∧
    (recordData pool d record = record →
      (ToJs host pool d (ToProto host pool d (NewMessage d) record).message).value = record) ∧
    (∀ (e : EnumDescriptor) (v : EnumValueDescriptor),
      (e.values.map EnumValueDescriptor.number).Nodup → v ∈ e.values →
      e.FindValueByNumber v.number = some v) := by
  obtain ⟨h1, h2⟩ := roundtrip_record host pool (record.size + 1) record (by omega) d hcanonical
  have hnames : (d.fields.map FieldDescriptor.camelcase_name).Nodup := by
    cases hcanonical; assumption
  refine ⟨h1, h2, ?_, ?_, ?_, ?_⟩
  · rw [recordData_eq]
    exact fieldsData_keys pool d.fields record
  · intro field hfield hpresent
    rw [h2, recordData_eq]
    exact fieldsData_lookup pool _ record field hnames hfield hpresent
  · intro h
    rw [h2, h]
  · intro e v hnumbers hv
    exact find?_number_of_mem e.values v hv hnumbers

/-- Witness of C16: `Can { Paint inner }`, `Paint { Color color }` and the object
literal `{extra: 1, inner: {color: "BLUE"}}`: the result is `{inner: {color: "BLUE"}}`. -/
theorem message_round_trip_witness :
    (ToJs exampleHost examplePool Can
      (ToProto exampleHost examplePool Can (NewMessage Can)
        (objectLiteral [("extra", .number 1),
          ("inner", objectLiteral [("color", .string "BLUE")])])).message).value =
      .object [("inner", .object [("color", .string "BLUE")])] := by
  have hinner : (objectLiteral [("extra", .number 1),
      ("inner", objectLiteral [("color", .string "BLUE")])]).Get "inner" =
      objectLiteral [("color", .string "BLUE")] := by
    simp [objectLiteral, JsValue.Get, JsValue.Has, JsValue.lookup]
  have hcolor : (objectLiteral [("color", .string "BLUE")]).Get "color" = .string "BLUE" := by
    simp [objectLiteral, JsValue.Get, JsValue.Has, JsValue.lookup]
  have hp : examplePool.descriptor 3 = Paint := rfl
  rw [(message_round_trip exampleHost examplePool Can
    (objectLiteral [("extra", .number 1),
      ("inner", objectLiteral [("color", .string "BLUE")])]) ?_).2.1]
  · have hlit : ∀ props, ((objectLiteral props).IsUndefined ||
        (objectLiteral props).IsNull) = false := fun _ => rfl
    rw [recordData_eq]
    have hs : ((JsValue.string "BLUE").IsUndefined || (JsValue.string "BLUE").IsNull)
        = false := rfl
    simp [Can, Paint, hp, fieldsData_cons, fieldsData_nil, fieldData, valueData_eq,
      recordData_eq, hinner, hcolor, hlit, hs]
  · refine CanonicalRecord.mk Can _ rfl (by decide) ?_
    intro field hfield
    simp only [Can, List.mem_singleton] at hfield
    subst hfield
    rw [hinner]
    refine CanonicalField.singular _ _ rfl (CanonicalValue.message _ _ rfl ?_)
    refine CanonicalRecord.mk _ _ rfl (by decide) ?_
    intro field hfield
    simp only [hp, Paint, List.mem_singleton] at hfield
    subst hfield
    rw [hcolor]
    exact CanonicalField.singular _ _ rfl
      (CanonicalValue.enum _ ⟨"BLUE", 1⟩ rfl (by decide) (by decide))

/-- Counterexample to C16 as stated.  (1) `Ctor { int32 constructor }` and the
object literal `{}`: it has no key, so no field is present in it, and yet the
conversion reads the function `Object`, which the prototype of the literal
gives for the name `constructor`, and stores its 32-bit integer conversion;
the conversion back is `{constructor: 0}`, not `{}`.  (2) In
`Twin { Paint foo_bar; Can fooBar }` both fields have the host name `fooBar`:
the record `{fooBar: {color: "RED"}}` populates both, and the conversion back
is `{fooBar: {}}`: the colour is lost. -/
theorem inherited_and_shared_names_come_back_changed :
    (objectLiteral []).keys = [] ∧
    ToProto exampleHost edgePool Ctor (NewMessage Ctor) (objectLiteral []) =
      ⟨none, .mk [[.Int32 0]], []⟩ ∧
    (ToJs exampleHost edgePool Ctor (.mk [[.Int32 0]])).value =
      .object [("constructor", .number 0)] ∧
    ToProto exampleHost edgePool Twin (NewMessage Twin)
        (.object [("fooBar", .object [("color", .string "RED")])]) =
      ⟨none, .mk [[.Message (.mk [[.Enum ⟨"RED", 0⟩]])], [.Message (.mk [[]])]], [3, 4]⟩ ∧
    (ToJs exampleHost edgePool Twin
        (.mk [[.Message (.mk [[.Enum ⟨"RED", 0⟩]])], [.Message (.mk [[]])]])).value =
      .object [("fooBar", .object [])] := by
  have hp3 : edgePool.descriptor 3 = Paint := rfl
  have hp4 : edgePool.descriptor 4 = Can := rfl
  refine ⟨rfl, ToProto_Ctor_literal, rfl, ?_, rfl⟩
  · simp [ToProto_eq, ToProtoFields_cons, ToProtoFields_nil, ToProtoField, ToProtoValue_eq,
      Populated.andThen, JsValue.Get, JsValue.lookup, JsValue.IsUndefined, JsValue.IsNull,
      JsValue.IsObject, JsValue.IsNumber, NewMessage, Descriptor.field_count, Twin, Paint, Can,
      Color, hp3, hp4, SET, Message.Set, Message.cells, Message.cell, SubMessage, exampleHost,
      EnumDescriptor.FindValueByName]

/-! ## What the loop reads -/

/-- The loop reads the record only at the names of its fields. -/
theorem ToProtoFields_congr (host : Host) (pool : DescriptorPool) (r1 r2 : JsValue)
    (fs : List FieldDescriptor)
    (h : ∀ g ∈ fs, r1.Get g.camelcase_name = r2.Get g.camelcase_name) (m : Message) (i : Nat) :
    ToProtoFields host pool m i fs r1 = ToProtoFields host pool m i fs r2 := by
  induction fs generalizing m i with
  | nil => rw [ToProtoFields_nil, ToProtoFields_nil]
  | cons f fs ih =>
    have hrest : ∀ m' i', ToProtoFields host pool m' i' fs r1 =
        ToProtoFields host pool m' i' fs r2 :=
      fun m' i' => ih (fun g hg => h g (List.mem_cons_of_mem _ hg)) m' i'
    rw [ToProtoFields_cons, ToProtoFields_cons, h f (List.mem_cons_self _ _)]
    simp only [hrest]

theorem ToProtoArray_first_error (host : Host) (pool : DescriptorPool) (m : Message) (i : Nat)
    (f : FieldDescriptor) (xs ys : List JsValue) (y : JsValue) (e : String)
    (hxs : (ToProtoArray host pool m i f xs).error = none)
    (hy : (ToProtoValue host pool (ToProtoArray host pool m i f xs).message i f y true).error
      = some e) :
    ToProtoArray host pool m i f (xs ++ y :: ys) =
      ⟨some e,
        (ToProtoValue host pool (ToProtoArray host pool m i f xs).message i f y true).message,
        (ToProtoArray host pool m i f xs).lookups ++
          (ToProtoValue host pool (ToProtoArray host pool m i f xs).message i f y
            true).lookups⟩ := by
  rw [ToProtoArray_append, Populated.andThen_ok _ hxs, ToProtoArray_cons,
    Populated.andThen_error _ hy, hy]

/-- C19 (first error wins).  Let the fields declared before `field` convert
without error and let the conversion of `field`, whose value is present,
return the error `e`.  Then (1) `encode` throws `e`; (2) the conversion is
that of the fields up to `field` alone: no later field is converted; and
(3) it is the same for every record with the same values at the names of the
fields up to `field`, whatever the later fields hold.  (4) In the loop over
the elements of a repeated field, when the elements before `y` convert and
`y` returns the error `e'`, the loop returns `e'` with the message as the
conversion of `y` left it, the same whatever elements follow `y`; and (5) this
error is then the error of the field. -/
theorem first_error_wins (host : Host) (codec : WireCodec) (pool : DescriptorPool)
    (descriptor : Nat) (record : JsValue) (pre post : List FieldDescriptor)
    (field : FieldDescriptor) (e : String)
    (hfields : (pool.descriptor descriptor).fields = pre ++ field :: post)
    (hpresent : ((record.Get field.camelcase_name).IsUndefined ||
      (record.Get field.camelcase_name).IsNull) = false)
    (hpre : (ToProtoFields host pool (NewMessage (pool.descriptor descriptor)) 0 pre
      record).error = none)
    (hfail : (ToProtoField host pool
      (ToProtoFields host pool (NewMessage (pool.descriptor descriptor)) 0 pre record).message
      pre.length field (record.Get field.camelcase_name)).error = some e) :
    encode host codec pool descriptor record = .error (.Error e) ∧
    ToProto host pool (pool.descriptor descriptor) (NewMessage (pool.descriptor descriptor))
        record =
      ToProtoFields host pool (NewMessage (pool.descriptor descriptor)) 0 (pre ++ [field])
        record ∧
    (∀ record' : JsValue,
      (∀ g ∈ pre ++ [field], record'.Get g.camelcase_name = record.Get g.camelcase_name) →
      ToProto host pool (pool.descriptor descriptor) (NewMessage (pool.descriptor descriptor))
          record' =
        ToProto host pool (pool.descriptor descriptor) (NewMessage (pool.descriptor descriptor))
          record ∧
      encode host codec pool descriptor record' = .error (.Error e)) ∧
    (∀ (m : Message) (i : Nat) (xs ys ys' : List JsValue) (y : JsValue) (e' : String),
      (ToProtoArray host pool m i field xs).error = none →
      (ToProtoValue host pool (ToProtoArray host pool m i field xs).message i field y
        true).error = some e' →
      (ToProtoArray host pool m i field (xs ++ y :: ys)).error = some e' ∧
      (ToProtoArray host pool m i field (xs ++ y :: ys)).message =
        (ToProtoValue host pool (ToProtoArray host pool m i field xs).message i field y
          true).message ∧
      ToProtoArray host pool m i field (xs ++ y :: ys) =
        ToProtoArray host pool m i field (xs ++ y :: ys')) ∧
    (∀ (m : Message) (i : Nat) (xs ys : List JsValue) (y : JsValue) (e' : String),
      field.is_repeated = true →
      (ToProtoArray host pool m i field xs).error = none →
      (ToProtoValue host pool (ToProtoArray host pool m i field xs).message i field y
        true).error = some e' →
      (ToProtoField host pool m i field (.array (xs ++ y :: ys))).error = some e') := by
  have hobj := JsValue.IsObject_of_Get record _ hpresent
  have hstop : ∀ (r : JsValue) (rest : List FieldDescriptor),
      (∀ g ∈ pre ++ [field], r.Get g.camelcase_name = record.Get g.camelcase_name) →
      ToProtoFields host pool (NewMessage (pool.descriptor descriptor)) 0
          (pre ++ field :: rest) r =
        ⟨some e,
          (ToProtoField host pool
            (ToProtoFields host pool (NewMessage (pool.descriptor descriptor)) 0 pre
              record).message pre.length field (record.Get field.camelcase_name)).message,
          (ToProtoFields host pool (NewMessage (pool.descriptor descriptor)) 0 pre
              record).lookups ++
            (ToProtoField host pool
              (ToProtoFields host pool (NewMessage (pool.descriptor descriptor)) 0 pre
                record).message pre.length field (record.Get field.camelcase_name)).lookups⟩ := by
    intro r rest hr
    have hpre' := ToProtoFields_congr host pool r record pre
      (fun g hg => hr g (List.mem_append_left _ hg)) (NewMessage (pool.descriptor descriptor)) 0
    have hf : r.Get field.camelcase_name = record.Get field.camelcase_name :=
      hr field (List.mem_append_right _ (List.mem_singleton.mpr rfl))
    rw [ToProtoFields_append, hpre', Populated.andThen_ok _ hpre]
    simp only [Nat.zero_add]
    rw [ToProtoFields_cons, hf]
    simp only [hpresent, Bool.false_eq_true, if_false]
    rw [Populated.andThen_error _ hfail, hfail]
  have hfull := hstop record post (fun _ _ => rfl)
  have hcut := hstop record [] (fun _ _ => rfl)
  refine ⟨?_, ?_, ?_, ?_, ?_⟩
  · refine encode_error host codec pool descriptor record e hobj ?_
    rw [ToProto_eq, hfields, hfull]
  · rw [ToProto_eq, hfields, hfull, hcut]
  · intro record' hsame
    have h1 : ToProto host pool (pool.descriptor descriptor)
        (NewMessage (pool.descriptor descriptor)) record' =
        ToProto host pool (pool.descriptor descriptor)
          (NewMessage (pool.descriptor descriptor)) record := by
      rw [ToProto_eq, ToProto_eq, hfields, hfull, hstop record' post hsame]
    refine ⟨h1, ?_⟩
    have hpresent' : ((record'.Get field.camelcase_name).IsUndefined ||
        (record'.Get field.camelcase_name).IsNull) = false := by
      rw [hsame field (List.mem_append_right _ (List.mem_singleton.mpr rfl))]
      exact hpresent
    refine encode_error host codec pool descriptor record' e
      (JsValue.IsObject_of_Get record' _ hpresent') ?_
    rw [h1, ToProto_eq, hfields, hfull]
  · intro m i xs ys ys' y e' hxs hy
    rw [ToProtoArray_first_error host pool m i field xs ys y e' hxs hy,
      ToProtoArray_first_error host pool m i field xs ys' y e' hxs hy]
    exact ⟨rfl, rfl, rfl⟩
  · intro m i xs ys y e' hrep hxs hy
    simp only [ToProtoField, hrep, if_true, JsValue.IsArray, JsValue.elements]
    rw [ToProtoArray_first_error host pool m i field xs ys y e' hxs hy]

/-- Witness of C19: `Palette { repeated Color colors; int32 count }` and the
record `{colors: ["RED", "PURPLE", "BLUE"], count: 1}`: the second element is
the first failing conversion, and `encode` throws its error. -/
theorem first_error_wins_witness :
    encode exampleHost exampleCodec morePool 0
        (.object [("colors", .array [.string "RED", .string "PURPLE", .string "BLUE"]),
          ("count", .number 1)]) =
      .error (.Error "Unknown enum value") := by
  refine (first_error_wins exampleHost exampleCodec morePool 0
    (.object [("colors", .array [.string "RED", .string "PURPLE", .string "BLUE"]),
      ("count", .number 1)]) [] [⟨"count", .CPPTYPE_INT32, false, false, 0, ⟨[]⟩⟩]
    ⟨"colors", .CPPTYPE_ENUM, false, true, 0, Color⟩ "Unknown enum value" rfl rfl
    (by rw [ToProtoFields_nil]) ?_).1
  rw [ToProtoFields_nil]
  simp [ToProtoField, ToProtoArray_cons, ToProtoValue_eq, Populated.andThen, JsValue.Get,
    JsValue.lookup, JsValue.IsArray, JsValue.elements, JsValue.IsNumber, exampleHost,
    EnumDescriptor.FindValueByName, Color, E_UNKNOWN_ENUM]

/-! ## An empty sequence -/

theorem JsValue.mem_keys_setProp (name k : String) (x : JsValue)
    (props : List (String × JsValue)) (h : k ∈ (JsValue.setProp name x props).map Prod.fst) :
    k = name ∨ k ∈ props.map Prod.fst := by
  induction props with
  | nil => simpa [JsValue.setProp] using h
  | cons p ps ih =>
    obtain ⟨k', v⟩ := p
    simp only [JsValue.setProp] at h
    split at h
    · exact Or.inr (by simpa using h)
    · simp only [List.map_cons, List.mem_cons] at h ⊢
      rcases h with h | h
      · exact Or.inr (Or.inl h)
      · rcases ih h with h | h
        · exact Or.inl h
        · exact Or.inr (Or.inr h)

/-- A key of the object the generated constructor makes is the name of a field
whose entry in the array is not `undefined`. -/
theorem mem_keys_fromArray (fs : List FieldDescriptor) (arr : List JsValue)
    (acc : List (String × JsValue)) (k : String)
    (h : k ∈ (fromArray fs arr acc).map Prod.fst) :
    k ∈ acc.map Prod.fst ∨
      ∃ (j : Nat) (g : FieldDescriptor), fs[j]? = some g ∧ g.camelcase_name = k ∧
        (arr.getD j .undefined).IsUndefined = false := by
  induction fs generalizing arr acc with
  | nil => exact Or.inl h
  | cons f fs ih =>
    have hhead : arr.headD .undefined = arr.getD 0 .undefined := by cases arr <;> rfl
    have hshift : (∃ (j : Nat) (g : FieldDescriptor), fs[j]? = some g ∧ g.camelcase_name = k ∧
        (arr.tail.getD j .undefined).IsUndefined = false) →
        ∃ (j : Nat) (g : FieldDescriptor), (f :: fs)[j]? = some g ∧ g.camelcase_name = k ∧
          (arr.getD j .undefined).IsUndefined = false := by
      rintro ⟨j, g, h1, h2, h3⟩
      exact ⟨j + 1, g, by simpa using h1, h2, by rw [← List.getD_tail_undefined]; exact h3⟩
    simp only [fromArray] at h
    split at h
    · rcases ih _ _ h with h | h
      · exact Or.inl h
      · exact Or.inr (hshift h)
    · rename_i hx
      rcases ih _ _ h with h | h
      · rcases JsValue.mem_keys_setProp _ _ _ _ h with h | h
        · refine Or.inr ⟨0, f, List.getElem?_cons_zero, h.symm, ?_⟩
          rw [← hhead]
          simpa using hx
        · exact Or.inl h
      · exact Or.inr (hshift h)

theorem mem_of_getElem?_append_cons {α : Type} (pre post : List α) (a b : α) (j : Nat)
    (h : (pre ++ a :: post)[j]? = some b) (hj : j ≠ pre.length) : b ∈ pre ++ post := by
  induction pre generalizing j with
  | nil =>
    cases j with
    | zero => simp at hj
    | succ j =>
      simp only [List.nil_append, List.getElem?_cons_succ] at h
      simpa using List.getElem?_mem h
  | cons c pre ih =>
    cases j with
    | zero =>
      simp only [List.cons_append, List.getElem?_cons_zero, Option.some.injEq] at h
      simp [h]
    | succ j =>
      simp only [List.cons_append, List.getElem?_cons_succ] at h
      have := ih j h (by simpa using hj)
      simp only [List.cons_append, List.mem_cons]
      exact Or.inr this

theorem JsValue.present_of_IsArray (v : JsValue) (h : v.IsArray = true) :
    (v.IsUndefined || v.IsNull) = false := by
  cases v <;> simp_all [JsValue.IsArray, JsValue.IsUndefined, JsValue.IsNull]

/-- From a repeated field given an empty array on, the loop leaves the same
error and the same message as when the field is absent. -/
theorem ToProtoFields_empty_array (host : Host) (pool : DescriptorPool) (r1 r2 : JsValue)
    (f : FieldDescriptor) (post : List FieldDescriptor) (hrep : f.is_repeated = true)
    (harray : (r1.Get f.camelcase_name).IsArray = true)
    (hempty : (r1.Get f.camelcase_name).elements = [])
    (habsent : ((r2.Get f.camelcase_name).IsUndefined ||
      (r2.Get f.camelcase_name).IsNull) = true)
    (hsame : ∀ g ∈ post, r1.Get g.camelcase_name = r2.Get g.camelcase_name) (m : Message)
    (i : Nat) :
    (ToProtoFields host pool m i (f :: post) r1).error =
      (ToProtoFields host pool m i (f :: post) r2).error ∧
    (ToProtoFields host pool m i (f :: post) r1).message =
      (ToProtoFields host pool m i (f :: post) r2).message := by
  have hfield : ToProtoField host pool m i f (r1.Get f.camelcase_name) =
      ⟨none, m, (if f.cpp_type = .CPPTYPE_MESSAGE then [f.message_type] else []) ++ []⟩ := by
    simp only [ToProtoField, hrep, if_true, harray, hempty, ToProtoArray_nil]
  have hp := JsValue.present_of_IsArray _ harray
  rw [ToProtoFields_cons, ToProtoFields_cons]
  simp only [habsent, if_true, hp, Bool.false_eq_true, if_false]
  rw [hfield, Populated.andThen_ok _ rfl, ToProtoFields_congr host pool r1 r2 post hsame]
  exact ⟨rfl, rfl⟩

/-- A record that gives an empty array for a repeated field and a record that
gives `undefined` or `null` for it, equal on the other fields, leave the same
error and populate the same message. -/
theorem ToProto_empty_array (host : Host) (pool : DescriptorPool) (d : Descriptor)
    (r1 r2 : JsValue) (pre post : List FieldDescriptor) (field : FieldDescriptor)
    (hfields : d.fields = pre ++ field :: post) (hrep : field.is_repeated = true)
    (harray : (r1.Get field.camelcase_name).IsArray = true)
    (hempty : (r1.Get field.camelcase_name).elements = [])
    (habsent : ((r2.Get field.camelcase_name).IsUndefined ||
      (r2.Get field.camelcase_name).IsNull) = true)
    (hsame : ∀ g ∈ pre ++ post, r1.Get g.camelcase_name = r2.Get g.camelcase_name) :
    (ToProto host pool d (NewMessage d) r1).error =
      (ToProto host pool d (NewMessage d) r2).error ∧
    (ToProto host pool d (NewMessage d) r1).message =
      (ToProto host pool d (NewMessage d) r2).message := by
  rw [ToProto_eq, ToProto_eq, hfields, ToProtoFields_append, ToProtoFields_append,
    ToProtoFields_congr host pool r1 r2 pre (fun g hg => hsame g (List.mem_append_left _ hg))]
  cases hp : (ToProtoFields host pool (NewMessage d) 0 pre r2).error with
  | some e =>
    rw [Populated.andThen_error _ hp, Populated.andThen_error _ hp]
    exact ⟨rfl, rfl⟩
  | none =>
    rw [Populated.andThen_ok _ hp, Populated.andThen_ok _ hp]
    exact ToProtoFields_empty_array host pool r1 r2 field post hrep harray hempty habsent
      (fun g hg => hsame g (List.mem_append_right _ hg)) _ _

/-- When no other field has its host name, a repeated field given an empty
array has no key in the record made of the populated message. -/
theorem ToJs_no_key_of_empty_array (host : Host) (pool : DescriptorPool) (d : Descriptor)
    (r1 : JsValue) (pre post : List FieldDescriptor) (field : FieldDescriptor)
    (hfields : d.fields = pre ++ field :: post) (hrep : field.is_repeated = true)
    (hdistinct : ∀ g ∈ pre ++ post, g.camelcase_name ≠ field.camelcase_name)
    (harray : (r1.Get field.camelcase_name).IsArray = true)
    (hempty : (r1.Get field.camelcase_name).elements = [])
    (hok : (ToProto host pool d (NewMessage d) r1).error = none) :
    field.camelcase_name ∉
      (ToJs host pool d (ToProto host pool d (NewMessage d) r1).message).value.keys := by
  intro hmem
  have hpresent := JsValue.present_of_IsArray _ harray
  obtain ⟨mid, rest, hmid, hcells, _, hconv⟩ := ToProto_cell_at host pool d r1 pre post field
    hfields hok
  obtain ⟨_, hcell⟩ := hconv hpresent
  have hfield : (ToProtoField host pool (ToProtoFields host pool (NewMessage d) 0 pre r1).message
      pre.length field (r1.Get field.camelcase_name)).message =
      (ToProtoFields host pool (NewMessage d) 0 pre r1).message := by
    simp only [ToProtoField, hrep, if_true, harray, hempty, ToProtoArray_nil]
  rw [hfield, Message.cell_of_cells' _ _ _ _ _ hcells hmid] at hcell
  rw [ToJs_value] at hmem
  simp only [NewObject, JsValue.keys] at hmem
  rcases mem_keys_fromArray _ _ _ _ hmem with h | ⟨j, g, hg, hname, hdef⟩
  · simp at h
  · rw [ToJsFields_getD _ _ _ _ _ _ hg, fieldProperty_IsUndefined] at hdef
    by_cases hj : j = pre.length
    · subst hj
      have : (ToProto host pool d (NewMessage d) r1).message.cells.getD pre.length [] = [] :=
        hcell
      rw [this] at hdef
      simp at hdef
    · rw [hfields] at hg
      exact hdistinct g (mem_of_getElem?_append_cons pre post field g j hg hj) hname

/-- C17, amended (an empty sequence is as an absent field).  Let `field` be a
repeated field whose host name no other field of the descriptor has.  Let `r1`
give an empty array when it is read at the name of `field`, let `r2`, an
object, give `undefined` or `null` there, and let the two give the same at the
names of the other fields.  Then (1) the conversions of `r1` and `r2` return
the same error, if any, and (2) populate the same message; (3) `encode`
returns the same for both; and (4) when the conversion returns no error, the
record made of the populated message has no key for `field`, nor has the
record `decode` returns for the bytes of `r1` when the codec parses them back
into that message.  (5) In particular, for every property table without the
key of `field`, `encode` returns the same for the object with these properties
and for the object that has the empty array for `field` in addition. -/
theorem empty_sequence_as_absent (host : Host) (codec : WireCodec) (pool : DescriptorPool)
    (descriptor : Nat) (r1 r2 : JsValue) (pre post : List FieldDescriptor)
    (field : FieldDescriptor)
    (hfields : (pool.descriptor descriptor).fields = pre ++ field :: post)
    (hrep : field.is_repeated = true)
    (hdistinct : ∀ g ∈ pre ++ post, g.camelcase_name ≠ field.camelcase_name)
    (harray : (r1.Get field.camelcase_name).IsArray = true)
    (hempty : (r1.Get field.camelcase_name).elements = [])
    (habsent : ((r2.Get field.camelcase_name).IsUndefined ||
      (r2.Get field.camelcase_name).IsNull) = true)
    (hobj : r2.IsObject = true)
    (hsame : ∀ g ∈ pre ++ post, r1.Get g.camelcase_name = r2.Get g.camelcase_name) :
    (ToProto host pool (pool.descriptor descriptor) (NewMessage (pool.descriptor descriptor))
        r1).error =
      (ToProto host pool (pool.descriptor descriptor) (NewMessage (pool.descriptor descriptor))
        r2).error ∧
    (ToProto host pool (pool.descriptor descriptor) (NewMessage (pool.descriptor descriptor))
        r1).message =
      (ToProto host pool (pool.descriptor descriptor) (NewMessage (pool.descriptor descriptor))
        r2).message ∧
    encode host codec pool descriptor r1 = encode host codec pool descriptor r2 ∧
    ((ToProto host pool (pool.descriptor descriptor) (NewMessage (pool.descriptor descriptor))
        r1).error = none →
      field.camelcase_name ∉ (ToJs host pool (pool.descriptor descriptor)
        (ToProto host pool (pool.descriptor descriptor)
          (NewMessage (pool.descriptor descriptor)) r1).message).value.keys ∧
      ∀ (bytes : List Nat) (record : JsValue),
        encode host codec pool descriptor r1 = .ok bytes →
        codec.ParseFromArray descriptor bytes =
          some (ToProto host pool (pool.descriptor descriptor)
            (NewMessage (pool.descriptor descriptor)) r1).message →
        decode host codec pool descriptor bytes = .ok record →
        field.camelcase_name ∉ record.keys) ∧
    (∀ props : List (String × JsValue), field.camelcase_name ∉ props.map Prod.fst →
      encode host codec pool descriptor
          (.object ((field.camelcase_name, .array []) :: props)) =
        encode host codec pool descriptor (.object props)) := by
  have hpresent := JsValue.present_of_IsArray _ harray
  have hobj1 := JsValue.IsObject_of_Get r1 _ hpresent
  have hboth := ToProto_empty_array host pool (pool.descriptor descriptor) r1 r2 pre post field
    hfields hrep harray hempty habsent hsame
  have hkeys := ToJs_no_key_of_empty_array host pool (pool.descriptor descriptor) r1 pre post
    field hfields hrep hdistinct harray hempty
  refine ⟨hboth.1, hboth.2, ?_, ?_, ?_⟩
  · rw [encode_eq host codec pool descriptor r1 hobj1, encode_eq host codec pool descriptor r2 hobj,
      hboth.1, hboth.2]
  · intro hok
    refine ⟨hkeys hok, ?_⟩
    intro bytes record _ hparse hdec
    rw [decode_eq, hparse] at hdec
    simp only [Except.ok.injEq] at hdec
    rw [← hdec]
    exact hkeys hok
  · intro props hprops
    have hget1 : (JsValue.object ((field.camelcase_name, .array []) :: props)).Get
        field.camelcase_name = .array [] := by
      simp [JsValue.Get, JsValue.lookup]
    have h := ToProto_empty_array host pool (pool.descriptor descriptor)
      (.object ((field.camelcase_name, .array []) :: props)) (.object props) pre post field
      hfields hrep (by rw [hget1]; rfl) (by rw [hget1]; rfl)
      (by simp [JsValue.Get, JsValue.lookup_of_not_mem _ _ hprops, JsValue.IsUndefined])
      (fun g hg => by
        simp [JsValue.Get, JsValue.lookup, Ne.symm (hdistinct g hg)])
    rw [encode_eq host codec pool descriptor _ (by rfl),
      encode_eq host codec pool descriptor _ (by rfl), h.1, h.2]

/-- Witness of C17: `Tags { repeated string tags }` with `{tags: []}` and `{}`. -/
theorem empty_sequence_as_absent_witness :
    encode exampleHost exampleCodec examplePool 2 (.object [("tags", .array [])]) =
      encode exampleHost exampleCodec examplePool 2 (.object []) :=
  (empty_sequence_as_absent exampleHost exampleCodec examplePool 2
    (.object [("tags", .array [])]) (.object []) [] []
    ⟨"tags", .CPPTYPE_STRING, false, true, 0, ⟨[]⟩⟩ rfl rfl (fun g hg => by simp at hg)
    rfl rfl rfl rfl (fun g hg => by simp at hg)).2.2.1

/-- Counterexample to C17 as stated: in
`Mix { repeated int32 foo_bar = 1; int32 fooBar = 2; }` both fields have the
host name `fooBar`.  The record `{fooBar: []}` gives the empty array to the
repeated field, which stays empty, and to the singular field, which stores its
32-bit integer conversion, 0; the record `{}` sets neither.  The two messages
differ, and the record made of the first has the key `fooBar`. -/
theorem empty_sequence_under_shared_name :
    ToProto exampleHost edgePool Mix (NewMessage Mix) (.object [("fooBar", .array [])]) =
      ⟨none, .mk [[], [.Int32 0]], []⟩ ∧
    ToProto exampleHost edgePool Mix (NewMessage Mix) (.object []) =
      ⟨none, .mk [[], []], []⟩ ∧
    (ToJs exampleHost edgePool Mix (.mk [[], [.Int32 0]])).value =
      .object [("fooBar", .number 0)] ∧
    (∀ codec : WireCodec,
      encode exampleHost codec edgePool 1 (.object [("fooBar", .array [])]) =
        .ok (codec.SerializeToArray 1 (.mk [[], [.Int32 0]])) ∧
      encode exampleHost codec edgePool 1 (.object []) =
        .ok (codec.SerializeToArray 1 (.mk [[], []]))) := by
  have hpool : edgePool.descriptor 1 = Mix := rfl
  have h1 : ToProto exampleHost edgePool Mix (NewMessage Mix)
      (.object [("fooBar", .array [])]) = ⟨none, .mk [[], [.Int32 0]], []⟩ := by
    simp [ToProto_eq, ToProtoFields_cons, ToProtoFields_nil, ToProtoField, ToProtoArray_nil,
      ToProtoValue_eq, scalarValue, Populated.andThen, JsValue.Get, JsValue.lookup,
      JsValue.IsUndefined, JsValue.IsNull, JsValue.IsArray, JsValue.elements, NewMessage,
      Descriptor.field_count, Mix, SET, Message.Set, Message.cells, Int32Value, exampleHost]
  have h2 : ToProto exampleHost edgePool Mix (NewMessage Mix) (.object []) =
      ⟨none, .mk [[], []], []⟩ := by
    simp [ToProto_eq, ToProtoFields_cons, ToProtoFields_nil, JsValue.Get, JsValue.lookup,
      JsValue.IsUndefined, NewMessage, Descriptor.field_count, Mix]
  refine ⟨h1, h2, rfl, ?_⟩
  intro codec
  constructor
  · rw [encode_eq _ _ _ _ _ (by rfl), hpool, h1]
  · rw [encode_eq _ _ _ _ _ (by rfl), hpool, h2]

/-! ## Encode reads the declared fields only -/

theorem SameRecord.IsObject_left {pool : DescriptorPool} {d : Descriptor} {r1 r2 : JsValue}
    (h : SameRecord pool d r1 r2) : r1.IsObject = true := by
  cases h; assumption

theorem SameRecord.IsObject_right {pool : DescriptorPool} {d : Descriptor} {r1 r2 : JsValue}
    (h : SameRecord pool d r1 r2) : r2.IsObject = true := by
  cases h; assumption

theorem SameRecord.fields {pool : DescriptorPool} {d : Descriptor} {r1 r2 : JsValue}
    (h : SameRecord pool d r1 r2) :
    ∀ f ∈ d.fields, SameValue pool f (r1.Get f.camelcase_name) (r2.Get f.camelcase_name) := by
  cases h; assumption

/-- The element loop gives the same on two sequences that agree element by
element, when the nested conversion does so on each element. -/
theorem ToProtoArray_same (host : Host) (pool : DescriptorPool) (f : FieldDescriptor)
    (hkind : f.cpp_type = .CPPTYPE_MESSAGE) (i : Nat) (xs ys : List JsValue)
    (h : SameList pool (pool.descriptor f.message_type) xs ys)
    (ih : ∀ x ∈ xs, ∀ y, SameRecord pool (pool.descriptor f.message_type) x y → ∀ m,
      ToProto host pool (pool.descriptor f.message_type) m x =
        ToProto host pool (pool.descriptor f.message_type) m y) (m : Message) :
    ToProtoArray host pool m i f xs = ToProtoArray host pool m i f ys := by
  induction xs generalizing ys m with
  | nil => cases h; rfl
  | cons x xs ihx =>
    cases h with
    | cons_same _ _ _ ys h =>
      rw [ToProtoArray_cons, ToProtoArray_cons]
      have hrest : ∀ m', ToProtoArray host pool m' i f xs = ToProtoArray host pool m' i f ys :=
        fun m' => ihx ys h (fun x' hx' => ih x' (List.mem_cons_of_mem _ hx')) m'
      simp only [hrest]
    | cons_nested _ _ y _ ys hx h =>
      rw [ToProtoArray_cons, ToProtoArray_cons]
      have hrest : ∀ m', ToProtoArray host pool m' i f xs = ToProtoArray host pool m' i f ys :=
        fun m' => ihx ys h (fun x' hx' => ih x' (List.mem_cons_of_mem _ hx')) m'
      have hhead : ToProtoValue host pool m i f x true = ToProtoValue host pool m i f y true := by
        rw [ToProtoValue_message host pool m i f x true hkind,
          ToProtoValue_message host pool m i f y true hkind, hx.IsObject_left, hx.IsObject_right,
          ih x (List.mem_cons_self _ _) y hx]
      simp only [hrest, hhead]

/-- The conversion gives the same, message, error and lookups, on two records
that agree on the declared fields. -/
theorem ToProto_same (host : Host) (pool : DescriptorPool) (n : Nat) :
    ∀ (d : Descriptor) (r1 r2 : JsValue), r1.size ≤ n → SameRecord pool d r1 r2 →
      ∀ m, ToProto host pool d m r1 = ToProto host pool d m r2 := by
  induction n with
  | zero =>
    intro d r1 r2 hn
    cases r1 <;> simp [JsValue.size] at hn
  | succ n ihn =>
    intro d r1 r2 hn h m
    rw [ToProto_eq, ToProto_eq]
    have hloop : ∀ (fs : List FieldDescriptor), (∀ f ∈ fs, f ∈ d.fields) → ∀ m i,
        ToProtoFields host pool m i fs r1 = ToProtoFields host pool m i fs r2 := by
      intro fs
      induction fs with
      | nil => intro _ m i; rw [ToProtoFields_nil, ToProtoFields_nil]
      | cons f fs ihf =>
        intro hsub m i
        have hrest : ∀ m' i', ToProtoFields host pool m' i' fs r1 =
            ToProtoFields host pool m' i' fs r2 :=
          ihf (fun g hg => hsub g (List.mem_cons_of_mem _ hg))
        have hv := h.fields f (hsub f (List.mem_cons_self _ _))
        obtain ⟨v1, h1⟩ : ∃ v, v = r1.Get f.camelcase_name := ⟨_, rfl⟩
        obtain ⟨v2, h2⟩ : ∃ v, v = r2.Get f.camelcase_name := ⟨_, rfl⟩
        rw [ToProtoFields_cons, ToProtoFields_cons, ← h1, ← h2]
        rw [← h1, ← h2] at hv
        cases hv with
        | same => simp only [hrest]
        | nested _ _ _ hkind hsingular hrec =>
          have hp1 := JsValue.present_of_IsObject v1 hrec.IsObject_left
          have hp2 := JsValue.present_of_IsObject v2 hrec.IsObject_right
          have hlt : v1.size < r1.size := by
            rw [h1]
            apply JsValue.size_Get_lt
            rw [← h1, hp1]
            simp
          have hfield : ToProtoField host pool m i f v1 = ToProtoField host pool m i f v2 := by
            simp only [ToProtoField, hsingular, Bool.false_eq_true, if_false]
            rw [ToProtoValue_message host pool m i f v1 false hkind,
              ToProtoValue_message host pool m i f v2 false hkind, hrec.IsObject_left,
              hrec.IsObject_right, ihn _ v1 v2 (by omega) hrec]
          simp only [hp1, hp2, Bool.false_eq_true, if_false, hrest, hfield]
        | elements _ xs ys hkind hrepeated hlist =>
          have hlt : (JsValue.array xs).size < r1.size := by
            rw [h1]
            apply JsValue.size_Get_lt
            rw [← h1]
            simp [JsValue.IsUndefined, JsValue.IsNull]
          have hfield : ToProtoField host pool m i f (.array xs) =
              ToProtoField host pool m i f (.array ys) := by
            simp only [ToProtoField, hrepeated, if_true, JsValue.IsArray, JsValue.elements]
            rw [ToProtoArray_same host pool f hkind i xs ys hlist]
            intro x hx y hxy m'
            have h3 := JsValue.size_lt_sizeList x xs hx
            simp only [JsValue.size] at hlt
            exact ihn _ x y (by omega) hxy m'
          have hp : ∀ zs : List JsValue,
              ((JsValue.array zs).IsUndefined || (JsValue.array zs).IsNull) = false :=
            fun _ => rfl
          simp only [hp, Bool.false_eq_true, if_false, hrest, hfield]
    exact hloop d.fields (fun _ hf => hf) m 0

theorem JsValue.lookup_append_cons (name k : String) (v : JsValue)
    (pre post : List (String × JsValue)) (h : name ≠ k) :
    JsValue.lookup name (pre ++ (k, v) :: post) = JsValue.lookup name (pre ++ post) := by
  induction pre with
  | nil => simp [JsValue.lookup, Ne.symm h]
  | cons p pre ih =>
    obtain ⟨k', v'⟩ := p
    show (if k' = name then v' else JsValue.lookup name (pre ++ (k, v) :: post)) =
      (if k' = name then v' else JsValue.lookup name (pre ++ post))
    rw [ih]

/-- C20 (encode depends on the declared fields only).  Two records that hold the
same at every host name the descriptor declares, recursively for the values of
message-kind fields and for the elements of repeated message-kind fields, and
differ freely in their other keys, are converted to the same result, message
and error alike, so `encode` returns the same bytes or throws the same error
for both; and a property whose key names no declared field, wherever it stands
in the record, changes nothing of what `encode` returns. -/
theorem encode_reads_declared_fields (host : Host) (codec : WireCodec) (pool : DescriptorPool)
    (descriptor : Nat) (r1 r2 : JsValue)
    (h : SameRecord pool (pool.descriptor descriptor) r1 r2) :
    ToProto host pool (pool.descriptor descriptor) (NewMessage (pool.descriptor descriptor)) r1 =
      ToProto host pool (pool.descriptor descriptor) (NewMessage (pool.descriptor descriptor))
        r2 ∧
    encode host codec pool descriptor r1 = encode host codec pool descriptor r2 ∧
    ∀ (k : String) (v : JsValue) (pre post : List (String × JsValue)),
      (∀ f ∈ (pool.descriptor descriptor).fields, f.camelcase_name ≠ k) →
      encode host codec pool descriptor (.object (pre ++ (k, v) :: post)) =
        encode host codec pool descriptor (.object (pre ++ post)) := by
  have hmain : ∀ (r1 r2 : JsValue), SameRecord pool (pool.descriptor descriptor) r1 r2 →
      ToProto host pool (pool.descriptor descriptor) (NewMessage (pool.descriptor descriptor))
        r1 =
      ToProto host pool (pool.descriptor descriptor) (NewMessage (pool.descriptor descriptor))
        r2 ∧
      encode host codec pool descriptor r1 = encode host codec pool descriptor r2 := by
    intro r1 r2 h
    have heq := ToProto_same host pool r1.size _ r1 r2 (Nat.le_refl _) h
      (NewMessage (pool.descriptor descriptor))
    refine ⟨heq, ?_⟩
    rw [encode_eq host codec pool descriptor r1 h.IsObject_left,
      encode_eq host codec pool descriptor r2 h.IsObject_right, heq]
  refine ⟨(hmain r1 r2 h).1, (hmain r1 r2 h).2, ?_⟩
  intro k v pre post hk
  refine (hmain _ _ (SameRecord.mk _ (.object (pre ++ (k, v) :: post)) (.object (pre ++ post))
    rfl rfl ?_)).2
  intro f hf
  have hget : (JsValue.object (pre ++ (k, v) :: post)).Get f.camelcase_name =
      (JsValue.object (pre ++ post)).Get f.camelcase_name := by
    simp only [JsValue.Get]
    exact JsValue.lookup_append_cons _ _ _ _ _ (hk f hf)
  rw [hget]
  exact SameValue.same _ _

/-- Witness of C20: `Can { Paint inner }` with an undeclared key at the top and
one inside the nested record. -/
theorem encode_reads_declared_fields_witness :
    encode exampleHost exampleCodec examplePool 4
        (.object [("extra", .number 2),
          ("inner", .object [("color", .string "RED"), ("junk", .number 1)])]) =
      encode exampleHost exampleCodec examplePool 4
        (.object [("inner", .object [("color", .string "RED")])]) :=
  (encode_reads_declared_fields exampleHost exampleCodec examplePool 4
    (.object [("extra", .number 2),
      ("inner", .object [("color", .string "RED"), ("junk", .number 1)])])
    (.object [("inner", .object [("color", .string "RED")])])
    (SameRecord.mk _ _ _ rfl rfl (fun f hf => by
      have hf' : f = ⟨"inner", .CPPTYPE_MESSAGE, false, false, 3, ⟨[]⟩⟩ := by
        simpa [examplePool, Can] using hf
      subst hf'
      refine SameValue.nested _ _ _ rfl rfl (SameRecord.mk _ _ _ ?_ ?_ ?_)
      · simp [JsValue.Get, JsValue.lookup, JsValue.IsObject]
      · simp [JsValue.Get, JsValue.lookup, JsValue.IsObject]
      · intro g hg
        have hg' : g = ⟨"color", .CPPTYPE_ENUM, false, false, 0, Color⟩ := by
          simpa [examplePool, Paint] using hg
        subst hg'
        have hget : ((JsValue.object [("extra", .number 2),
            ("inner", .object [("color", .string "RED"), ("junk", .number 1)])]).Get
              "inner").Get "color" =
            ((JsValue.object [("inner", .object [("color", .string "RED")])]).Get
              "inner").Get "color" := by
          simp [JsValue.Get, JsValue.lookup]
        exact hget ▸ SameValue.same _ _))).2.1

/-! ## The elements of a repeated field -/

/-- When the element loop returns no error, it has appended one value for
each element to the cell of the field. -/
theorem ToProtoArray_count (host : Host) (pool : DescriptorPool) (f : FieldDescriptor)
    (elems : List JsValue) (pre post : List (List FieldValue)) (m : Message)
    (c : List FieldValue) (h : m.cells = pre ++ c :: post)
    (hok : (ToProtoArray host pool m pre.length f elems).error = none) :
    ∃ ws, ws.length = elems.length ∧
      (ToProtoArray host pool m pre.length f elems).message.cells = pre ++ (c ++ ws) :: post := by
  induction elems generalizing m c with
  | nil => exact ⟨[], rfl, by rw [ToProtoArray_nil]; simpa using h⟩
  | cons x xs ih =>
    rw [ToProtoArray_cons] at hok ⊢
    rcases ToProtoValue_message_eq host pool m pre.length f x true with
      ⟨e, he, _⟩ | ⟨w, he, hm⟩
    · rw [Populated.andThen_error _ he, he] at hok
      cases hok
    · rw [Populated.andThen_ok _ he] at hok ⊢
      have h1 : (ToProtoValue host pool m pre.length f x true).message.cells =
          pre ++ (c ++ [w]) :: post := by
        rw [hm]
        simp only [SET, if_true]
        exact Message.Add_cells m pre post c w h
      obtain ⟨ws, hl, hc⟩ := ih _ _ h1 hok
      refine ⟨w :: ws, by simp [hl], ?_⟩
      show (ToProtoArray host pool (ToProtoValue host pool m pre.length f x true).message
        pre.length f xs).message.cells = _
      rw [hc]
      simp

theorem ToProtoField_array (host : Host) (pool : DescriptorPool) (m : Message) (i : Nat)
    (f : FieldDescriptor) (xs : List JsValue) (hrep : f.is_repeated = true) :
    ToProtoField host pool m i f (.array xs) =
      ⟨(ToProtoArray host pool m i f xs).error, (ToProtoArray host pool m i f xs).message,
        (if f.cpp_type = .CPPTYPE_MESSAGE then [f.message_type] else []) ++
          (ToProtoArray host pool m i f xs).lookups⟩ := by
  simp only [ToProtoField, hrep, if_true, JsValue.IsArray, JsValue.elements]

/-- The conversion of an element that is `null` or `undefined`. -/
theorem ToProtoValue_null_element (host : Host) (pool : DescriptorPool) (m : Message) (i : Nat)
    (f : FieldDescriptor) (v : JsValue) (hv : (v.IsUndefined || v.IsNull) = true) :
    (f.cpp_type = .CPPTYPE_MESSAGE →
      ToProtoValue host pool m i f v true = ⟨some E_NO_OBJECT, m, []⟩) ∧
    (f.cpp_type = .CPPTYPE_ENUM →
      ToProtoValue host pool m i f v true =
        match f.enum_type.FindValueByName (host.AsciiValue v) with
        | none => ⟨some E_UNKNOWN_ENUM, m, []⟩
        | some enum_value => ⟨none, m.Add i (.Enum enum_value), []⟩) ∧
    (f.cpp_type ≠ .CPPTYPE_MESSAGE → f.cpp_type ≠ .CPPTYPE_ENUM →
      ToProtoValue host pool m i f v true = ⟨none, m.Add i (scalarValue host f v), []⟩) := by
  have hobj : v.IsObject = false := by
    cases v <;> simp_all [JsValue.IsObject, JsValue.IsUndefined, JsValue.IsNull]
  have hnum : v.IsNumber = false := by
    cases v <;> simp_all [JsValue.IsNumber, JsValue.IsUndefined, JsValue.IsNull]
  refine ⟨fun hf => ToProtoValue_not_object host pool m i f v true hf hobj, ?_, ?_⟩
  · intro hf
    rw [ToProtoValue_enum host pool m i f v true hf]
    simp only [hnum, Bool.false_eq_true, if_false, SET, if_true]
  · intro hm he
    rw [ToProtoValue_scalar host pool m i f v true hm he]
    simp only [SET, if_true]

/-- C18 (the elements of a repeated field are never skipped).  Let `field` be a
repeated field of the descriptor whose value in the record is the sequence
`xs`.  (1) The conversion of the field is the loop over all the elements of
`xs` in order, whatever they are.  (2) An element `v` that is `null` or
`undefined` is converted as any other: for a message-kind field it returns
`Not an object`; for an enum-kind field it is resolved by the name
`AsciiValue(v)`, returns `Unknown enum value` when the enum declares no value
of that name, and appends the value of that name otherwise; for every other
kind the coerced value is appended.  (3) When the fields before `field` and the
elements before `v` convert without error, the conversion of the record
returns `Not an object` for a message-kind field, and `Unknown enum value` for
an enum-kind field whose enum declares no value named `AsciiValue(v)`.
(4) When the conversion of the record returns no error, the number of elements
stored in the field is the length of `xs`. -/
theorem elements_are_never_skipped (host : Host) (pool : DescriptorPool)
    (descriptor : Descriptor) (record : JsValue) (pre post : List FieldDescriptor)
    (field : FieldDescriptor) (xs : List JsValue)
    (hfields : descriptor.fields = pre ++ field :: post)
    (hrep : field.is_repeated = true)
    (hvalue : record.Get field.camelcase_name = .array xs) :
    (∀ (m : Message) (i : Nat),
      ToProtoField host pool m i field (record.Get field.camelcase_name) =
        ⟨(ToProtoArray host pool m i field xs).error,
          (ToProtoArray host pool m i field xs).message,
          (if field.cpp_type = .CPPTYPE_MESSAGE then [field.message_type] else []) ++
            (ToProtoArray host pool m i field xs).lookups⟩) ∧
    (∀ (m : Message) (i : Nat) (v : JsValue), (v.IsUndefined || v.IsNull) = true →
      (field.cpp_type = .CPPTYPE_MESSAGE →
        ToProtoValue host pool m i field v true = ⟨some E_NO_OBJECT, m, []⟩) ∧
      (field.cpp_type = .CPPTYPE_ENUM →
        ToProtoValue host pool m i field v true =
          match field.enum_type.FindValueByName (host.AsciiValue v) with
          | none => ⟨some E_UNKNOWN_ENUM, m, []⟩
          | some enum_value => ⟨none, m.Add i (.Enum enum_value), []⟩) ∧
      (field.cpp_type ≠ .CPPTYPE_MESSAGE → field.cpp_type ≠ .CPPTYPE_ENUM →
        ToProtoValue host pool m i field v true =
          ⟨none, m.Add i (scalarValue host field v), []⟩)) ∧
    (∀ (ys zs : List JsValue) (v : JsValue), xs = ys ++ v :: zs →
      (v.IsUndefined || v.IsNull) = true →
      (ToProtoFields host pool (NewMessage descriptor) 0 pre record).error = none →
      (ToProtoArray host pool (ToProtoFields host pool (NewMessage descriptor) 0 pre
        record).message pre.length field ys).error = none →
      (field.cpp_type = .CPPTYPE_MESSAGE →
        (ToProto host pool descriptor (NewMessage descriptor) record).error =
          some E_NO_OBJECT) ∧
      (field.cpp_type = .CPPTYPE_ENUM →
        field.enum_type.FindValueByName (host.AsciiValue v) = none →
        (ToProto host pool descriptor (NewMessage descriptor) record).error =
          some E_UNKNOWN_ENUM)) ∧
    ((ToProto host pool descriptor (NewMessage descriptor) record).error = none →
      ((ToProto host pool descriptor (NewMessage descriptor) record).message.cell
        pre.length).length = xs.length) := by
  have hpresent : ((record.Get field.camelcase_name).IsUndefined ||
      (record.Get field.camelcase_name).IsNull) = false := by rw [hvalue]; rfl
  refine ⟨?_, ?_, ?_, ?_⟩
  · intro m i
    rw [hvalue]
    exact ToProtoField_array host pool m i field xs hrep
  · intro m i v hv
    exact ToProtoValue_null_element host pool m i field v hv
  · intro ys zs v hxs hv hpre hys
    have hfail : ∀ e : String,
        (ToProtoValue host pool (ToProtoArray host pool (ToProtoFields host pool
          (NewMessage descriptor) 0 pre record).message pre.length field ys).message pre.length
          field v true).error = some e →
        (ToProto host pool descriptor (NewMessage descriptor) record).error = some e := by
      intro e he
      have hfield : (ToProtoField host pool (ToProtoFields host pool (NewMessage descriptor) 0
          pre record).message pre.length field (record.Get field.camelcase_name)).error =
          some e := by
        rw [hvalue, ToProtoField_array _ _ _ _ _ _ hrep, hxs,
          ToProtoArray_first_error host pool _ _ field ys zs v e hys he]
      rw [ToProto_eq, hfields, ToProtoFields_append, Populated.andThen_ok _ hpre,
        ToProtoFields_cons]
      simp only [hpresent, Bool.false_eq_true, if_false, Nat.zero_add]
      rw [Populated.andThen_error _ hfield]
      exact hfield
    constructor
    · intro hf
      apply hfail
      rw [(ToProtoValue_null_element host pool _ _ field v hv).1 hf]
    · intro hf hnone
      apply hfail
      rw [(ToProtoValue_null_element host pool _ _ field v hv).2.1 hf, hnone]
  · intro hok
    obtain ⟨mid, rest, hmid, hcells, _, hconv⟩ := ToProto_cell_at host pool descriptor record
      pre post field hfields hok
    obtain ⟨herr, hcell⟩ := hconv hpresent
    rw [hcell]
    rw [hvalue, ToProtoField_array _ _ _ _ _ _ hrep] at herr ⊢
    rw [← hmid] at herr ⊢
    obtain ⟨ws, hl, hc⟩ := ToProtoArray_count host pool field xs mid rest _ [] hcells herr
    have hc' : (Populated.mk
        (ToProtoArray host pool (ToProtoFields host pool (NewMessage descriptor) 0 pre
          record).message mid.length field xs).error
        (ToProtoArray host pool (ToProtoFields host pool (NewMessage descriptor) 0 pre
          record).message mid.length field xs).message
        ((if field.cpp_type = .CPPTYPE_MESSAGE then [field.message_type] else []) ++
          (ToProtoArray host pool (ToProtoFields host pool (NewMessage descriptor) 0 pre
            record).message mid.length field xs).lookups)).message.cells =
        mid ++ ([] ++ ws) :: rest := hc
    rw [Message.cell_of_cells _ _ _ _ hc']
    simpa using hl

/-- Witness of C18: `Box { repeated Paint items }` and the record
`{items: [null]}`: the element is converted and is not an object. -/
theorem elements_are_never_skipped_witness :
    ToProtoValue exampleHost morePool (NewMessage Box) 0
        ⟨"items", .CPPTYPE_MESSAGE, false, true, 3, ⟨[]⟩⟩ .null true =
      ⟨some E_NO_OBJECT, NewMessage Box, []⟩ :=
  ((elements_are_never_skipped exampleHost morePool Box (.object [("items", .array [.null])])
    [] [] ⟨"items", .CPPTYPE_MESSAGE, false, true, 3, ⟨[]⟩⟩ [.null] rfl rfl rfl).2.1
    (NewMessage Box) 0 .null rfl).1 rfl

/-- Counterexample to C18 as stated: the enum `Nil { null = 0; }`, the message
`Marks { repeated Nil marks }` and the record `{marks: [null]}` on a host whose
text of `null` is `null`.  The element is not a number, so it is looked up by
name and found: the conversion returns no error and stores the value, and
`encode` returns bytes instead of throwing `Unknown enum value`. -/
theorem null_element_of_enum_kind :
    ToProto textHost morePool Marks (NewMessage Marks) (.object [("marks", .array [.null])]) =
      ⟨none, .mk [[.Enum ⟨"null", 0⟩]], []⟩ ∧
    ∀ codec : WireCodec,
      encode textHost codec morePool 4 (.object [("marks", .array [.null])]) =
        .ok (codec.SerializeToArray 4 (.mk [[.Enum ⟨"null", 0⟩]])) := by
  have hpool : morePool.descriptor 4 = Marks := rfl
  have h1 : ToProto textHost morePool Marks (NewMessage Marks)
      (.object [("marks", .array [.null])]) = ⟨none, .mk [[.Enum ⟨"null", 0⟩]], []⟩ := by
    simp [ToProto_eq, ToProtoFields_cons, ToProtoFields_nil, ToProtoField, ToProtoArray_cons,
      ToProtoArray_nil, ToProtoValue_eq, Populated.andThen, JsValue.Get, JsValue.lookup,
      JsValue.IsUndefined, JsValue.IsNull, JsValue.IsArray, JsValue.elements, JsValue.IsNumber,
      textHost, EnumDescriptor.FindValueByName, Nil, Marks, NewMessage, Descriptor.field_count,
      SET, Message.Add, Message.cell, Message.cells]
  refine ⟨h1, ?_⟩
  intro codec
  rw [encode_eq _ _ _ _ _ (by rfl), hpool, h1]

/-! ## Lazy construction of the types -/

theorem Schema.GetType_keys (s : Schema) (d k : Nat)
    (h : k ∈ (s.GetType d).2.types_.map Prod.fst) : k = d ∨ k ∈ s.types_.map Prod.fst := by
  unfold Schema.GetType at h
  split at h
  · exact Or.inr h
  · simpa using h

theorem Schema.GetTypes_keys (s : Schema) (ds : List Nat) (k : Nat)
    (h : k ∈ (s.GetTypes ds).types_.map Prod.fst) : k ∈ s.types_.map Prod.fst ∨ k ∈ ds := by
  induction ds generalizing s with
  | nil => exact Or.inl h
  | cons d ds ih =>
    rw [Schema.GetTypes_cons] at h
    rcases ih _ h with h | h
    · rcases Schema.GetType_keys s d k h with h | h
      · exact Or.inr (by simp [h])
      · exact Or.inl h
    · exact Or.inr (List.mem_cons_of_mem _ h)

theorem mem_child_type (f : FieldDescriptor) (t : Nat)
    (h : t ∈ (if f.cpp_type = .CPPTYPE_MESSAGE then [f.message_type] else [])) :
    f.cpp_type = .CPPTYPE_MESSAGE ∧ t = f.message_type := by
  split at h
  · rename_i hk
    exact ⟨hk, by simpa using h⟩
  · simp at h

theorem Populated.andThen_lookups (first : Populated) (rest : Message → Populated) (t : Nat)
    (h : t ∈ (first.andThen rest).lookups) :
    t ∈ first.lookups ∨ t ∈ (rest first.message).lookups := by
  cases he : first.error with
  | some e =>
    rw [Populated.andThen_error _ he] at h
    exact Or.inl h
  | none =>
    rw [Populated.andThen_ok _ he] at h
    simpa using h

theorem ToProtoValue_lookups (host : Host) (pool : DescriptorPool) (m : Message) (i : Nat)
    (f : FieldDescriptor) (v : JsValue) (repeated : Bool) (t : Nat)
    (h : t ∈ (ToProtoValue host pool m i f v repeated).lookups) :
    f.cpp_type = .CPPTYPE_MESSAGE ∧ v.IsObject = true ∧
      t ∈ (ToProto host pool (pool.descriptor f.message_type)
        (SubMessage pool m i f repeated) v).lookups := by
  revert h
  rw [ToProtoValue_eq]
  cases hc : f.cpp_type <;> dsimp only <;> intro h
  case CPPTYPE_MESSAGE =>
    split at h
    · rename_i hobj
      exact ⟨rfl, hobj, h⟩
    · simp at h
  case CPPTYPE_ENUM => split at h <;> simp at h
  all_goals simp at h

theorem ToProtoArray_lookups (host : Host) (pool : DescriptorPool) (m : Message) (i : Nat)
    (f : FieldDescriptor) (xs : List JsValue) (t : Nat)
    (h : t ∈ (ToProtoArray host pool m i f xs).lookups) :
    ∃ x ∈ xs, ∃ m', t ∈ (ToProtoValue host pool m' i f x true).lookups := by
  induction xs generalizing m with
  | nil => rw [ToProtoArray_nil] at h; simp at h
  | cons x xs ih =>
    rw [ToProtoArray_cons] at h
    rcases Populated.andThen_lookups _ _ t h with h | h
    · exact ⟨x, List.mem_cons_self _ _, m, h⟩
    · obtain ⟨y, hy, m', hm'⟩ := ih _ h
      exact ⟨y, List.mem_cons_of_mem _ hy, m', hm'⟩

theorem ToProtoField_lookups (host : Host) (pool : DescriptorPool) (m : Message) (i : Nat)
    (f : FieldDescriptor) (v : JsValue) (t : Nat)
    (h : t ∈ (ToProtoField host pool m i f v).lookups) :
    (f.cpp_type = .CPPTYPE_MESSAGE ∧ t = f.message_type) ∨
    (f.is_repeated = true ∧ v.IsArray = true ∧
      t ∈ (ToProtoArray host pool m i f v.elements).lookups) ∨
    (f.is_repeated = false ∧ t ∈ (ToProtoValue host pool m i f v false).lookups) := by
  simp only [ToProtoField, List.mem_append] at h
  rcases h with h | h
  · exact Or.inl (mem_child_type f t h)
  · cases hrep : f.is_repeated with
    | false =>
      simp only [hrep, Bool.false_eq_true, if_false] at h
      exact Or.inr (Or.inr ⟨rfl, h⟩)
    | true =>
      simp only [hrep, if_true] at h
      cases harr : v.IsArray with
      | false => simp [harr] at h
      | true =>
        simp only [harr, if_true] at h
        exact Or.inr (Or.inl ⟨rfl, rfl, h⟩)

theorem ToProtoFields_lookups (host : Host) (pool : DescriptorPool) (src : JsValue)
    (fs : List FieldDescriptor) (m : Message) (i : Nat) (t : Nat)
    (h : t ∈ (ToProtoFields host pool m i fs src).lookups) :
    ∃ f ∈ fs, ((src.Get f.camelcase_name).IsUndefined ||
        (src.Get f.camelcase_name).IsNull) = false ∧
      ∃ m' i', t ∈ (ToProtoField host pool m' i' f (src.Get f.camelcase_name)).lookups := by
  induction fs generalizing m i with
  | nil => rw [ToProtoFields_nil] at h; simp at h
  | cons f fs ih =>
    rw [ToProtoFields_cons] at h
    split at h
    · obtain ⟨g, hg, hp, hrest⟩ := ih _ _ h
      exact ⟨g, List.mem_cons_of_mem _ hg, hp, hrest⟩
    · rename_i hp
      rcases Populated.andThen_lookups _ _ t h with h | h
      · exact ⟨f, List.mem_cons_self _ _, by simpa using hp, m, i, h⟩
      · obtain ⟨g, hg, hp', hrest⟩ := ih _ _ h
        exact ⟨g, List.mem_cons_of_mem _ hg, hp', hrest⟩

/-- Every type the conversion of a record asks the schema for is requested by
a present message-kind field, of the record or of a nested record. -/
theorem ToProto_lookups (host : Host) (pool : DescriptorPool) (n : Nat) :
    ∀ (d : Descriptor) (m : Message) (src : JsValue) (t : Nat), src.size ≤ n →
      t ∈ (ToProto host pool d m src).lookups → Requested pool d src t := by
  induction n with
  | zero =>
    intro d m src t hn
    cases src <;> simp [JsValue.size] at hn
  | succ n ih =>
    intro d m src t hn h
    rw [ToProto_eq] at h
    obtain ⟨f, hf, hp, m', i', h'⟩ := ToProtoFields_lookups host pool src d.fields m 0 t h
    have hlt : (src.Get f.camelcase_name).size < src.size :=
      JsValue.size_Get_lt src f.camelcase_name (by simp [hp])
    rcases ToProtoField_lookups host pool m' i' f _ t h' with
      ⟨hk, ht⟩ | ⟨hrep, harr, ha⟩ | ⟨hrep, hv⟩
    · rw [ht]
      exact Requested.field d src f hf hk hp
    · obtain ⟨x, hx, m'', hx'⟩ := ToProtoArray_lookups host pool m' i' f _ t ha
      obtain ⟨hk, hobj, hsub⟩ := ToProtoValue_lookups host pool m'' i' f x true t hx'
      have h1 := JsValue.size_lt_sizeList x _ hx
      have h2 := JsValue.sizeList_elements_lt (src.Get f.camelcase_name)
      exact Requested.element d src f x t hf hk hrep harr hx hobj
        (ih _ _ x t (by omega) hsub)
    · obtain ⟨hk, hobj, hsub⟩ := ToProtoValue_lookups host pool m' i' f _ false t hv
      exact Requested.nested d src f t hf hk hrep hobj (ih _ _ _ t (by omega) hsub)

theorem ToJsValue_lookups (host : Host) (pool : DescriptorPool) (f : FieldDescriptor)
    (v : FieldValue) (t : Nat) (h : t ∈ (ToJsValue host pool f v).lookups) :
    f.cpp_type = .CPPTYPE_MESSAGE ∧ ∃ sub, v = .Message sub ∧
      t ∈ (ToJs host pool (pool.descriptor f.message_type) sub).lookups := by
  revert h
  rw [ToJsValue_eq]
  cases hc : f.cpp_type <;> dsimp only <;> intro h
  case CPPTYPE_MESSAGE =>
    cases v with
    | Message sub => exact ⟨rfl, sub, rfl, h⟩
    | _ => simp at h
  case CPPTYPE_STRING => split at h <;> simp at h
  all_goals simp at h

theorem ToJsArray_lookups (host : Host) (pool : DescriptorPool) (f : FieldDescriptor)
    (xs : List FieldValue) (t : Nat) (h : t ∈ (ToJsArray host pool f xs).2) :
    ∃ x ∈ xs, t ∈ (ToJsValue host pool f x).lookups := by
  induction xs with
  | nil => simp [ToJsArray] at h
  | cons x xs ih =>
    simp only [ToJsArray, List.mem_append] at h
    rcases h with h | h
    · exact ⟨x, List.mem_cons_self _ _, h⟩
    · obtain ⟨y, hy, hy'⟩ := ih h
      exact ⟨y, List.mem_cons_of_mem _ hy, hy'⟩

theorem ToJsFields_lookups (host : Host) (pool : DescriptorPool) (fs : List FieldDescriptor)
    (cells : List (List FieldValue)) (t : Nat) (h : t ∈ (ToJsFields host pool fs cells).2) :
    ∃ (i : Nat) (f : FieldDescriptor), fs[i]? = some f ∧ cells.getD i [] ≠ [] ∧
      ((f.cpp_type = .CPPTYPE_MESSAGE ∧ t = f.message_type) ∨
        ∃ x ∈ cells.getD i [], t ∈ (ToJsValue host pool f x).lookups) := by
  induction fs generalizing cells with
  | nil => simp [ToJsFields] at h
  | cons f fs ih =>
    cases cells with
    | nil =>
      rw [ToJsFields.eq_def] at h
      simp at h
    | cons cell cells =>
      have hshift : t ∈ (ToJsFields host pool fs cells).2 →
          ∃ (i : Nat) (g : FieldDescriptor), (f :: fs)[i]? = some g ∧
            (cell :: cells).getD i [] ≠ [] ∧
            ((g.cpp_type = .CPPTYPE_MESSAGE ∧ t = g.message_type) ∨
              ∃ x ∈ (cell :: cells).getD i [], t ∈ (ToJsValue host pool g x).lookups) := by
        intro h
        obtain ⟨i, g, h1, h2, h3⟩ := ih cells h
        exact ⟨i + 1, g, by simpa using h1, by simpa using h2, by simpa using h3⟩
      rw [ToJsFields.eq_def] at h
      cases cell with
      | nil => exact hshift (by simpa using h)
      | cons x xs =>
        dsimp only at h
        split at h
        · simp only [List.mem_append] at h
          rcases h with (h | h) | h
          · exact ⟨0, f, List.getElem?_cons_zero, by simp, Or.inl (mem_child_type f t h)⟩
          · exact ⟨0, f, List.getElem?_cons_zero, by simp,
              Or.inr (by simpa using ToJsArray_lookups host pool f (x :: xs) t h)⟩
          · exact hshift h
        · simp only [List.mem_append] at h
          rcases h with (h | h) | h
          · exact ⟨0, f, List.getElem?_cons_zero, by simp, Or.inl (mem_child_type f t h)⟩
          · exact ⟨0, f, List.getElem?_cons_zero, by simp, Or.inr ⟨x, by simp, h⟩⟩
          · exact hshift h

theorem Message.sizeOf_sub_lt (cells : List (List FieldValue)) (i : Nat) (sub : Message)
    (h : FieldValue.Message sub ∈ cells.getD i []) : sizeOf sub < sizeOf (Message.mk cells) := by
  have hcell : cells.getD i [] ∈ cells := by
    rw [List.getD_eq_getElem?_getD] at h ⊢
    cases hi : cells[i]? with
    | none => rw [hi] at h; simp at h
    | some c => simpa using List.getElem?_mem hi
  have h1 := List.sizeOf_lt_of_mem h
  have h2 := List.sizeOf_lt_of_mem hcell
  simp only [FieldValue.Message.sizeOf_spec, Message.mk.sizeOf_spec] at h1 ⊢
  omega

/-- Every type the conversion of a message asks the schema for is requested by
a message-kind field that is set or not empty, of the message or of a stored
sub-message. -/
theorem ToJs_lookups (host : Host) (pool : DescriptorPool) (n : Nat) :
    ∀ (d : Descriptor) (m : Message) (t : Nat), sizeOf m ≤ n →
      t ∈ (ToJs host pool d m).lookups → RequestedJs pool d m t := by
  induction n with
  | zero =>
    intro d m t hn
    cases m with
    | mk cells => simp at hn
  | succ n ih =>
    intro d m t hn h
    cases m with
    | mk cells =>
      rw [ToJs_mk] at h
      obtain ⟨i, f, hf, hset, hcase⟩ := ToJsFields_lookups host pool d.fields cells t h
      rcases hcase with ⟨hk, ht⟩ | ⟨x, hx, hx'⟩
      · rw [ht]
        exact RequestedJs.field d _ i f hf hk hset
      · obtain ⟨hk, sub, hsub, hsub'⟩ := ToJsValue_lookups host pool f x t hx'
        rw [hsub] at hx
        have hlt := Message.sizeOf_sub_lt cells i sub hx
        exact RequestedJs.nested d _ i f sub t hf hk hx (ih _ sub t (by omega) hsub')

/-- C12, amended (lazy construction of the types).  (1) For every schema,
whatever its pool and its cache, and every descriptor not yet cached, `GetType`
returns, and the schema it leaves differs by exactly one cache entry and one
`Type`, those of the descriptor: none is made for a nested message type, also
when the descriptor refers to itself or to a type that refers back to it.
(2) A descriptor that is cached after a `serialize` call was cached before
it, or it is the type of a message-kind field whose value, in the record or in
a nested record being converted, is neither `undefined` nor `null`.  (3) A
descriptor that is cached after a `parse` call was cached before it, or the
bytes were parsed and it is the type of a message-kind field that is set or not
empty, in the message or in a stored sub-message being converted. -/
theorem lazy_adapter_construction (host : Host) (codec : WireCodec) (schema : Schema)
    (descriptor : Nat) (hnew : schema.types_.lookup descriptor = none) :
    schema.GetType descriptor =
      (schema.types.length,
        ⟨schema.pool_, (descriptor, schema.types.length) :: schema.types_,
          schema.types ++ [⟨descriptor⟩]⟩) ∧
    (∀ (type : SchemaType) (arg0 : JsValue) (t : Nat),
      t ∈ (Serialize host codec schema type arg0).2.types_.map Prod.fst →
      t ∈ schema.types_.map Prod.fst ∨
        Requested schema.pool_ (schema.pool_.descriptor type.descriptor_) arg0 t) ∧
    (∀ (type : SchemaType) (arg0 : JsValue) (t : Nat),
      t ∈ (Parse host codec schema type arg0).2.types_.map Prod.fst →
      t ∈ schema.types_.map Prod.fst ∨
        ∃ message, arg0.IsBuffer = true ∧
          codec.ParseFromArray type.descriptor_ arg0.bufferData = some message ∧
          RequestedJs schema.pool_ (schema.pool_.descriptor type.descriptor_) message t) := by
  refine ⟨?_, ?_, ?_⟩
  · unfold Schema.GetType
    rw [hnew]
  · intro type arg0 t h
    unfold Serialize at h
    split at h
    · have hkeys : t ∈ (schema.GetTypes (ToProto host schema.pool_
          (schema.pool_.descriptor type.descriptor_)
          (NewMessage (schema.pool_.descriptor type.descriptor_)) arg0).lookups).types_.map
            Prod.fst := by
        dsimp only at h
        split at h <;> exact h
      rcases Schema.GetTypes_keys _ _ _ hkeys with h | h
      · exact Or.inl h
      · exact Or.inr (ToProto_lookups host schema.pool_ arg0.size _ _ arg0 t (Nat.le_refl _) h)
    · exact Or.inl h
  · intro type arg0 t h
    unfold Parse at h
    split at h
    · rename_i hbuf
      cases hparse : codec.ParseFromArray type.descriptor_ arg0.bufferData with
      | none =>
        rw [hparse] at h
        exact Or.inl h
      | some message =>
        rw [hparse] at h
        dsimp only at h
        rcases Schema.GetTypes_keys _ _ _ h with h | h
        · exact Or.inl h
        · exact Or.inr ⟨message, hbuf, rfl,
            ToJs_lookups host schema.pool_ (sizeOf message) _ message t (Nat.le_refl _) h⟩
    · exact Or.inl h

/-- Witness of C12: the first lookup of `Tree`, which refers to itself, in a
new schema on `morePool`. -/
theorem lazy_adapter_construction_witness :
    (Schema.New morePool).GetType 2 = (0, ⟨morePool, [(2, 0)], [⟨2⟩]⟩) :=
  (lazy_adapter_construction exampleHost exampleCodec (Schema.New morePool) 2 rfl).1

/-- Counterexample to C12 as stated: `Box { repeated Paint items }` and the
record `{items: []}`.  The field is present, so `GetType` is called for `Paint`
before the array is looked at; the loop over the elements runs no step, the
message is left as it was, and no `Paint` value is converted, yet `Paint`
(descriptor 3) is cached after the call. -/
theorem empty_sequence_caches_nested_type :
    ToProto exampleHost morePool Box (NewMessage Box) (.object [("items", .array [])]) =
      ⟨none, NewMessage Box, [3]⟩ ∧
    (Serialize exampleHost exampleCodec (Schema.New morePool) ⟨1⟩
      (.object [("items", .array [])])).2.types_ = [(3, 0)] := by
  have h1 : ToProto exampleHost morePool Box (NewMessage Box)
      (.object [("items", .array [])]) = ⟨none, NewMessage Box, [3]⟩ := by
    simp [ToProto_eq, ToProtoFields_cons, ToProtoFields_nil, ToProtoField, ToProtoArray_nil,
      Populated.andThen, JsValue.Get, JsValue.lookup, JsValue.IsUndefined, JsValue.IsNull,
      JsValue.IsArray, JsValue.elements, Box]
  refine ⟨h1, ?_⟩
  have hp : (Schema.New morePool).pool_ = morePool := rfl
  have hd : morePool.descriptor 1 = Box := rfl
  simp only [Serialize, JsValue.IsObject, if_true, hp, hd, h1]
  rfl

end protobuf_for_node
